import Mathlib

/-! Banker's algorithm (`BankersAlgo.cpp`): embedding and verified properties

The C++ class `BankersAlgorithm` is embedded as a record of its six data members.
`int` values are modelled as `Int` with explicit 32-bit wrap-around: every addition
and subtraction of the source goes through `wrap`, the two's-complement result the
compiled program leaves on signed overflow, and the values a program state can
hold are those with `IsInt`.
`std::vector::operator[]` is modelled by checked indexing: every function of the
embedding returns `Option`, and `none` stands for a run that leaves defined
behaviour (an out-of-range index, or the `vector<char> Finish(n, 0)` constructor
called with a negative size).
-/

namespace BankersAlgo

/-! ## Embedding of the source -/

/-- The alias `using Vector = vector<int>`. -/
abbrev Vector := List Int

/-- The alias `using Matrix = vector<vector<int>>`. -/
abbrev Matrix := List (List Int)

/-- Data members of `class BankersAlgorithm`. -/
structure BankersAlgorithm where
  n : Int
  m : Int
  Available : Vector
  Max : Matrix
  Allocation : Matrix
  Need : Matrix
  deriving DecidableEq, Repr

/-- The enumeration `enum class RequestResult`. -/
inductive RequestResult where
  | Granted
  | ExceedsNeed
  | NotAvailable
  | Unsafe
  deriving DecidableEq, Repr

/-- Two's-complement wrap-around of a 32-bit `int`: the value the program holds after
an addition or subtraction whose exact result is `x`. -/
def wrap (x : Int) : Int := (x + 2147483648) % 4294967296 - 2147483648

/-- A value a 32-bit `int` can hold. -/
def IsInt (x : Int) : Prop := -2147483648 ≤ x ∧ x < 2147483648

instance (x : Int) : Decidable (IsInt x) := by
  unfold IsInt; infer_instance

/-- Element `v[i]` for an `int` index: a negative index is out of range. -/
def at? {α : Type} (v : List α) (i : Int) : Option α :=
  if i < 0 then none else v[i.toNat]?

/-- Loop of `canMeetNeed`, started at column `j` with `k` iterations left:
`for (; j < m; ++j) if (Need[pid][j] > Work[j]) return false; return true;`. -/
def canMeetNeedLoop (Need : Matrix) (pid : Nat) (Work : Vector) : Nat → Nat → Option Bool
  | _, 0 => some true
  | j, k + 1 => do
    let row ← Need[pid]?
    let nd ← row[j]?
    let w ← Work[j]?
    if nd > w then some false else canMeetNeedLoop Need pid Work (j + 1) k

/-- Member `bool canMeetNeed(int pid, const Vector& Work) const`; its only caller passes
the loop index of `Safety`, which is never negative. -/
def canMeetNeed (s : BankersAlgorithm) (pid : Nat) (Work : Vector) : Option Bool :=
  canMeetNeedLoop s.Need pid Work 0 s.m.toNat

/-- Loop `for (int j = 0; j < m; ++j) Work[j] += Allocation[i][j];` started at column `j`
with `k` iterations left. -/
def releaseLoop (Allocation : Matrix) (i : Nat) : Nat → Nat → Vector → Option Vector
  | _, 0, Work => some Work
  | j, k + 1, Work => do
    let w ← Work[j]?
    let row ← Allocation[i]?
    let a ← row[j]?
    releaseLoop Allocation i (j + 1) k (Work.set j (wrap (w + a)))

/-- Local variables of `Safety` that change while it runs. -/
structure SafetyState where
  Work : Vector
  Finish : List Bool
  safeSequence : List Nat
  progressed : Bool
  deriving DecidableEq, Repr

/-- Body of the `for (int i = 0; i < n; ++i)` loop of `Safety`. -/
def forBody (s : BankersAlgorithm) (i : Nat) (st : SafetyState) : Option SafetyState := do
  let f ← st.Finish[i]?
  if f then some st
  else
    let ok ← canMeetNeed s i st.Work
    if ok then
      let W ← releaseLoop s.Allocation i 0 s.m.toNat st.Work
      some { Work := W, Finish := st.Finish.set i true,
             safeSequence := st.safeSequence ++ [i], progressed := true }
    else some st

/-- The `for (int i = 0; i < n; ++i)` loop of `Safety`, started at `i` with `k`
iterations left. -/
def forLoop (s : BankersAlgorithm) : Nat → Nat → SafetyState → Option SafetyState
  | _, 0, st => some st
  | i, k + 1, st => do
    let st1 ← forBody s i st
    forLoop s (i + 1) k st1

/-- The `while (progressed)` loop of `Safety`; `fuel` bounds the number of passes,
and `none` is also returned when the fuel runs out before the loop ends. -/
def whileLoop (s : BankersAlgorithm) : Nat → SafetyState → Option SafetyState
  | 0, st => if st.progressed then none else some st
  | fuel + 1, st =>
    if st.progressed then do
      let st1 ← forLoop s 0 s.n.toNat { st with progressed := false }
      whileLoop s fuel st1
    else some st

/-- State of `Safety` when the `while` loop is entered. -/
def initState (s : BankersAlgorithm) : SafetyState :=
  { Work := s.Available, Finish := List.replicate s.n.toNat false,
    safeSequence := [], progressed := true }

/-- Function `Safety` run with a given bound on the number of passes. -/
def SafetyFuel (fuel : Nat) (s : BankersAlgorithm) : Option (Bool × List Nat) :=
  if s.n < 0 then none
  else do
    let st ← whileLoop s fuel (initState s)
    some (decide ((st.Finish.count true : Int) = s.n), st.safeSequence)

/-- Member `bool Safety(vector<int>& safeSequence) const`: the returned flag and the
sequence left in `safeSequence`. Every pass but the last finishes a process, so
`n + 1` passes are enough (`whileLoop_fuel_stable`). -/
def Safety (s : BankersAlgorithm) : Option (Bool × List Nat) :=
  SafetyFuel (s.n.toNat + 1) s

/-- First loop of `Request`:
`for (; j < m; ++j) if (req[j] > Need[pid][j]) return ExceedsNeed;`
The result is `false` when the loop returns `ExceedsNeed`. -/
def needGate (s : BankersAlgorithm) (pid : Int) (req : Vector) : Nat → Nat → Option Bool
  | _, 0 => some true
  | j, k + 1 => do
    let r ← req[j]?
    let row ← at? s.Need pid
    let nd ← row[j]?
    if r > nd then some false else needGate s pid req (j + 1) k

/-- Second loop of `Request`:
`for (; j < m; ++j) if (req[j] > Available[j]) return NotAvailable;`
The result is `false` when the loop returns `NotAvailable`. -/
def availGate (s : BankersAlgorithm) (req : Vector) : Nat → Nat → Option Bool
  | _, 0 => some true
  | j, k + 1 => do
    let r ← req[j]?
    let a ← s.Available[j]?
    if r > a then some false else availGate s req (j + 1) k

/-- Third loop of `Request`: `Available[j] -= req[j]; Allocation[pid][j] += req[j];
Need[pid][j] -= req[j];` for the columns from `j` on. -/
def applyLoop (pid : Int) (req : Vector) : Nat → Nat → BankersAlgorithm → Option BankersAlgorithm
  | _, 0, s => some s
  | j, k + 1, s => do
    let r ← req[j]?
    let a ← s.Available[j]?
    let arow ← at? s.Allocation pid
    let al ← arow[j]?
    let nrow ← at? s.Need pid
    let nd ← nrow[j]?
    applyLoop pid req (j + 1) k
      { s with Available := s.Available.set j (wrap (a - r)),
               Allocation := s.Allocation.set pid.toNat (arow.set j (wrap (al + r))),
               Need := s.Need.set pid.toNat (nrow.set j (wrap (nd - r))) }

/-- Roll-back loop of `Request`: `Available[j] += req[j]; Allocation[pid][j] -= req[j];
Need[pid][j] += req[j];` for the columns from `j` on. -/
def rollbackLoop (pid : Int) (req : Vector) : Nat → Nat → BankersAlgorithm → Option BankersAlgorithm
  | _, 0, s => some s
  | j, k + 1, s => do
    let r ← req[j]?
    let a ← s.Available[j]?
    let arow ← at? s.Allocation pid
    let al ← arow[j]?
    let nrow ← at? s.Need pid
    let nd ← nrow[j]?
    rollbackLoop pid req (j + 1) k
      { s with Available := s.Available.set j (wrap (a + r)),
               Allocation := s.Allocation.set pid.toNat (arow.set j (wrap (al - r))),
               Need := s.Need.set pid.toNat (nrow.set j (wrap (nd + r))) }

/-- What a call of `Request` leaves behind: the returned enumerator, the engine
state after the call, and the sequence assigned to `*safeAfter` (when the caller
passed a non-null pointer; nothing is assigned on the other outcomes). -/
structure RequestReturn where
  result : RequestResult
  state : BankersAlgorithm
  safeAfter : Option (List Nat)
  deriving DecidableEq, Repr

/-- Member `RequestResult Request(int pid, const Vector& req, vector<int>* safeAfter)`. -/
def Request (s : BankersAlgorithm) (pid : Int) (req : Vector) : Option RequestReturn := do
  let g1 ← needGate s pid req 0 s.m.toNat
  if !g1 then some ⟨RequestResult.ExceedsNeed, s, none⟩
  else
    let g2 ← availGate s req 0 s.m.toNat
    if !g2 then some ⟨RequestResult.NotAvailable, s, none⟩
    else
      let s1 ← applyLoop pid req 0 s.m.toNat s
      let r ← Safety s1
      if r.1 then some ⟨RequestResult.Granted, s1, some r.2⟩
      else
        let s2 ← rollbackLoop pid req 0 s.m.toNat s1
        some ⟨RequestResult.Unsafe, s2, none⟩

/-- Loop nest of `recomputeNeed` after `Need.assign(n, Vector(m, 0))`: row `i` of
`Need` becomes `Max[i][j] - Allocation[i][j]` for `j < m`. -/
def recomputeRow (Max Allocation : Matrix) (i : Nat) : Nat → Nat → Vector → Option Vector
  | _, 0, row => some row
  | j, k + 1, row => do
    let mrow ← Max[i]?
    let mx ← mrow[j]?
    let arow ← Allocation[i]?
    let al ← arow[j]?
    if j < row.length then recomputeRow Max Allocation i (j + 1) k (row.set j (wrap (mx - al)))
    else none

/-- Outer loop of `recomputeNeed`. -/
def recomputeRows (Max Allocation : Matrix) (m : Nat) : Nat → Nat → Matrix → Option Matrix
  | _, 0, Need => some Need
  | i, k + 1, Need => do
    let row ← Need[i]?
    let row1 ← recomputeRow Max Allocation i 0 m row
    recomputeRows Max Allocation m (i + 1) k (Need.set i row1)

/-- The constructor `BankersAlgorithm(n, m, available, maxClaim, allocation)`:
stores its arguments and calls `recomputeNeed`. -/
def construct (n m : Int) (available : Vector) (maxClaim allocation : Matrix) :
    Option BankersAlgorithm :=
  if n < 0 ∨ m < 0 then none
  else do
    let need ← recomputeRows maxClaim allocation m.toNat 0 n.toNat
      (List.replicate n.toNat (List.replicate m.toNat 0))
    some { n := n, m := m, Available := available, Max := maxClaim,
           Allocation := allocation, Need := need }

/-- The engine built in `main`. -/
def canonical : BankersAlgorithm :=
  { n := 5, m := 3, Available := [3, 3, 2],
    Max := [[7, 5, 3], [3, 2, 2], [9, 0, 2], [2, 2, 2], [4, 3, 3]],
    Allocation := [[0, 1, 0], [2, 0, 0], [3, 0, 2], [2, 1, 1], [0, 0, 2]],
    Need := [[7, 4, 3], [1, 2, 2], [6, 0, 0], [0, 1, 1], [4, 3, 1]] }

/-! ## Specification vocabulary -/

/-- Entry `A[i][j]` of a matrix (`0` outside the matrix). -/
def entry (A : Matrix) (i j : Nat) : Int := (A.getD i []).getD j 0

/-- Shape precondition: `Available` has length `m`; `Max`, `Allocation` and `Need`
have `n` rows of length `m`. -/
def Shaped (s : BankersAlgorithm) : Prop :=
  (s.Available.length : Int) = s.m ∧
  ((s.Max.length : Int) = s.n ∧ ∀ row ∈ s.Max, (row.length : Int) = s.m) ∧
  ((s.Allocation.length : Int) = s.n ∧ ∀ row ∈ s.Allocation, (row.length : Int) = s.m) ∧
  ((s.Need.length : Int) = s.n ∧ ∀ row ∈ s.Need, (row.length : Int) = s.m)

instance (s : BankersAlgorithm) : Decidable (Shaped s) := by
  unfold Shaped; infer_instance

/-- Every entry of a vector is a value a 32-bit `int` can hold. -/
def VecInt (v : Vector) : Prop := ∀ a ∈ v, IsInt a

instance (v : Vector) : Decidable (VecInt v) := by
  unfold VecInt; infer_instance

/-- Every entry of a matrix is a value a 32-bit `int` can hold. -/
def MatInt (A : Matrix) : Prop := ∀ row ∈ A, VecInt row

instance (A : Matrix) : Decidable (MatInt A) := by
  unfold MatInt; infer_instance

/-- A state the program can hold: every entry of its vectors is a 32-bit `int`. -/
def IntState (s : BankersAlgorithm) : Prop :=
  VecInt s.Available ∧ MatInt s.Max ∧ MatInt s.Allocation ∧ MatInt s.Need

instance (s : BankersAlgorithm) : Decidable (IntState s) := by
  unfold IntState; infer_instance

/-- Well-formed state: a state the program can hold (every entry a 32-bit `int`)
that meets the shape precondition and has `Need = Max - Allocation`. -/
def WellFormed (s : BankersAlgorithm) : Prop :=
  Shaped s ∧ IntState s ∧
    s.Need = List.zipWith (List.zipWith (· - ·)) s.Max s.Allocation

instance (s : BankersAlgorithm) : Decidable (WellFormed s) := by
  unfold WellFormed; infer_instance

/-- Every entry of a vector is non-negative. -/
def VecNonneg (v : Vector) : Prop := ∀ a ∈ v, 0 ≤ a

instance (v : Vector) : Decidable (VecNonneg v) := by
  unfold VecNonneg; infer_instance

/-- Every entry of a matrix is non-negative. -/
def MatNonneg (A : Matrix) : Prop := ∀ row ∈ A, VecNonneg row

instance (A : Matrix) : Decidable (MatNonneg A) := by
  unfold MatNonneg; infer_instance

/-- Eligibility rule: `Need[i][j] ≤ Work[j]` for every resource class `j < m`. -/
def eligible (s : BankersAlgorithm) (i : Nat) (Work : Vector) : Bool :=
  decide (∀ j < s.m.toNat, entry s.Need i j ≤ Work.getD j 0)

/-- Work vector after process `i` releases its allocation: the `int` sum
`Work[j] + Allocation[i][j]` in every column, as `Work[j] += Allocation[i][j]`
leaves it. -/
def release (s : BankersAlgorithm) (i : Nat) (Work : Vector) : Vector :=
  List.zipWith (fun w a => wrap (w + a)) Work (s.Allocation.getD i [])

/-- Replay of a finishing order from a work vector: each process in turn must be
eligible for the current work vector, after which its allocation is released. -/
def validReplay (s : BankersAlgorithm) : Vector → List Nat → Bool
  | _, [] => true
  | Work, i :: rest => eligible s i Work && validReplay s (release s i Work) rest

/-- Work vector at the end of the replay of an order. -/
def replayWork (s : BankersAlgorithm) : Vector → List Nat → Vector
  | Work, [] => Work
  | Work, i :: rest => replayWork s (release s i Work) rest

/-- Work vector after process `i` has returned its allocation, in the integers: the
sum `Work[j] + Allocation[i][j]` in every column. -/
def releaseExact (s : BankersAlgorithm) (i : Nat) (Work : Vector) : Vector :=
  List.zipWith (· + ·) Work (s.Allocation.getD i [])

/-- Finishing order in the glossary sense: every process in turn meets
`Need ≤ Work`, after which its allocation row is added to `Work`, in the integers. -/
def finishingOrder (s : BankersAlgorithm) : Vector → List Nat → Bool
  | _, [] => true
  | Work, i :: rest => eligible s i Work && finishingOrder s (releaseExact s i Work) rest

/-- Safe state in the glossary sense: some ordering of all `n` processes is a
finishing order from `Work = Available`. -/
def SafeState (s : BankersAlgorithm) : Prop :=
  ∃ order : List Nat, order.Perm (List.range s.n.toNat) ∧
    finishingOrder s s.Available order = true

/-- State reached when process `i` is found eligible in the `for` loop of `Safety`. -/
def finishProcess (s : BankersAlgorithm) (i : Nat) (st : SafetyState) : SafetyState :=
  { Work := release s i st.Work, Finish := st.Finish.set i true,
    safeSequence := st.safeSequence ++ [i], progressed := true }

/-- Invariant of the loops of `Safety`: the sequence built so far is a valid partial
finishing order, `Work` is its replay from `Available`, and `Finish` flags exactly
its members. -/
structure SafetyInv (s : BankersAlgorithm) (st : SafetyState) : Prop where
  work_len : st.Work.length = s.m.toNat
  fin_len : st.Finish.length = s.n.toNat
  work_eq : st.Work = replayWork s s.Available st.safeSequence
  fin_iff : ∀ i, st.Finish[i]? = some true ↔ i ∈ st.safeSequence
  nodup : st.safeSequence.Nodup
  count_eq : st.Finish.count true = st.safeSequence.length
  valid : validReplay s s.Available st.safeSequence = true

/-- No unfinished process is eligible for the current work vector. -/
def Stuck (s : BankersAlgorithm) (st : SafetyState) : Prop :=
  ∀ t, t < s.n.toNat → st.Finish[t]? = some true ∨ eligible s t st.Work = false

/-- Columns `j .. j+k-1` of `v` combined with the same columns of `req` by `f`; the
other columns are kept. -/
def updCols (f : Int → Int → Int) (req : Vector) : Nat → Nat → Vector → Vector
  | _, 0, v => v
  | j, k + 1, v => updCols f req (j + 1) k (v.set j (f (v.getD j 0) (req.getD j 0)))

/-- Common form of the mutation loop and the roll-back loop of `Request`: column
`j` of `Available`, `Allocation[pid]` and `Need[pid]` is combined with `req[j]` by
`fa`, `fl` and `fn`. -/
def updateLoop (fa fl fn : Int → Int → Int) (pid : Int) (req : Vector) :
    Nat → Nat → BankersAlgorithm → Option BankersAlgorithm
  | _, 0, s => some s
  | j, k + 1, s => do
    let r ← req[j]?
    let a ← s.Available[j]?
    let arow ← at? s.Allocation pid
    let al ← arow[j]?
    let nrow ← at? s.Need pid
    let nd ← nrow[j]?
    updateLoop fa fl fn pid req (j + 1) k
      { s with Available := s.Available.set j (fa a r),
               Allocation := s.Allocation.set pid.toNat (arow.set j (fl al r)),
               Need := s.Need.set pid.toNat (nrow.set j (fn nd r)) }

/-- State after the columns `j .. j+k-1` of `Available`, `Allocation[pid]` and
`Need[pid]` have been combined with the request. -/
def updateCols (fa fl fn : Int → Int → Int) (pid : Int) (req : Vector) (j k : Nat)
    (s : BankersAlgorithm) : BankersAlgorithm :=
  { s with
    Available := updCols fa req j k s.Available,
    Allocation := s.Allocation.set pid.toNat (updCols fl req j k (s.Allocation.getD pid.toNat [])),
    Need := s.Need.set pid.toNat (updCols fn req j k (s.Need.getD pid.toNat [])) }

/-- Every index the column loops evaluate for the columns `j .. j+k-1` is in range. -/
def ColsInRange (pid : Int) (req : Vector) (j k : Nat) (s : BankersAlgorithm) : Prop :=
  0 ≤ pid ∧ j + k ≤ req.length ∧ j + k ≤ s.Available.length ∧
  (∃ row, s.Allocation[pid.toNat]? = some row ∧ j + k ≤ row.length) ∧
  (∃ row, s.Need[pid.toNat]? = some row ∧ j + k ≤ row.length)

/-- First gate of the request protocol: `request[j] ≤ Need[pid][j]` for every `j < m`. -/
def withinNeed (s : BankersAlgorithm) (pid : Int) (req : Vector) : Bool :=
  decide (∀ j < s.m.toNat, req.getD j 0 ≤ entry s.Need pid.toNat j)

/-- Second gate of the request protocol: `request[j] ≤ Available[j]` for every `j < m`. -/
def withinAvailable (s : BankersAlgorithm) (req : Vector) : Bool :=
  decide (∀ j < s.m.toNat, req.getD j 0 ≤ s.Available.getD j 0)

/-- Speculative state of the request protocol: `Available - request`,
`Allocation[pid] + request`, `Need[pid] - request`, componentwise, as exact
integers. -/
def speculative (s : BankersAlgorithm) (pid : Int) (req : Vector) : BankersAlgorithm :=
  { s with
    Available := List.zipWith (· - ·) s.Available req,
    Allocation := s.Allocation.set pid.toNat
      (List.zipWith (· + ·) (s.Allocation.getD pid.toNat []) req),
    Need := s.Need.set pid.toNat (List.zipWith (· - ·) (s.Need.getD pid.toNat []) req) }

/-- State the mutation loop of `Request` leaves: the three updates of the speculative
state computed in `int` arithmetic. -/
def mutated (s : BankersAlgorithm) (pid : Int) (req : Vector) : BankersAlgorithm :=
  { s with
    Available := List.zipWith (fun a r => wrap (a - r)) s.Available req,
    Allocation := s.Allocation.set pid.toNat
      (List.zipWith (fun a r => wrap (a + r)) (s.Allocation.getD pid.toNat []) req),
    Need := s.Need.set pid.toNat
      (List.zipWith (fun a r => wrap (a - r)) (s.Need.getD pid.toNat []) req) }

/-- None of the three updates of a request leaves the `int` range in a column
`j < m`. -/
def NoOverflow (s : BankersAlgorithm) (pid : Int) (req : Vector) : Prop :=
  ∀ j, j < s.m.toNat →
    IsInt (s.Available.getD j 0 - req.getD j 0) ∧
    IsInt (entry s.Allocation pid.toNat j + req.getD j 0) ∧
    IsInt (entry s.Need pid.toNat j - req.getD j 0)

instance (s : BankersAlgorithm) (pid : Int) (req : Vector) :
    Decidable (NoOverflow s pid req) := by
  unfold NoOverflow; infer_instance

/-- Outcome of a request: the two gates in order, then the safety check of the
mutated state, which is kept when safe and dropped otherwise. -/
def requestOutcome (s : BankersAlgorithm) (pid : Int) (req : Vector) : Option RequestReturn :=
  if withinNeed s pid req = false then some ⟨RequestResult.ExceedsNeed, s, none⟩
  else if withinAvailable s req = false then some ⟨RequestResult.NotAvailable, s, none⟩
  else
    match Safety (mutated s pid req) with
    | some (true, seq) => some ⟨RequestResult.Granted, mutated s pid req, some seq⟩
    | some (false, _) => some ⟨RequestResult.Unsafe, s, none⟩
    | none => none

/-- In-range arguments of `Request`: a process index in `[0, n)` and a request
vector with at least `m` entries (the code reads the first `m`). -/
def ValidCall (s : BankersAlgorithm) (pid : Int) (req : Vector) : Prop :=
  0 ≤ pid ∧ pid < s.n ∧ s.m.toNat ≤ req.length

instance (s : BankersAlgorithm) (pid : Int) (req : Vector) : Decidable (ValidCall s pid req) := by
  unfold ValidCall; infer_instance

/-- The state left by process 1 requesting `[1,0,2]` from the engine built in `main`. -/
def canonicalAfter : BankersAlgorithm :=
  { n := 5, m := 3, Available := [2, 3, 0],
    Max := [[7, 5, 3], [3, 2, 2], [9, 0, 2], [2, 2, 2], [4, 3, 3]],
    Allocation := [[0, 1, 0], [3, 0, 2], [3, 0, 2], [2, 1, 1], [0, 0, 2]],
    Need := [[7, 4, 3], [0, 2, 0], [6, 0, 0], [0, 1, 1], [4, 3, 1]] }

/-- A public operation of the engine. -/
inductive Op where
  | request (pid : Int) (req : Vector)
  | safety
  deriving DecidableEq, Repr

/-- State after one operation. `Safety` is a `const` member function: it hands back
a flag and a sequence and leaves the engine as it is. -/
def step (s : BankersAlgorithm) : Op → Option BankersAlgorithm
  | Op.request pid req => (Request s pid req).map (fun r => r.state)
  | Op.safety => (Safety s).map (fun _ => s)

/-- State after a finite sequence of operations. -/
def run (s : BankersAlgorithm) : List Op → Option BankersAlgorithm
  | [] => some s
  | op :: rest => (step s op).bind (fun s1 => run s1 rest)

/-- State after a finite sequence of `Request` calls, given as `(pid, request)` pairs. -/
def runRequests (s : BankersAlgorithm) : List (Int × Vector) → Option BankersAlgorithm
  | [] => some s
  | call :: rest => (Request s call.1 call.2).bind (fun r => runRequests r.state rest)

/-- Total supply of resource class `j`: `Available[j] + Σ_i Allocation[i][j]` over
the processes `i < n`. -/
def totalUnits (s : BankersAlgorithm) (j : Nat) : Int :=
  s.Available.getD j 0 + ((List.range s.n.toNat).map (fun i => entry s.Allocation i j)).sum

/-- Invariant 1 of the data model: `0 ≤ Allocation[i][j] ≤ Max[i][j]`. -/
def AllocationWithinMax (s : BankersAlgorithm) : Prop :=
  ∀ i, i < s.n.toNat → ∀ j, j < s.m.toNat →
    0 ≤ entry s.Allocation i j ∧ entry s.Allocation i j ≤ entry s.Max i j

instance (s : BankersAlgorithm) : Decidable (AllocationWithinMax s) := by
  unfold AllocationWithinMax; infer_instance

/-- Non-negative part of invariant 2 of the data model: `Need[i][j] ≥ 0`. -/
def NeedNonneg (s : BankersAlgorithm) : Prop :=
  ∀ i, i < s.n.toNat → ∀ j, j < s.m.toNat → 0 ≤ entry s.Need i j

instance (s : BankersAlgorithm) : Decidable (NeedNonneg s) := by
  unfold NeedNonneg; infer_instance

/-- Invariant 3 of the data model: `Available[j] ≥ 0`. -/
def AvailableNonneg (s : BankersAlgorithm) : Prop :=
  ∀ j, j < s.m.toNat → 0 ≤ s.Available.getD j 0

instance (s : BankersAlgorithm) : Decidable (AvailableNonneg s) := by
  unfold AvailableNonneg; infer_instance

/-- A call `Safety(safeSequence)` seen from the caller, who passes a vector with
some prior contents by reference: `safeSequence.clear()` drops all its elements
before the loop, and since `Safety` is a `const` member function the engine is handed back as
it was. The result is the engine after the call, the returned flag and the
contents of the vector after the call. -/
def SafetyCall (s : BankersAlgorithm) (safeSequence : List Nat) :
    Option (BankersAlgorithm × Bool × List Nat) :=
  if s.n < 0 then none
  else do
    let st ← whileLoop s (s.n.toNat + 1)
      { Work := s.Available, Finish := List.replicate s.n.toNat false,
        safeSequence := safeSequence.drop safeSequence.length, progressed := true }
    some (s, decide ((st.Finish.count true : Int) = s.n), st.safeSequence)

/-- Invariant 2 of the data model, as an equation between entries:
`Need[i][j] = Max[i][j] - Allocation[i][j]` for `i < n`, `j < m`. -/
def NeedDerived (s : BankersAlgorithm) : Prop :=
  ∀ i, i < s.n.toNat → ∀ j, j < s.m.toNat →
    entry s.Need i j = entry s.Max i j - entry s.Allocation i j

instance (s : BankersAlgorithm) : Decidable (NeedDerived s) := by
  unfold NeedDerived; infer_instance

/-- A matrix with `n` rows of length `m`. -/
def MatShape (A : Matrix) (n m : Int) : Prop :=
  (A.length : Int) = n ∧ ∀ row ∈ A, (row.length : Int) = m

instance (A : Matrix) (n m : Int) : Decidable (MatShape A n m) := by
  unfold MatShape; infer_instance

/-- The state left on the engine built in `main` by process 0 requesting `[0,-2,0]`. -/
def canonicalNegative : BankersAlgorithm :=
  { n := 5, m := 3, Available := [3, 5, 2],
    Max := [[7, 5, 3], [3, 2, 2], [9, 0, 2], [2, 2, 2], [4, 3, 3]],
    Allocation := [[0, -1, 0], [2, 0, 0], [3, 0, 2], [2, 1, 1], [0, 0, 2]],
    Need := [[7, 6, 3], [1, 2, 2], [6, 0, 0], [0, 1, 1], [4, 3, 1]] }

/-- The `while (progressed)` loop of `Safety` with a log of its passes: the same
computation as `whileLoop`, which also records for every pass run whether it set
`progressed`. -/
def whileLoopLog (s : BankersAlgorithm) : Nat → SafetyState → Option (SafetyState × List Bool)
  | 0, st => if st.progressed then none else some (st, [])
  | fuel + 1, st =>
    if st.progressed then do
      let st1 ← forLoop s 0 s.n.toNat { st with progressed := false }
      let r ← whileLoopLog s fuel st1
      some (r.1, st1.progressed :: r.2)
    else some (st, [])

/-- No-overflow condition for the work vector: every total supply
`Available[j] + Σ_i Allocation[i][j]` is at most `INT_MAX`. -/
def SupplyFits (s : BankersAlgorithm) : Prop :=
  ∀ j, j < s.m.toNat → totalUnits s j < 2147483648

instance (s : BankersAlgorithm) : Decidable (SupplyFits s) := by
  unfold SupplyFits; infer_instance

/-- A well-formed two-process state whose total supply is `INT_MAX + 1`: process 0
holds one unit and needs nothing, process 1 holds nothing and needs five. -/
def overflowTwo : BankersAlgorithm :=
  { n := 2, m := 1, Available := [2147483647], Max := [[1], [5]],
    Allocation := [[1], [0]], Need := [[0], [5]] }

/-- A well-formed one-process state satisfying the data-model invariants, with
`Available[0] = INT_MAX` and `Max[0][0] = Need[0][0] = INT_MAX`. -/
def overflowGrant : BankersAlgorithm :=
  { n := 1, m := 1, Available := [2147483647], Max := [[2147483647]],
    Allocation := [[0]], Need := [[2147483647]] }

/-- The state the granted request `[-1]` of process 0 leaves on `overflowGrant`. -/
def overflowGrantAfter : BankersAlgorithm :=
  { n := 1, m := 1, Available := [-2147483648], Max := [[2147483647]],
    Allocation := [[-1]], Need := [[-2147483648]] }

/-- The request of an operation, if it is a `Request` call, is componentwise
non-negative. -/
def opNonneg : Op → Prop
  | Op.request _ req => VecNonneg req
  | Op.safety => True

instance (op : Op) : Decidable (opNonneg op) := by
  cases op <;> (unfold opNonneg; infer_instance)

/-- Every `Request` call of a sequence of operations has a componentwise
non-negative request. -/
def OpsNonneg (ops : List Op) : Prop := ∀ op ∈ ops, opNonneg op

instance (ops : List Op) : Decidable (OpsNonneg ops) := by
  unfold OpsNonneg; infer_instance

/-- Invariant 2 of the data model as the code computes it: `Need[i][j]` is the `int`
difference `Max[i][j] - Allocation[i][j]` for `i < n`, `j < m`. -/
def NeedDerivedInt (s : BankersAlgorithm) : Prop :=
  ∀ i, i < s.n.toNat → ∀ j, j < s.m.toNat →
    entry s.Need i j = wrap (entry s.Max i j - entry s.Allocation i j)

instance (s : BankersAlgorithm) : Decidable (NeedDerivedInt s) := by
  unfold NeedDerivedInt; infer_instance

/-! ## The engine built in `main` -/

/-- The constructor call of `main` yields `canonical`. -/
theorem construct_canonical :
    construct 5 3 [3, 3, 2] [[7, 5, 3], [3, 2, 2], [9, 0, 2], [2, 2, 2], [4, 3, 3]]
      [[0, 1, 0], [2, 0, 0], [3, 0, 2], [2, 1, 1], [0, 0, 2]] = some canonical := by
  decide

/-! ## Loops of `Safety` on well-shaped data -/

theorem canMeetNeedLoop_eq (Need : Matrix) (pid : Nat) (Work row : Vector)
    (hrow : Need[pid]? = some row) :
    ∀ k j, j + k ≤ row.length → j + k ≤ Work.length →
      canMeetNeedLoop Need pid Work j k =
        some (decide (∀ t, j ≤ t → t < j + k → row.getD t 0 ≤ Work.getD t 0)) := by
  intro k
  induction k with
  | zero =>
    intro j _ _
    simp only [canMeetNeedLoop, Option.some.injEq, true_eq_decide_iff]
    intro t h1 h2
    omega
  | succ k ih =>
    intro j h1 h2
    have hj1 : j < row.length := by omega
    have hj2 : j < Work.length := by omega
    simp only [canMeetNeedLoop, hrow, Option.bind_eq_bind, Option.some_bind,
      List.getElem?_eq_getElem hj1, List.getElem?_eq_getElem hj2]
    by_cases hc : row[j] > Work[j]
    · simp only [hc, if_true]
      congr 1
      symm
      simp only [decide_eq_false_iff_not, not_forall]
      refine ⟨j, le_refl j, by omega, ?_⟩
      simp [List.getElem?_eq_getElem hj1, List.getElem?_eq_getElem hj2]
      exact hc
    · simp only [hc, if_false]
      rw [ih (j + 1) (by omega) (by omega)]
      congr 1
      apply decide_eq_decide.mpr
      constructor
      · intro h t ht1 ht2
        rcases Nat.eq_or_lt_of_le ht1 with heq | hlt
        · subst heq
          simp [List.getElem?_eq_getElem hj1, List.getElem?_eq_getElem hj2]
          exact not_lt.mp hc
        · exact h t hlt (by omega)
      · intro h t ht1 ht2
        exact h t (by omega) (by omega)

theorem releaseLoop_get (Allocation : Matrix) (i : Nat) (row : Vector)
    (hrow : Allocation[i]? = some row) :
    ∀ k j (W : Vector), j + k ≤ row.length → j + k ≤ W.length →
      ∃ W1, releaseLoop Allocation i j k W = some W1 ∧
        ∀ t, W1[t]? =
          if j ≤ t ∧ t < j + k then some (wrap (W.getD t 0 + row.getD t 0)) else W[t]? := by
  intro k
  induction k with
  | zero =>
    intro j W _ _
    refine ⟨W, by simp [releaseLoop], ?_⟩
    intro t
    have : ¬ (j ≤ t ∧ t < j + 0) := by omega
    simp only [this, if_false]
  | succ k ih =>
    intro j W h1 h2
    have hj1 : j < row.length := by omega
    have hj2 : j < W.length := by omega
    obtain ⟨W1, hW1, hget⟩ := ih (j + 1) (W.set j (wrap (W[j] + row[j]))) (by omega)
      (by simp only [List.length_set]; omega)
    refine ⟨W1, ?_, ?_⟩
    · simp only [releaseLoop, hrow, Option.bind_eq_bind, Option.some_bind,
        List.getElem?_eq_getElem hj1, List.getElem?_eq_getElem hj2]
      exact hW1
    · intro t
      rw [hget t]
      by_cases htj : t = j
      · subst htj
        have c1 : ¬ (t + 1 ≤ t ∧ t < t + 1 + k) := by omega
        have c2 : t ≤ t ∧ t < t + (k + 1) := by omega
        simp only [c1, c2, if_false, if_true, List.getElem?_set_self hj2]
        simp [List.getElem?_eq_getElem hj1, List.getElem?_eq_getElem hj2]
      · have hne : j ≠ t := fun h => htj h.symm
        by_cases c : j + 1 ≤ t ∧ t < j + 1 + k
        · have c2 : j ≤ t ∧ t < j + (k + 1) := by omega
          simp only [c, c2, and_self, if_true, List.getD_eq_getElem?_getD,
            List.getElem?_set_ne hne]
        · have c2 : ¬ (j ≤ t ∧ t < j + (k + 1)) := by omega
          simp only [c, c2, if_false, List.getElem?_set_ne hne]

theorem releaseLoop_eq (s : BankersAlgorithm) (i : Nat) (row W : Vector)
    (hrow : s.Allocation[i]? = some row) (h1 : row.length = s.m.toNat)
    (h2 : W.length = s.m.toNat) :
    releaseLoop s.Allocation i 0 s.m.toNat W = some (release s i W) := by
  obtain ⟨W1, hW1, hget⟩ := releaseLoop_get s.Allocation i row hrow s.m.toNat 0 W
    (by omega) (by omega)
  rw [hW1]
  congr 1
  apply List.ext_getElem?
  intro t
  rw [hget t]
  have hr : s.Allocation.getD i [] = row := by
    simp [hrow]
  simp only [release, hr, List.getElem?_zipWith]
  by_cases ht : t < s.m.toNat
  · have ht1 : t < row.length := by omega
    have ht2 : t < W.length := by omega
    simp [ht, List.getElem?_eq_getElem ht1, List.getElem?_eq_getElem ht2]
  · have ht1 : row.length ≤ t := by omega
    have ht2 : W.length ≤ t := by omega
    simp [ht, List.getElem?_eq_none ht1, List.getElem?_eq_none ht2]

theorem canMeetNeed_eq (s : BankersAlgorithm) (i : Nat) (row W : Vector)
    (hrow : s.Need[i]? = some row) (h1 : row.length = s.m.toNat)
    (h2 : W.length = s.m.toNat) :
    canMeetNeed s i W = some (eligible s i W) := by
  unfold canMeetNeed
  rw [canMeetNeedLoop_eq s.Need i W row hrow s.m.toNat 0 (by omega) (by omega)]
  congr 1
  have hr : s.Need.getD i [] = row := by
    simp [hrow]
  unfold eligible entry
  rw [hr]
  apply decide_eq_decide.mpr
  constructor
  · intro h j hj
    exact h j (Nat.zero_le j) (by omega)
  · intro h t _ ht
    exact h t (by omega)

theorem release_length (s : BankersAlgorithm) (i : Nat) (row W : Vector)
    (hrow : s.Allocation[i]? = some row) (h1 : row.length = s.m.toNat)
    (h2 : W.length = s.m.toNat) : (release s i W).length = s.m.toNat := by
  have hr : s.Allocation.getD i [] = row := by
    simp [hrow]
  unfold release
  rw [hr, List.length_zipWith, h1, h2, Nat.min_self]

theorem replayWork_snoc (s : BankersAlgorithm) (l : List Nat) (i : Nat) :
    ∀ W, replayWork s W (l ++ [i]) = release s i (replayWork s W l) := by
  induction l with
  | nil => intro W; rfl
  | cons a l ih =>
    intro W
    show replayWork s (release s a W) (l ++ [i]) = _
    rw [ih]
    rfl

theorem validReplay_snoc (s : BankersAlgorithm) (l : List Nat) (i : Nat) :
    ∀ W, validReplay s W (l ++ [i]) =
      (validReplay s W l && eligible s i (replayWork s W l)) := by
  induction l with
  | nil => intro W; simp [validReplay, replayWork]
  | cons a l ih =>
    intro W
    show (eligible s a W && validReplay s (release s a W) (l ++ [i])) = _
    rw [ih, ← Bool.and_assoc]
    rfl

theorem rows_get (A : Matrix) (n m : Int) (h1 : (A.length : Int) = n)
    (h2 : ∀ row ∈ A, (row.length : Int) = m) (i : Nat) (hi : i < n.toNat) :
    ∃ row, A[i]? = some row ∧ row.length = m.toNat := by
  have hlt : i < A.length := by omega
  refine ⟨A[i], List.getElem?_eq_getElem hlt, ?_⟩
  have := h2 A[i] (List.getElem_mem hlt)
  omega

theorem Shaped.avail_length {s : BankersAlgorithm} (h : Shaped s) :
    s.Available.length = s.m.toNat := by
  have := h.1
  omega

theorem Shaped.alloc_row {s : BankersAlgorithm} (h : Shaped s) (i : Nat)
    (hi : i < s.n.toNat) : ∃ row, s.Allocation[i]? = some row ∧ row.length = s.m.toNat :=
  rows_get s.Allocation s.n s.m h.2.2.1.1 h.2.2.1.2 i hi

theorem Shaped.need_row {s : BankersAlgorithm} (h : Shaped s) (i : Nat)
    (hi : i < s.n.toNat) : ∃ row, s.Need[i]? = some row ∧ row.length = s.m.toNat :=
  rows_get s.Need s.n s.m h.2.2.2.1 h.2.2.2.2 i hi

theorem count_true_set (l : List Bool) : ∀ i, l[i]? = some false →
    (l.set i true).count true = l.count true + 1 := by
  induction l with
  | nil => intro i h; simp at h
  | cons a l ih =>
    intro i h
    cases i with
    | zero =>
      simp only [List.getElem?_cons_zero, Option.some.injEq] at h
      subst h
      simp [List.count_cons]
    | succ i =>
      simp only [List.getElem?_cons_succ] at h
      simp only [List.set_cons_succ, List.count_cons, ih i h]
      omega

theorem count_false_set (l : List Bool) : ∀ i, l[i]? = some false →
    (l.set i true).count false + 1 = l.count false := by
  induction l with
  | nil => intro i h; simp at h
  | cons a l ih =>
    intro i h
    cases i with
    | zero =>
      simp only [List.getElem?_cons_zero, Option.some.injEq] at h
      subst h
      simp [List.count_cons]
    | succ i =>
      simp only [List.getElem?_cons_succ] at h
      simp only [List.set_cons_succ, List.count_cons]
      have := ih i h
      omega

/-- The three ways through the body of the `for` loop of `Safety`. -/
theorem forBody_cases (s : BankersAlgorithm) (hs : Shaped s) (i : Nat) (hi : i < s.n.toNat)
    (st : SafetyState) (hW : st.Work.length = s.m.toNat)
    (hF : st.Finish.length = s.n.toNat) :
    (st.Finish[i]? = some true ∧ forBody s i st = some st) ∨
    (st.Finish[i]? = some false ∧ eligible s i st.Work = false ∧ forBody s i st = some st) ∨
    (st.Finish[i]? = some false ∧ eligible s i st.Work = true ∧
      forBody s i st = some (finishProcess s i st)) := by
  have hlt : i < st.Finish.length := by omega
  obtain ⟨nrow, hn1, hn2⟩ := hs.need_row i hi
  obtain ⟨arow, ha1, ha2⟩ := hs.alloc_row i hi
  have hget : st.Finish[i]? = some st.Finish[i] := List.getElem?_eq_getElem hlt
  cases hf : st.Finish[i] with
  | true =>
    left
    rw [hf] at hget
    refine ⟨hget, ?_⟩
    simp [forBody, hget]
  | false =>
    right
    rw [hf] at hget
    cases he : eligible s i st.Work with
    | false =>
      left
      refine ⟨hget, rfl, ?_⟩
      simp [forBody, hget, canMeetNeed_eq s i nrow st.Work hn1 hn2 hW, he]
    | true =>
      right
      refine ⟨hget, rfl, ?_⟩
      simp [forBody, hget, canMeetNeed_eq s i nrow st.Work hn1 hn2 hW, he,
        releaseLoop_eq s i arow st.Work ha1 ha2 hW, finishProcess]

theorem SafetyInv.init (s : BankersAlgorithm) (hs : Shaped s) : SafetyInv s (initState s) := by
  refine ⟨hs.avail_length, by simp [initState], rfl, ?_, List.nodup_nil,
    by simp [initState, List.count_replicate], rfl⟩
  intro i
  simp only [initState, List.not_mem_nil, iff_false]
  intro h
  have := List.getElem?_eq_some.mp h
  obtain ⟨hlt, hv⟩ := this
  simp at hv

theorem SafetyInv.finishProcess {s : BankersAlgorithm} (hs : Shaped s) {st : SafetyState}
    (inv : SafetyInv s st) (i : Nat) (hi : i < s.n.toNat) (hf : st.Finish[i]? = some false)
    (he : eligible s i st.Work = true) : SafetyInv s (finishProcess s i st) := by
  obtain ⟨arow, ha1, ha2⟩ := hs.alloc_row i hi
  have hnot : i ∉ st.safeSequence := by
    intro hmem
    have := (inv.fin_iff i).mpr hmem
    rw [hf] at this
    cases this
  have hlt : i < st.Finish.length := by
    have := inv.fin_len
    omega
  refine ⟨?_, ?_, ?_, ?_, ?_, ?_, ?_⟩
  · exact release_length s i arow st.Work ha1 ha2 inv.work_len
  · simp [BankersAlgo.finishProcess, inv.fin_len]
  · show release s i st.Work = replayWork s s.Available (st.safeSequence ++ [i])
    rw [replayWork_snoc, ← inv.work_eq]
  · intro t
    show (st.Finish.set i true)[t]? = some true ↔ t ∈ st.safeSequence ++ [i]
    by_cases hti : i = t
    · subst hti
      simp [List.getElem?_set_self hlt]
    · rw [List.getElem?_set_ne hti, inv.fin_iff t]
      simp only [List.mem_append, List.mem_singleton]
      constructor
      · intro h; exact Or.inl h
      · intro h
        rcases h with h | h
        · exact h
        · exact absurd h.symm hti
  · show (st.safeSequence ++ [i]).Nodup
    rw [List.nodup_append]
    refine ⟨inv.nodup, List.nodup_singleton i, ?_⟩
    intro a ha hb
    simp only [List.mem_singleton] at hb
    exact hnot (hb ▸ ha)
  · show (st.Finish.set i true).count true = (st.safeSequence ++ [i]).length
    rw [count_true_set st.Finish i hf, inv.count_eq]
    simp
  · show validReplay s s.Available (st.safeSequence ++ [i]) = true
    rw [validReplay_snoc, inv.valid, ← inv.work_eq, he]
    rfl

/-! ## Progress of the passes: every pass that changes the state finishes a process -/

theorem forBody_progress (s : BankersAlgorithm) (i : Nat) (st st1 : SafetyState)
    (h : forBody s i st = some st1) :
    st1 = st ∨ (st1.progressed = true ∧ st1.Finish.count false < st.Finish.count false) := by
  unfold forBody at h
  cases hf : st.Finish[i]? with
  | none => simp [hf] at h
  | some f =>
    cases f with
    | true =>
      simp [hf] at h
      exact Or.inl h.symm
    | false =>
      cases hc : canMeetNeed s i st.Work with
      | none => simp [hf, hc] at h
      | some ok =>
        cases ok with
        | false =>
          simp [hf, hc] at h
          exact Or.inl h.symm
        | true =>
          cases hr : releaseLoop s.Allocation i 0 s.m.toNat st.Work with
          | none => simp [hf, hc, hr] at h
          | some W =>
            simp [hf, hc, hr] at h
            right
            subst h
            refine ⟨rfl, ?_⟩
            have := count_false_set st.Finish i hf
            show (st.Finish.set i true).count false < _
            omega

theorem forLoop_progress (s : BankersAlgorithm) : ∀ k i (st st1 : SafetyState),
    forLoop s i k st = some st1 →
    st1 = st ∨ (st1.progressed = true ∧ st1.Finish.count false < st.Finish.count false) := by
  intro k
  induction k with
  | zero =>
    intro i st st1 h
    simp only [forLoop, Option.some.injEq] at h
    exact Or.inl h.symm
  | succ k ih =>
    intro i st st1 h
    simp only [forLoop, Option.bind_eq_bind] at h
    cases hb : forBody s i st with
    | none => simp [hb] at h
    | some st2 =>
      simp only [hb, Option.some_bind] at h
      rcases ih (i + 1) st2 st1 h with h1 | ⟨h1, h2⟩
      · subst h1
        exact forBody_progress s i st st1 hb
      · right
        refine ⟨h1, ?_⟩
        rcases forBody_progress s i st st2 hb with h3 | ⟨_, h4⟩
        · subst h3; exact h2
        · omega

theorem whileLoop_done (s : BankersAlgorithm) (fuel : Nat) (st : SafetyState)
    (h : st.progressed = false) : whileLoop s fuel st = some st := by
  cases fuel <;> simp [whileLoop, h]

/-- Extra fuel never changes the result of the `while` loop once the fuel exceeds
the number of unfinished processes: running out of fuel does not happen. -/
theorem whileLoop_fuel_stable (s : BankersAlgorithm) : ∀ fuel (st : SafetyState),
    st.Finish.count false < fuel → ∀ extra, whileLoop s (fuel + extra) st = whileLoop s fuel st := by
  intro fuel
  induction fuel with
  | zero => intro st h; omega
  | succ fuel ih =>
    intro st h extra
    have e : fuel + 1 + extra = (fuel + extra) + 1 := by omega
    rw [e]
    cases hp : st.progressed with
    | false => rw [whileLoop_done s _ st hp, whileLoop_done s _ st hp]
    | true =>
      simp only [whileLoop, hp, if_true, Option.bind_eq_bind]
      cases hl : forLoop s 0 s.n.toNat { st with progressed := false } with
      | none => rfl
      | some st1 =>
        simp only [Option.some_bind]
        rcases forLoop_progress s _ _ _ _ hl with h1 | ⟨_, h2⟩
        · have hp1 : st1.progressed = false := by rw [h1]
          rw [whileLoop_done s _ st1 hp1, whileLoop_done s _ st1 hp1]
        · exact ih st1 (by simp only at h2; omega) extra

/-- The bound `n + 1` on the number of passes used by `Safety` loses nothing: any
larger bound gives the same result. -/
theorem SafetyFuel_stable (s : BankersAlgorithm) (extra : Nat) :
    SafetyFuel (s.n.toNat + 1 + extra) s = Safety s := by
  unfold Safety SafetyFuel
  rw [whileLoop_fuel_stable s (s.n.toNat + 1) (initState s) (by simp [initState]) extra]

/-! ## The loops of `Safety` keep the invariant -/

theorem forLoop_inv (s : BankersAlgorithm) (hs : Shaped s) : ∀ k i (st : SafetyState),
    i + k ≤ s.n.toNat → SafetyInv s st →
    ∃ st1, forLoop s i k st = some st1 ∧ SafetyInv s st1 ∧
      (st1.progressed = false → st1 = st ∧
        ∀ t, i ≤ t → t < i + k → st.Finish[t]? = some true ∨ eligible s t st.Work = false) := by
  intro k
  induction k with
  | zero =>
    intro i st _ inv
    refine ⟨st, rfl, inv, fun _ => ⟨rfl, ?_⟩⟩
    intro t h1 h2
    omega
  | succ k ih =>
    intro i st hik inv
    have hi : i < s.n.toNat := by omega
    rcases forBody_cases s hs i hi st inv.work_len inv.fin_len with
      ⟨hf, hb⟩ | ⟨hf, he, hb⟩ | ⟨hf, he, hb⟩
    · obtain ⟨st1, h1, inv1, h2⟩ := ih (i + 1) st (by omega) inv
      refine ⟨st1, by simp [forLoop, hb, h1], inv1, ?_⟩
      intro hp
      obtain ⟨e, hall⟩ := h2 hp
      refine ⟨e, ?_⟩
      intro t ht1 ht2
      rcases Nat.eq_or_lt_of_le ht1 with heq | hlt
      · subst heq; exact Or.inl hf
      · exact hall t hlt (by omega)
    · obtain ⟨st1, h1, inv1, h2⟩ := ih (i + 1) st (by omega) inv
      refine ⟨st1, by simp [forLoop, hb, h1], inv1, ?_⟩
      intro hp
      obtain ⟨e, hall⟩ := h2 hp
      refine ⟨e, ?_⟩
      intro t ht1 ht2
      rcases Nat.eq_or_lt_of_le ht1 with heq | hlt
      · subst heq; exact Or.inr he
      · exact hall t hlt (by omega)
    · obtain ⟨st1, h1, inv1, h2⟩ := ih (i + 1) (finishProcess s i st) (by omega)
        (inv.finishProcess hs i hi hf he)
      refine ⟨st1, by simp [forLoop, hb, h1], inv1, ?_⟩
      intro hp
      exfalso
      obtain ⟨e, _⟩ := h2 hp
      rw [e] at hp
      simp [finishProcess] at hp

theorem SafetyInv.clear {s : BankersAlgorithm} {st : SafetyState} (inv : SafetyInv s st) :
    SafetyInv s { st with progressed := false } :=
  ⟨inv.work_len, inv.fin_len, inv.work_eq, inv.fin_iff, inv.nodup, inv.count_eq, inv.valid⟩

theorem whileLoop_inv (s : BankersAlgorithm) (hs : Shaped s) : ∀ fuel (st : SafetyState),
    st.Finish.count false < fuel → SafetyInv s st → (st.progressed = false → Stuck s st) →
    ∃ st1, whileLoop s fuel st = some st1 ∧ SafetyInv s st1 ∧ Stuck s st1 := by
  intro fuel
  induction fuel with
  | zero => intro st h; omega
  | succ fuel ih =>
    intro st h inv hstuck
    cases hp : st.progressed with
    | false => exact ⟨st, whileLoop_done s _ st hp, inv, hstuck hp⟩
    | true =>
      obtain ⟨st1, h1, inv1, h2⟩ := forLoop_inv s hs s.n.toNat 0 { st with progressed := false }
        (by omega) inv.clear
      have hw : whileLoop s (fuel + 1) st = whileLoop s fuel st1 := by
        simp [whileLoop, hp, h1]
      rw [hw]
      cases hp1 : st1.progressed with
      | false =>
        obtain ⟨e, hall⟩ := h2 hp1
        refine ⟨st1, whileLoop_done s _ st1 hp1, inv1, ?_⟩
        intro t ht
        rw [e]
        exact hall t (Nat.zero_le t) (by omega)
      | true =>
        rcases forLoop_progress s _ _ _ _ h1 with h3 | ⟨_, h4⟩
        · rw [h3] at hp1; simp at hp1
        · exact ih st1 (by simp only at h4; omega) inv1 (by rw [hp1]; intro hh; cases hh)

/-- On a well-shaped state `Safety` returns, and what it returns is described by a
final loop state that satisfies the invariant and in which no unfinished process
is eligible. -/
theorem Safety_final (s : BankersAlgorithm) (hs : Shaped s) :
    ∃ st, Safety s = some (decide (st.safeSequence.length = s.n.toNat), st.safeSequence) ∧
      SafetyInv s st ∧ Stuck s st := by
  obtain ⟨st, h1, inv, hstuck⟩ := whileLoop_inv s hs (s.n.toNat + 1) (initState s)
    (by simp [initState]) (SafetyInv.init s hs) (by simp [initState])
  refine ⟨st, ?_, inv, hstuck⟩
  have hn : ¬ s.n < 0 := by
    have := hs.2.1.1
    omega
  unfold Safety SafetyFuel
  simp only [hn, if_false, h1, Option.bind_eq_bind, Option.some_bind, inv.count_eq]
  congr 2
  apply decide_eq_decide.mpr
  omega

/-! ## Replay within the `int` range -/

theorem wrap_eq (x : Int) (h : IsInt x) : wrap x = x := by
  unfold IsInt at h
  unfold wrap
  omega

theorem isInt_wrap (x : Int) : IsInt (wrap x) := by
  unfold wrap IsInt
  omega

theorem vecInt_getD (v : Vector) (hv : VecInt v) (j : Nat) (hj : j < v.length) :
    IsInt (v.getD j 0) := by
  have : v.getD j 0 = v[j] := by simp [List.getElem?_eq_getElem hj]
  rw [this]
  exact hv _ (List.getElem_mem hj)

theorem row_nonneg (A : Matrix) (hA : MatNonneg A) (i : Nat) : VecNonneg (A.getD i []) := by
  rw [List.getD_eq_getElem?_getD]
  cases h : A[i]? with
  | none => intro a ha; simp at ha
  | some row =>
    obtain ⟨hlt, hrow⟩ := List.getElem?_eq_some.mp h
    rw [Option.getD_some, ← hrow]
    exact hA _ (List.getElem_mem hlt)

theorem entry_nonneg (A : Matrix) (hA : MatNonneg A) (i j : Nat) : 0 ≤ entry A i j := by
  unfold entry
  have hrow := row_nonneg A hA i
  rw [List.getD_eq_getElem?_getD (A.getD i [])]
  cases h : (A.getD i [])[j]? with
  | none => simp
  | some a =>
    obtain ⟨hlt, ha⟩ := List.getElem?_eq_some.mp h
    rw [Option.getD_some, ← ha]
    exact hrow _ (List.getElem_mem hlt)

theorem SafetyInv.lt_n {s : BankersAlgorithm} {st : SafetyState} (inv : SafetyInv s st)
    (i : Nat) (hi : i ∈ st.safeSequence) : i < s.n.toNat := by
  have h := (inv.fin_iff i).mpr hi
  obtain ⟨hlt, _⟩ := List.getElem?_eq_some.mp h
  have := inv.fin_len
  omega

theorem SafetyInv.perm {s : BankersAlgorithm} {st : SafetyState} (inv : SafetyInv s st)
    (hlen : st.safeSequence.length = s.n.toNat) :
    st.safeSequence.Perm (List.range s.n.toNat) := by
  apply List.Subperm.perm_of_length_le
  · apply List.subperm_of_subset inv.nodup
    intro i hi
    exact List.mem_range.mpr (inv.lt_n i hi)
  · rw [List.length_range, hlen]

theorem release_getD (s : BankersAlgorithm) (hs : Shaped s) (i : Nat) (hi : i < s.n.toNat)
    (W : Vector) (hW : W.length = s.m.toNat) (j : Nat) (hj : j < s.m.toNat) :
    (release s i W).getD j 0 = wrap (W.getD j 0 + entry s.Allocation i j) := by
  obtain ⟨row, hrow, hlen⟩ := hs.alloc_row i hi
  have hr : s.Allocation.getD i [] = row := by
    simp [hrow]
  have h1 : j < W.length := by omega
  have h2 : j < row.length := by omega
  unfold release entry
  rw [hr]
  simp [List.getElem?_zipWith, List.getElem?_eq_getElem h1, List.getElem?_eq_getElem h2]

theorem replayWork_length (s : BankersAlgorithm) (hs : Shaped s) :
    ∀ (l : List Nat) (W : Vector), W.length = s.m.toNat → (∀ i ∈ l, i < s.n.toNat) →
      (replayWork s W l).length = s.m.toNat := by
  intro l
  induction l with
  | nil => intro W hW _; exact hW
  | cons i l ih =>
    intro W hW hl
    obtain ⟨row, hrow, hlen⟩ := hs.alloc_row i (hl i (List.mem_cons_self i l))
    exact ih (release s i W) (release_length s i row W hrow hlen hW)
      (fun a ha => hl a (List.mem_cons_of_mem i ha))

theorem sum_le_range (f : Nat → Int) (hf : ∀ i, 0 ≤ f i) (n : Nat) (l : List Nat)
    (hd : l.Nodup) (hl : ∀ i ∈ l, i < n) :
    0 ≤ (l.map f).sum ∧ (l.map f).sum ≤ ((List.range n).map f).sum := by
  constructor
  · apply List.sum_nonneg
    intro x hx
    obtain ⟨i, _, hi⟩ := List.mem_map.mp hx
    rw [← hi]
    exact hf i
  · rw [← List.sum_toFinset f hd, ← List.sum_toFinset f (List.nodup_range n)]
    apply Finset.sum_le_sum_of_subset_of_nonneg
    · intro i hi
      rw [List.mem_toFinset] at hi ⊢
      exact List.mem_range.mpr (hl i hi)
    · intro i _ _
      exact hf i

/-- Closed form of the replayed work vector when no sum can overflow: with `int`
entries in `Available`, non-negative allocations and every total supply at most
`INT_MAX`, the work after replaying distinct processes is `Available` plus their
allocations, exactly. -/
theorem replayWork_exact (s : BankersAlgorithm) (hs : Shaped s) (hint : VecInt s.Available)
    (hal : MatNonneg s.Allocation) (hfit : SupplyFits s) (j : Nat) (hj : j < s.m.toNat) :
    ∀ (l : List Nat), l.Nodup → (∀ i ∈ l, i < s.n.toNat) →
      (replayWork s s.Available l).getD j 0 =
        s.Available.getD j 0 + (l.map (fun i => entry s.Allocation i j)).sum := by
  intro l
  induction l using List.reverseRecOn with
  | nil => intro _ _; simp [replayWork]
  | append_singleton l a ih =>
    intro hd hl
    have hd1 : l.Nodup := (List.nodup_append.mp hd).1
    have hl1 : ∀ i ∈ l, i < s.n.toNat := fun i hi => hl i (List.mem_append_left _ hi)
    have ha : a < s.n.toNat := hl a (List.mem_append_right _ (List.mem_singleton_self a))
    rw [replayWork_snoc, release_getD s hs a ha _
      (replayWork_length s hs l _ hs.avail_length hl1) j hj, ih hd1 hl1]
    have hsum := sum_le_range (fun i => entry s.Allocation i j)
      (fun i => entry_nonneg s.Allocation hal i j) s.n.toNat (l ++ [a]) hd hl
    have hav := vecInt_getD s.Available hint j (by have := hs.avail_length; omega)
    have hf := hfit j hj
    unfold totalUnits at hf
    unfold IsInt at hav
    rw [List.map_append, List.sum_append] at hsum ⊢
    simp only [List.map_cons, List.map_nil, List.sum_cons, List.sum_nil, add_zero] at hsum ⊢
    rw [wrap_eq]
    · omega
    · unfold IsInt
      omega

/-- With non-negative allocations and no overflow, replaying a subset of the
processes leaves no more work than replaying all of them. -/
theorem replayWork_mono (s : BankersAlgorithm) (hs : Shaped s) (hint : VecInt s.Available)
    (hal : MatNonneg s.Allocation) (hfit : SupplyFits s)
    (l1 l2 : List Nat) (hsub : ∀ i ∈ l1, i ∈ l2) (hd1 : l1.Nodup) (hd2 : l2.Nodup)
    (hl2 : ∀ i ∈ l2, i < s.n.toNat) (j : Nat) (hj : j < s.m.toNat) :
    (replayWork s s.Available l1).getD j 0 ≤ (replayWork s s.Available l2).getD j 0 := by
  rw [replayWork_exact s hs hint hal hfit j hj l1 hd1 (fun i hi => hl2 i (hsub i hi)),
    replayWork_exact s hs hint hal hfit j hj l2 hd2 hl2,
    ← List.sum_toFinset _ hd1, ← List.sum_toFinset _ hd2]
  apply add_le_add_left
  apply Finset.sum_le_sum_of_subset_of_nonneg
  · intro i hi
    rw [List.mem_toFinset] at hi ⊢
    exact hsub i hi
  · intro i _ _
    exact entry_nonneg s.Allocation hal i j

theorem vecNonneg_getD (v : Vector) (hv : VecNonneg v) (j : Nat) : 0 ≤ v.getD j 0 := by
  rw [List.getD_eq_getElem?_getD]
  cases h : v[j]? with
  | none => simp
  | some a =>
    obtain ⟨hlt, ha⟩ := List.getElem?_eq_some.mp h
    rw [Option.getD_some, ← ha]
    exact hv _ (List.getElem_mem hlt)

theorem releaseExact_length (s : BankersAlgorithm) (hs : Shaped s) (i : Nat)
    (hi : i < s.n.toNat) (W : Vector) (hW : W.length = s.m.toNat) :
    (releaseExact s i W).length = s.m.toNat := by
  obtain ⟨row, hrow, hlen⟩ := hs.alloc_row i hi
  have hr : s.Allocation.getD i [] = row := by
    simp [hrow]
  unfold releaseExact
  rw [hr, List.length_zipWith, hlen, hW, Nat.min_self]

theorem releaseExact_getD (s : BankersAlgorithm) (hs : Shaped s) (i : Nat)
    (hi : i < s.n.toNat) (W : Vector) (hW : W.length = s.m.toNat) (j : Nat)
    (hj : j < s.m.toNat) :
    (releaseExact s i W).getD j 0 = W.getD j 0 + entry s.Allocation i j := by
  obtain ⟨row, hrow, hlen⟩ := hs.alloc_row i hi
  have hr : s.Allocation.getD i [] = row := by
    simp [hrow]
  have h1 : j < W.length := by omega
  have h2 : j < row.length := by omega
  unfold releaseExact entry
  rw [hr]
  simp [List.getElem?_zipWith, List.getElem?_eq_getElem h1, List.getElem?_eq_getElem h2]

theorem eligible_congr (s : BankersAlgorithm) (i : Nat) (W1 W2 : Vector)
    (h : ∀ j, j < s.m.toNat → W1.getD j 0 = W2.getD j 0) :
    eligible s i W1 = eligible s i W2 := by
  unfold eligible
  apply decide_eq_decide.mpr
  constructor
  · intro h1 j hj
    rw [← h j hj]
    exact h1 j hj
  · intro h1 j hj
    rw [h j hj]
    exact h1 j hj

/-- Within the `int` range the replay the program performs is the replay of the
glossary: with `int` entries in `Available`, non-negative allocations and every
total supply at most `INT_MAX`, an order of distinct processes replays in `int`
arithmetic exactly when it is a finishing order in the integers. -/
theorem validReplay_eq_finishingOrder (s : BankersAlgorithm) (hs : Shaped s)
    (hint : VecInt s.Available) (hal : MatNonneg s.Allocation) (hfit : SupplyFits s) :
    ∀ (order done : List Nat) (X : Vector), X.length = s.m.toNat →
      (∀ j, j < s.m.toNat → X.getD j 0 = (replayWork s s.Available done).getD j 0) →
      (done ++ order).Nodup → (∀ i ∈ done, i < s.n.toNat) → (∀ i ∈ order, i < s.n.toNat) →
      validReplay s (replayWork s s.Available done) order = finishingOrder s X order := by
  intro order
  induction order with
  | nil => intro _ _ _ _ _ _ _; rfl
  | cons p rest ih =>
    intro done X hX hget hnd hdone hord
    have hp : p < s.n.toNat := hord p (List.mem_cons_self p rest)
    have hnd1 : (done ++ [p] ++ rest).Nodup := by simpa using hnd
    have hnd2 : (done ++ [p]).Nodup := (List.nodup_append.mp hnd1).1
    have hnd3 : done.Nodup := (List.nodup_append.mp hnd).1
    have hdone2 : ∀ i ∈ done ++ [p], i < s.n.toNat := by
      intro i hi
      rcases List.mem_append.mp hi with h | h
      · exact hdone i h
      · rw [List.mem_singleton.mp h]; exact hp
    show (eligible s p (replayWork s s.Available done) &&
      validReplay s (release s p (replayWork s s.Available done)) rest) =
      (eligible s p X && finishingOrder s (releaseExact s p X) rest)
    rw [← replayWork_snoc, eligible_congr s p X _ hget,
      ih (done ++ [p]) (releaseExact s p X) (releaseExact_length s hs p hp X hX) _ hnd1
        hdone2 (fun i hi => hord i (List.mem_cons_of_mem p hi))]
    intro j hj
    rw [releaseExact_getD s hs p hp X hX j hj, hget j hj,
      replayWork_exact s hs hint hal hfit j hj done hnd3 hdone,
      replayWork_exact s hs hint hal hfit j hj (done ++ [p]) hnd2 hdone2,
      List.map_append, List.sum_append]
    simp only [List.map_cons, List.map_nil, List.sum_cons, List.sum_nil]
    omega

/-! ## Soundness of `Safety` -/

theorem eligible_mono (s : BankersAlgorithm) (i : Nat) (W1 W2 : Vector)
    (h : ∀ j, j < s.m.toNat → W1.getD j 0 ≤ W2.getD j 0) (h1 : eligible s i W1 = true) :
    eligible s i W2 = true := by
  unfold eligible at h1 ⊢
  rw [decide_eq_true_eq] at h1 ⊢
  intro j hj
  exact le_trans (h1 j hj) (h j hj)

/-- Every process of an order that can be replayed after `done` is finished in a
stuck final state of `Safety`, when `done` is. -/
theorem stuck_covers (s : BankersAlgorithm) (hs : Shaped s) (hint : VecInt s.Available)
    (hal : MatNonneg s.Allocation) (hfit : SupplyFits s)
    (st : SafetyState) (inv : SafetyInv s st) (hstuck : Stuck s st) :
    ∀ (order done : List Nat), (∀ i ∈ done, i ∈ st.safeSequence) → (done ++ order).Nodup →
      (∀ i ∈ order, i < s.n.toNat) →
      validReplay s (replayWork s s.Available done) order = true →
      ∀ i ∈ order, i ∈ st.safeSequence := by
  intro order
  induction order with
  | nil => intro _ _ _ _ _ i hi; simp at hi
  | cons p rest ih =>
    intro done hdone hnd hlt hval
    simp only [validReplay, Bool.and_eq_true] at hval
    obtain ⟨hel, hrest⟩ := hval
    have hp : p < s.n.toNat := hlt p (List.mem_cons_self p rest)
    have hd1 : done.Nodup := (List.nodup_append.mp hnd).1
    have hel2 : eligible s p st.Work = true := by
      apply eligible_mono s p _ _ _ hel
      intro j hj
      rw [inv.work_eq]
      exact replayWork_mono s hs hint hal hfit done st.safeSequence hdone hd1 inv.nodup
        inv.lt_n j hj
    have hpin : p ∈ st.safeSequence := by
      rcases hstuck p hp with h | h
      · exact (inv.fin_iff p).mp h
      · rw [hel2] at h; cases h
    have := ih (done ++ [p])
      (by
        intro i hi
        rcases List.mem_append.mp hi with h | h
        · exact hdone i h
        · rw [List.mem_singleton.mp h]; exact hpin)
      (by simpa using hnd)
      (fun i hi => hlt i (List.mem_cons_of_mem p hi))
      (by rw [replayWork_snoc]; exact hrest)
    intro i hi
    rcases List.mem_cons.mp hi with h | h
    · rw [h]; exact hpin
    · exact this i h

/-- Counterexample for C2: `overflowTwo` is well-formed with non-negative
`Allocation` and is safe (`[1, 0]` is a finishing order, in the integers and in the
`int` arithmetic of the program), yet `Safety` returns false: it finishes process 0
first, the addition `Work[0] += 1` overflows, and process 1 no longer meets
`Need ≤ Work`. -/
theorem Safety_complete_overflow :
    WellFormed overflowTwo ∧ MatNonneg overflowTwo.Allocation ∧
    SafeState overflowTwo ∧
    validReplay overflowTwo overflowTwo.Available [1, 0] = true ∧
    Safety overflowTwo = some (false, [0]) :=
  ⟨by decide, by decide, ⟨[1, 0], List.Perm.swap 0 1 [], by decide⟩, by decide, by decide⟩

/-- Claim C2, amended (completeness of `Safety`): on a well-formed state with
non-negative `Allocation` whose total supply `Available[j] + Σ_i Allocation[i][j]`
is at most `INT_MAX` in every class, `Safety` returns, and it returns true exactly
when the state is safe, that is when some ordering of all `n` processes can be
replayed from `Work = Available`, every process meeting `Need ≤ Work` at its turn
and its allocation row then being added to `Work`. -/
theorem Safety_complete (s : BankersAlgorithm) (hwf : WellFormed s)
    (hal : MatNonneg s.Allocation) (hfit : SupplyFits s) :
    ∃ b seq, Safety s = some (b, seq) ∧ (b = true ↔ SafeState s) := by
  obtain ⟨st, hst, inv, hstuck⟩ := Safety_final s hwf.1
  refine ⟨_, _, hst, ?_⟩
  rw [decide_eq_true_eq]
  have heq : ∀ order : List Nat, order.Nodup → (∀ i ∈ order, i < s.n.toNat) →
      validReplay s s.Available order = finishingOrder s s.Available order :=
    fun order hnd hlt =>
      validReplay_eq_finishingOrder s hwf.1 hwf.2.1.1 hal hfit order [] s.Available
        hwf.1.avail_length (fun _ _ => rfl) (by simpa using hnd) (by simp) hlt
  constructor
  · intro hlen
    refine ⟨st.safeSequence, inv.perm hlen, ?_⟩
    rw [← heq st.safeSequence inv.nodup inv.lt_n]
    exact inv.valid
  · rintro ⟨order, hperm, hval⟩
    have hnd : order.Nodup := hperm.nodup_iff.mpr (List.nodup_range _)
    have hlt : ∀ i ∈ order, i < s.n.toNat := fun i hi => List.mem_range.mp (hperm.subset hi)
    rw [← heq order hnd hlt] at hval
    have hcov := stuck_covers s hwf.1 hwf.2.1.1 hal hfit st inv hstuck order [] (by simp)
      (by simpa using hnd) hlt hval
    have hsub : List.range s.n.toNat ⊆ st.safeSequence :=
      fun i hi => hcov i (hperm.symm.subset hi)
    have h1 := (List.subperm_of_subset (List.nodup_range _) hsub).length_le
    have h2 := (List.subperm_of_subset inv.nodup
      (fun i hi => List.mem_range.mpr (inv.lt_n i hi))).length_le
    rw [List.length_range] at h1 h2
    omega

/-- Witness for the amended C2 on the engine built in `main`. -/
theorem Safety_complete_witness :
    (WellFormed canonical ∧ MatNonneg canonical.Allocation ∧ SupplyFits canonical) ∧
    ∃ b seq, Safety canonical = some (b, seq) ∧ (b = true ↔ SafeState canonical) :=
  ⟨⟨by decide, by decide, by decide⟩,
    Safety_complete canonical (by decide) (by decide) (by decide)⟩

/-! ## The column loops of `Request` -/

theorem updCols_get (f : Int → Int → Int) (req : Vector) : ∀ k j (v : Vector) t,
    (updCols f req j k v)[t]? =
      if j ≤ t ∧ t < j + k then v[t]?.map (fun a => f a (req.getD t 0)) else v[t]? := by
  intro k
  induction k with
  | zero =>
    intro j v t
    have : ¬ (j ≤ t ∧ t < j + 0) := by omega
    simp only [updCols, this, if_false]
  | succ k ih =>
    intro j v t
    simp only [updCols]
    rw [ih]
    by_cases htj : j = t
    · subst htj
      have c1 : ¬ (j + 1 ≤ j ∧ j < j + 1 + k) := by omega
      have c2 : j ≤ j ∧ j < j + (k + 1) := by omega
      simp only [c1, c2, and_self, if_false, if_true]
      by_cases hlt : j < v.length
      · simp [List.getElem?_set_self hlt, List.getElem?_eq_getElem hlt]
      · have hge : v.length ≤ j := by omega
        rw [List.getElem?_eq_none hge, List.getElem?_eq_none (by simpa using hge)]
        rfl
    · by_cases c : j + 1 ≤ t ∧ t < j + 1 + k
      · have c2 : j ≤ t ∧ t < j + (k + 1) := by omega
        simp only [c, c2, and_self, if_true, List.getElem?_set_ne htj]
      · have c2 : ¬ (j ≤ t ∧ t < j + (k + 1)) := by omega
        simp only [c, c2, if_false, List.getElem?_set_ne htj]

theorem updCols_length (f : Int → Int → Int) (req : Vector) : ∀ k j (v : Vector),
    (updCols f req j k v).length = v.length := by
  intro k
  induction k with
  | zero => intro j v; rfl
  | succ k ih => intro j v; simp only [updCols, ih, List.length_set]

/-- Updating the same columns with an inverse operation restores the vector. -/
theorem updCols_inverse (f g : Int → Int → Int) (hfg : ∀ a r, IsInt a → g (f a r) r = a)
    (req : Vector) (j k : Nat) (v : Vector) (hv : VecInt v) :
    updCols g req j k (updCols f req j k v) = v := by
  apply List.ext_getElem?
  intro t
  rw [updCols_get, updCols_get]
  by_cases c : j ≤ t ∧ t < j + k
  · simp only [c, and_self, if_true, Option.map_map]
    cases hvt : v[t]? with
    | none => rfl
    | some a =>
      obtain ⟨hlt, ha⟩ := List.getElem?_eq_some.mp hvt
      have hia : IsInt a := by
        rw [← ha]
        exact hv _ (List.getElem_mem hlt)
      simp [hfg a _ hia]
  · simp only [c, if_false]

/-- Entries a column update writes are `int`s when the operation yields `int`s. -/
theorem updCols_vecInt (f : Int → Int → Int) (hf : ∀ a r, IsInt (f a r)) (req : Vector)
    (j k : Nat) (v : Vector) (hv : VecInt v) : VecInt (updCols f req j k v) := by
  intro a ha
  obtain ⟨t, ht, hta⟩ := List.getElem_of_mem ha
  have hget : (updCols f req j k v)[t]? = some a := by
    rw [List.getElem?_eq_getElem ht, hta]
  rw [updCols_get] at hget
  by_cases c : j ≤ t ∧ t < j + k
  · simp only [c, and_self, if_true, Option.map_eq_some'] at hget
    obtain ⟨b, _, hb⟩ := hget
    rw [← hb]
    exact hf _ _
  · simp only [c, if_false] at hget
    obtain ⟨hlt, hb⟩ := List.getElem?_eq_some.mp hget
    rw [← hb]
    exact hv _ (List.getElem_mem hlt)

theorem updCols_eq_zipWith (f : Int → Int → Int) (req v : Vector) (k : Nat)
    (hv : v.length = k) (hr : k ≤ req.length) :
    updCols f req 0 k v = List.zipWith f v req := by
  apply List.ext_getElem?
  intro t
  rw [updCols_get, List.getElem?_zipWith]
  by_cases ht : t < k
  · have h1 : t < v.length := by omega
    have h2 : t < req.length := by omega
    simp [ht, List.getElem?_eq_getElem h1, List.getElem?_eq_getElem h2]
  · have h1 : v.length ≤ t := by omega
    simp [ht, List.getElem?_eq_none h1]

theorem applyLoop_eq_updateLoop (pid : Int) (req : Vector) : ∀ k j s,
    applyLoop pid req j k s =
      updateLoop (fun a r => wrap (a - r)) (fun a r => wrap (a + r)) (fun a r => wrap (a - r))
        pid req j k s := by
  intro k
  induction k with
  | zero => intro j s; rfl
  | succ k ih => intro j s; simp only [applyLoop, updateLoop, ih]

theorem rollbackLoop_eq_updateLoop (pid : Int) (req : Vector) : ∀ k j s,
    rollbackLoop pid req j k s =
      updateLoop (fun a r => wrap (a + r)) (fun a r => wrap (a - r)) (fun a r => wrap (a + r))
        pid req j k s := by
  intro k
  induction k with
  | zero => intro j s; rfl
  | succ k ih => intro j s; simp only [rollbackLoop, updateLoop, ih]

theorem at?_eq_some {α : Type} (v : List α) (i : Int) (a : α) :
    at? v i = some a ↔ 0 ≤ i ∧ v[i.toNat]? = some a := by
  unfold at?
  by_cases h : i < 0
  · simp only [h, if_true]
    constructor
    · intro h1; cases h1
    · intro h1; omega
  · simp only [h, if_false]
    constructor
    · intro h1; exact ⟨by omega, h1⟩
    · intro h1; exact h1.2

theorem set_row_set (A : Matrix) (p : Nat) (row X Y : Vector) (h : A[p]? = some row) :
    (A.set p X).set p Y = A.set p Y ∧ (A.set p X).getD p [] = X ∧ A.getD p [] = row := by
  obtain ⟨hlt, _⟩ := List.getElem?_eq_some.mp h
  refine ⟨List.set_set X Y A p, ?_, ?_⟩
  · simp [List.getElem?_set_self hlt]
  · simp [h]

theorem updateCols_step (fa fl fn : Int → Int → Int) (pid : Int) (req : Vector) (j k : Nat)
    (s : BankersAlgorithm) (r a al nd : Int) (arow nrow : Vector)
    (hr : req[j]? = some r) (ha : s.Available[j]? = some a)
    (harow : s.Allocation[pid.toNat]? = some arow) (hal : arow[j]? = some al)
    (hnrow : s.Need[pid.toNat]? = some nrow) (hnd : nrow[j]? = some nd) :
    updateCols fa fl fn pid req (j + 1) k
      { s with Available := s.Available.set j (fa a r),
               Allocation := s.Allocation.set pid.toNat (arow.set j (fl al r)),
               Need := s.Need.set pid.toNat (nrow.set j (fn nd r)) } =
    updateCols fa fl fn pid req j (k + 1) s := by
  obtain ⟨a1, a2, a3⟩ := set_row_set s.Allocation pid.toNat arow (arow.set j (fl al r))
    (updCols fl req (j + 1) k (arow.set j (fl al r))) harow
  obtain ⟨n1, n2, n3⟩ := set_row_set s.Need pid.toNat nrow (nrow.set j (fn nd r))
    (updCols fn req (j + 1) k (nrow.set j (fn nd r))) hnrow
  have e1 : s.Available.getD j 0 = a := by simp [ha]
  have e2 : req.getD j 0 = r := by simp [hr]
  have e3 : arow.getD j 0 = al := by simp [hal]
  have e4 : nrow.getD j 0 = nd := by simp [hnd]
  unfold updateCols
  simp only [updCols]
  rw [a2, a1, a3, n2, n1, n3, e1, e2, e3, e4]

theorem updateLoop_of_inRange (fa fl fn : Int → Int → Int) (pid : Int) (req : Vector) :
    ∀ k j s, ColsInRange pid req j k s →
      updateLoop fa fl fn pid req j k s = some (updateCols fa fl fn pid req j k s) := by
  intro k
  induction k with
  | zero =>
    intro j s h
    obtain ⟨_, _, _, ⟨arow, ha, _⟩, ⟨nrow, hn, _⟩⟩ := h
    have e1 : s.Allocation.set pid.toNat (s.Allocation.getD pid.toNat []) = s.Allocation := by
      apply List.ext_getElem?
      intro t
      by_cases c : pid.toNat = t
      · subst c
        obtain ⟨hlt, _⟩ := List.getElem?_eq_some.mp ha
        simp [List.getElem?_set_self hlt, ha]
      · rw [List.getElem?_set_ne c]
    have e2 : s.Need.set pid.toNat (s.Need.getD pid.toNat []) = s.Need := by
      apply List.ext_getElem?
      intro t
      by_cases c : pid.toNat = t
      · subst c
        obtain ⟨hlt, _⟩ := List.getElem?_eq_some.mp hn
        simp [List.getElem?_set_self hlt, hn]
      · rw [List.getElem?_set_ne c]
    simp only [updateLoop, updateCols, updCols, e1, e2]
  | succ k ih =>
    intro j s h
    obtain ⟨hp, hreq, hav, ⟨arow, ha, hal⟩, ⟨nrow, hn, hnl⟩⟩ := h
    have h1 : j < req.length := by omega
    have h2 : j < s.Available.length := by omega
    have h3 : j < arow.length := by omega
    have h4 : j < nrow.length := by omega
    have hA : pid.toNat < s.Allocation.length := (List.getElem?_eq_some.mp ha).1
    have hN : pid.toNat < s.Need.length := (List.getElem?_eq_some.mp hn).1
    have hat1 : at? s.Allocation pid = some arow := (at?_eq_some _ _ _).mpr ⟨hp, ha⟩
    have hat2 : at? s.Need pid = some nrow := (at?_eq_some _ _ _).mpr ⟨hp, hn⟩
    simp only [updateLoop, Option.bind_eq_bind, Option.some_bind, hat1, hat2,
      List.getElem?_eq_getElem h1, List.getElem?_eq_getElem h2, List.getElem?_eq_getElem h3,
      List.getElem?_eq_getElem h4]
    rw [ih (j + 1) _ ?_]
    · rw [updateCols_step fa fl fn pid req j k s _ _ _ _ arow nrow
        (List.getElem?_eq_getElem h1) (List.getElem?_eq_getElem h2) ha
        (List.getElem?_eq_getElem h3) hn (List.getElem?_eq_getElem h4)]
    · refine ⟨hp, by omega, by simp only [List.length_set]; omega, ?_, ?_⟩
      · exact ⟨_, List.getElem?_set_self hA, by simp only [List.length_set]; omega⟩
      · exact ⟨_, List.getElem?_set_self hN, by simp only [List.length_set]; omega⟩

theorem updateLoop_inRange (fa fl fn : Int → Int → Int) (pid : Int) (req : Vector) :
    ∀ k j s s1, updateLoop fa fl fn pid req j (k + 1) s = some s1 →
      ColsInRange pid req j (k + 1) s := by
  intro k
  induction k with
  | zero =>
    intro j s s1 h
    simp only [updateLoop, Option.bind_eq_bind, Option.bind_eq_some] at h
    obtain ⟨r, hr, a, ha, arow, harow, al, hal, nrow, hnrow, nd, hnd, _⟩ := h
    obtain ⟨hp, harow⟩ := (at?_eq_some _ _ _).mp harow
    obtain ⟨_, hnrow⟩ := (at?_eq_some _ _ _).mp hnrow
    have h1 := (List.getElem?_eq_some.mp hr).1
    have h2 := (List.getElem?_eq_some.mp ha).1
    have h3 := (List.getElem?_eq_some.mp hal).1
    have h4 := (List.getElem?_eq_some.mp hnd).1
    exact ⟨hp, by omega, by omega, ⟨arow, harow, by omega⟩, ⟨nrow, hnrow, by omega⟩⟩
  | succ k ih =>
    intro j s s1 h
    rw [updateLoop] at h
    simp only [Option.bind_eq_bind, Option.bind_eq_some] at h
    obtain ⟨r, hr, a, ha, arow, harow, al, hal, nrow, hnrow, nd, hnd, hrec⟩ := h
    obtain ⟨hp, harow⟩ := (at?_eq_some _ _ _).mp harow
    obtain ⟨_, hnrow⟩ := (at?_eq_some _ _ _).mp hnrow
    obtain ⟨_, q1, q2, ⟨row1, q3, q4⟩, ⟨row2, q5, q6⟩⟩ := ih (j + 1) _ s1 hrec
    have hA : pid.toNat < s.Allocation.length := (List.getElem?_eq_some.mp harow).1
    have hN : pid.toNat < s.Need.length := (List.getElem?_eq_some.mp hnrow).1
    simp only [List.length_set] at q2
    rw [List.getElem?_set_self hA] at q3
    rw [List.getElem?_set_self hN] at q5
    simp only [Option.some.injEq] at q3 q5
    subst q3 q5
    simp only [List.length_set] at q4 q6
    exact ⟨hp, by omega, by omega, ⟨arow, harow, by omega⟩, ⟨nrow, hnrow, by omega⟩⟩

/-- A column loop that returns has stayed in range and computed `updateCols`. -/
theorem updateLoop_some (fa fl fn : Int → Int → Int) (pid : Int) (req : Vector) (k j : Nat)
    (s s1 : BankersAlgorithm) (h : updateLoop fa fl fn pid req j k s = some s1) :
    (k = 0 ∧ s1 = s) ∨ (ColsInRange pid req j k s ∧ s1 = updateCols fa fl fn pid req j k s) := by
  cases k with
  | zero =>
    left
    simp only [updateLoop, Option.some.injEq] at h
    exact ⟨rfl, h.symm⟩
  | succ k =>
    right
    have hr := updateLoop_inRange fa fl fn pid req k j s s1 h
    rw [updateLoop_of_inRange fa fl fn pid req (k + 1) j s hr] at h
    simp only [Option.some.injEq] at h
    exact ⟨hr, h.symm⟩

theorem set_getD_roundtrip (A : Matrix) (p : Nat) (F G : Vector → Vector)
    (hGF : G (F (A.getD p [])) = A.getD p []) :
    (A.set p (F (A.getD p []))).set p (G ((A.set p (F (A.getD p []))).getD p [])) = A := by
  apply List.ext_getElem?
  intro t
  rw [List.set_set]
  by_cases c : p = t
  · subst c
    by_cases hlt : p < A.length
    · have e1 : (A.set p (F (A.getD p []))).getD p [] = F (A.getD p []) := by
        simp [List.getElem?_set_self hlt]
      have e2 : A.getD p [] = A[p] := by
        simp [List.getElem?_eq_getElem hlt]
      rw [List.getElem?_set_self hlt, e1, hGF, e2, List.getElem?_eq_getElem hlt]
    · have hge : A.length ≤ p := by omega
      rw [List.getElem?_eq_none hge, List.getElem?_eq_none (by simpa using hge)]
  · rw [List.getElem?_set_ne c]

theorem matInt_getD (A : Matrix) (hA : MatInt A) (i : Nat) : VecInt (A.getD i []) := by
  rw [List.getD_eq_getElem?_getD]
  cases h : A[i]? with
  | none => intro a ha; simp at ha
  | some row =>
    obtain ⟨hlt, hrow⟩ := List.getElem?_eq_some.mp h
    rw [Option.getD_some, ← hrow]
    exact hA _ (List.getElem_mem hlt)

/-- The roll-back columns undo the mutation columns on a state whose entries are
`int`s. -/
theorem updateCols_inverse (fa fl fn ga gl gn : Int → Int → Int)
    (ha : ∀ a r, IsInt a → ga (fa a r) r = a) (hl : ∀ a r, IsInt a → gl (fl a r) r = a)
    (hn : ∀ a r, IsInt a → gn (fn a r) r = a) (pid : Int) (req : Vector) (j k : Nat)
    (s : BankersAlgorithm) (hint : IntState s) :
    updateCols ga gl gn pid req j k (updateCols fa fl fn pid req j k s) = s := by
  unfold updateCols
  simp only [updCols_inverse fa ga ha req j k s.Available hint.1]
  rw [set_getD_roundtrip s.Allocation pid.toNat (updCols fl req j k) (updCols gl req j k)
      (updCols_inverse fl gl hl req j k _ (matInt_getD _ hint.2.2.1 _)),
    set_getD_roundtrip s.Need pid.toNat (updCols fn req j k) (updCols gn req j k)
      (updCols_inverse fn gn hn req j k _ (matInt_getD _ hint.2.2.2 _))]

/-- The roll-back loop of `Request` returns whenever the mutation loop returned. -/
theorem rollback_exists (pid : Int) (req : Vector) (k : Nat) (s s1 : BankersAlgorithm)
    (h : applyLoop pid req 0 k s = some s1) : ∃ s2, rollbackLoop pid req 0 k s1 = some s2 := by
  rw [applyLoop_eq_updateLoop] at h
  rw [rollbackLoop_eq_updateLoop]
  rcases updateLoop_some _ _ _ pid req k 0 s s1 h with ⟨hk, hs⟩ | ⟨hr, hs⟩
  · subst hk hs; exact ⟨_, rfl⟩
  · obtain ⟨hp, hreq, hav, ⟨arow, ha, hal⟩, ⟨nrow, hn, hnl⟩⟩ := hr
    have hA : pid.toNat < s.Allocation.length := (List.getElem?_eq_some.mp ha).1
    have hN : pid.toNat < s.Need.length := (List.getElem?_eq_some.mp hn).1
    have hr1 : ColsInRange pid req 0 k s1 := by
      subst hs
      refine ⟨hp, hreq, by simp only [updateCols, updCols_length]; exact hav, ?_, ?_⟩
      · refine ⟨_, List.getElem?_set_self hA, ?_⟩
        have : s.Allocation.getD pid.toNat [] = arow := by simp [ha]
        rw [updCols_length, this]
        exact hal
      · refine ⟨_, List.getElem?_set_self hN, ?_⟩
        have : s.Need.getD pid.toNat [] = nrow := by simp [hn]
        rw [updCols_length, this]
        exact hnl
    exact ⟨_, updateLoop_of_inRange _ _ _ pid req k 0 s1 hr1⟩

/-- The roll-back loop of `Request` restores the state the mutation loop started
from, whenever the mutation loop returned and the entries of that state are `int`s:
`a - r + r` and `a + r - r` are exact under wrap-around. -/
theorem rollback_apply (pid : Int) (req : Vector) (k : Nat) (s s1 : BankersAlgorithm)
    (hint : IntState s)
    (h : applyLoop pid req 0 k s = some s1) : rollbackLoop pid req 0 k s1 = some s := by
  rw [applyLoop_eq_updateLoop] at h
  rw [rollbackLoop_eq_updateLoop]
  rcases updateLoop_some _ _ _ pid req k 0 s s1 h with ⟨hk, hs⟩ | ⟨hr, hs⟩
  · subst hk hs; rfl
  · obtain ⟨hp, hreq, hav, ⟨arow, ha, hal⟩, ⟨nrow, hn, hnl⟩⟩ := hr
    have hA : pid.toNat < s.Allocation.length := (List.getElem?_eq_some.mp ha).1
    have hN : pid.toNat < s.Need.length := (List.getElem?_eq_some.mp hn).1
    have hr1 : ColsInRange pid req 0 k s1 := by
      subst hs
      refine ⟨hp, hreq, by simp only [updateCols, updCols_length]; exact hav, ?_, ?_⟩
      · refine ⟨_, List.getElem?_set_self hA, ?_⟩
        have : s.Allocation.getD pid.toNat [] = arow := by simp [ha]
        rw [updCols_length, this]
        exact hal
      · refine ⟨_, List.getElem?_set_self hN, ?_⟩
        have : s.Need.getD pid.toNat [] = nrow := by simp [hn]
        rw [updCols_length, this]
        exact hnl
    rw [updateLoop_of_inRange _ _ _ pid req k 0 s1 hr1, hs]
    congr 1
    exact updateCols_inverse _ _ _ _ _ _
      (fun a r h => by unfold IsInt at h; unfold wrap; omega)
      (fun a r h => by unfold IsInt at h; unfold wrap; omega)
      (fun a r h => by unfold IsInt at h; unfold wrap; omega) pid req 0 k s hint

/-! ## `Request` on every state -/

/-- An outcome other than `Granted` leaves the state as it was, on every state with
`int` entries on which `Request` returns. -/
theorem Request_rejected_state (s : BankersAlgorithm) (hint : IntState s) (pid : Int)
    (req : Vector) (r : RequestReturn) (h : Request s pid req = some r)
    (hne : r.result ≠ RequestResult.Granted) : r.state = s ∧ r.safeAfter = none := by
  unfold Request at h
  simp only [Option.bind_eq_bind, Option.bind_eq_some] at h
  obtain ⟨g1, _, h⟩ := h
  cases g1 with
  | false =>
    simp only [Bool.not_false, if_true, Option.some.injEq] at h
    subst h
    exact ⟨rfl, rfl⟩
  | true =>
    simp only [Bool.not_true, Bool.false_eq_true, if_false, Option.bind_eq_some] at h
    obtain ⟨g2, _, h⟩ := h
    cases g2 with
    | false =>
      simp only [Bool.not_false, if_true, Option.some.injEq] at h
      subst h
      exact ⟨rfl, rfl⟩
    | true =>
      simp only [Bool.not_true, Bool.false_eq_true, if_false, Option.bind_eq_some] at h
      obtain ⟨s1, hs1, res, hres, h⟩ := h
      cases hb : res.1 with
      | true =>
        simp only [hb, if_true, Option.some.injEq] at h
        subst h
        exact absurd rfl hne
      | false =>
        simp only [hb, Bool.false_eq_true, if_false, Option.bind_eq_some,
          Option.some.injEq] at h
        obtain ⟨s2, hs2, h⟩ := h
        subst h
        rw [rollback_apply pid req _ s s1 hint hs1] at hs2
        simp only [Option.some.injEq] at hs2
        exact ⟨hs2.symm, rfl⟩

/-- A `Granted` outcome leaves the mutated state, on which `Safety` has just
returned true with the sequence handed to the caller. -/
theorem Request_granted_state (s : BankersAlgorithm) (pid : Int) (req : Vector)
    (r : RequestReturn) (h : Request s pid req = some r)
    (hg : r.result = RequestResult.Granted) :
    applyLoop pid req 0 s.m.toNat s = some r.state ∧
      ∃ seq, r.safeAfter = some seq ∧ Safety r.state = some (true, seq) := by
  unfold Request at h
  simp only [Option.bind_eq_bind, Option.bind_eq_some] at h
  obtain ⟨g1, _, h⟩ := h
  cases g1 with
  | false =>
    simp only [Bool.not_false, if_true, Option.some.injEq] at h
    subst h
    cases hg
  | true =>
    simp only [Bool.not_true, Bool.false_eq_true, if_false, Option.bind_eq_some] at h
    obtain ⟨g2, _, h⟩ := h
    cases g2 with
    | false =>
      simp only [Bool.not_false, if_true, Option.some.injEq] at h
      subst h
      cases hg
    | true =>
      simp only [Bool.not_true, Bool.false_eq_true, if_false, Option.bind_eq_some] at h
      obtain ⟨s1, hs1, res, hres, h⟩ := h
      cases hb : res.1 with
      | true =>
        simp only [hb, if_true, Option.some.injEq] at h
        subst h
        refine ⟨hs1, res.2, rfl, ?_⟩
        rw [hres, ← hb]
      | false =>
        simp only [hb, Bool.false_eq_true, if_false, Option.bind_eq_some,
          Option.some.injEq] at h
        obtain ⟨s2, _, h⟩ := h
        subst h
        cases hg

/-! ## `Request` on well-shaped states -/

theorem needGate_eq (s : BankersAlgorithm) (pid : Int) (req row : Vector) (hp : 0 ≤ pid)
    (hrow : s.Need[pid.toNat]? = some row) :
    ∀ k j, j + k ≤ row.length → j + k ≤ req.length →
      needGate s pid req j k =
        some (decide (∀ t, j ≤ t → t < j + k → req.getD t 0 ≤ row.getD t 0)) := by
  have hat : at? s.Need pid = some row := (at?_eq_some _ _ _).mpr ⟨hp, hrow⟩
  intro k
  induction k with
  | zero =>
    intro j _ _
    simp only [needGate, Option.some.injEq, true_eq_decide_iff]
    intro t h1 h2
    omega
  | succ k ih =>
    intro j h1 h2
    have hj1 : j < row.length := by omega
    have hj2 : j < req.length := by omega
    simp only [needGate, hat, Option.bind_eq_bind, Option.some_bind,
      List.getElem?_eq_getElem hj1, List.getElem?_eq_getElem hj2]
    by_cases hc : req[j] > row[j]
    · simp only [hc, if_true]
      congr 1
      symm
      simp only [decide_eq_false_iff_not, not_forall]
      refine ⟨j, le_refl j, by omega, ?_⟩
      simp [List.getElem?_eq_getElem hj1, List.getElem?_eq_getElem hj2]
      exact hc
    · simp only [hc, if_false]
      rw [ih (j + 1) (by omega) (by omega)]
      congr 1
      apply decide_eq_decide.mpr
      constructor
      · intro h t ht1 ht2
        rcases Nat.eq_or_lt_of_le ht1 with heq | hlt
        · subst heq
          simp [List.getElem?_eq_getElem hj1, List.getElem?_eq_getElem hj2]
          exact not_lt.mp hc
        · exact h t hlt (by omega)
      · intro h t ht1 ht2
        exact h t (by omega) (by omega)

theorem availGate_eq (s : BankersAlgorithm) (req : Vector) :
    ∀ k j, j + k ≤ s.Available.length → j + k ≤ req.length →
      availGate s req j k =
        some (decide (∀ t, j ≤ t → t < j + k → req.getD t 0 ≤ s.Available.getD t 0)) := by
  intro k
  induction k with
  | zero =>
    intro j _ _
    simp only [availGate, Option.some.injEq, true_eq_decide_iff]
    intro t h1 h2
    omega
  | succ k ih =>
    intro j h1 h2
    have hj1 : j < s.Available.length := by omega
    have hj2 : j < req.length := by omega
    simp only [availGate, Option.bind_eq_bind, Option.some_bind,
      List.getElem?_eq_getElem hj1, List.getElem?_eq_getElem hj2]
    by_cases hc : req[j] > s.Available[j]
    · simp only [hc, if_true]
      congr 1
      symm
      simp only [decide_eq_false_iff_not, not_forall]
      refine ⟨j, le_refl j, by omega, ?_⟩
      simp [List.getElem?_eq_getElem hj1, List.getElem?_eq_getElem hj2]
      exact hc
    · simp only [hc, if_false]
      rw [ih (j + 1) (by omega) (by omega)]
      congr 1
      apply decide_eq_decide.mpr
      constructor
      · intro h t ht1 ht2
        rcases Nat.eq_or_lt_of_le ht1 with heq | hlt
        · subst heq
          simp [List.getElem?_eq_getElem hj1, List.getElem?_eq_getElem hj2]
          exact not_lt.mp hc
        · exact h t hlt (by omega)
      · intro h t ht1 ht2
        exact h t (by omega) (by omega)

theorem ValidCall.inRange {s : BankersAlgorithm} (hs : Shaped s) {pid : Int} {req : Vector}
    (hc : ValidCall s pid req) : ColsInRange pid req 0 s.m.toNat s := by
  obtain ⟨h0, h1, h2⟩ := hc
  have hp : pid.toNat < s.n.toNat := by omega
  obtain ⟨arow, ha1, ha2⟩ := hs.alloc_row _ hp
  obtain ⟨nrow, hn1, hn2⟩ := hs.need_row _ hp
  have := hs.avail_length
  exact ⟨h0, by omega, by omega, ⟨arow, ha1, by omega⟩, ⟨nrow, hn1, by omega⟩⟩

/-- On a well-shaped state the mutation loop of `Request` produces the speculative
state. -/
theorem applyLoop_eq (s : BankersAlgorithm) (hs : Shaped s) (pid : Int) (req : Vector)
    (hc : ValidCall s pid req) :
    applyLoop pid req 0 s.m.toNat s = some (mutated s pid req) := by
  rw [applyLoop_eq_updateLoop, updateLoop_of_inRange _ _ _ pid req _ 0 s (hc.inRange hs)]
  obtain ⟨h0, h1, h2⟩ := hc
  have hp : pid.toNat < s.n.toNat := by omega
  obtain ⟨arow, ha1, ha2⟩ := hs.alloc_row _ hp
  obtain ⟨nrow, hn1, hn2⟩ := hs.need_row _ hp
  have e1 : s.Allocation.getD pid.toNat [] = arow := by simp [ha1]
  have e2 : s.Need.getD pid.toNat [] = nrow := by simp [hn1]
  unfold updateCols mutated
  rw [e1, e2, updCols_eq_zipWith _ req s.Available _ hs.avail_length h2,
    updCols_eq_zipWith _ req arow _ ha2 h2, updCols_eq_zipWith _ req nrow _ hn2 h2]

theorem set_rows_shape (A : Matrix) (n m : Int) (h1 : (A.length : Int) = n)
    (h2 : ∀ row ∈ A, (row.length : Int) = m) (p : Nat) (X : Vector)
    (hX : (X.length : Int) = m) :
    ((A.set p X).length : Int) = n ∧ ∀ row ∈ A.set p X, (row.length : Int) = m := by
  refine ⟨by simpa using h1, ?_⟩
  intro row hrow
  rcases List.mem_or_eq_of_mem_set hrow with h | h
  · exact h2 row h
  · rw [h]; exact hX

theorem mutated_shaped (s : BankersAlgorithm) (hs : Shaped s) (pid : Int) (req : Vector)
    (hc : ValidCall s pid req) : Shaped (mutated s pid req) := by
  obtain ⟨h0, h1, h2⟩ := hc
  have hp : pid.toNat < s.n.toNat := by omega
  obtain ⟨arow, ha1, ha2⟩ := hs.alloc_row _ hp
  obtain ⟨nrow, hn1, hn2⟩ := hs.need_row _ hp
  have e1 : s.Allocation.getD pid.toNat [] = arow := by simp [ha1]
  have e2 : s.Need.getD pid.toNat [] = nrow := by simp [hn1]
  have hav := hs.avail_length
  have hm : 0 ≤ s.m := by
    have := hs.1
    omega
  obtain ⟨q1, q2, q3, q4⟩ := hs
  refine ⟨?_, q2, ?_, ?_⟩
  · show ((List.zipWith (fun a r => wrap (a - r)) s.Available req).length : Int) = s.m
    rw [List.length_zipWith]
    omega
  · apply set_rows_shape s.Allocation s.n s.m q3.1 q3.2
    rw [e1, List.length_zipWith]
    omega
  · apply set_rows_shape s.Need s.n s.m q4.1 q4.2
    rw [e2, List.length_zipWith]
    omega

theorem speculative_shaped (s : BankersAlgorithm) (hs : Shaped s) (pid : Int) (req : Vector)
    (hc : ValidCall s pid req) : Shaped (speculative s pid req) := by
  obtain ⟨h0, h1, h2⟩ := hc
  have hp : pid.toNat < s.n.toNat := by omega
  obtain ⟨arow, ha1, ha2⟩ := hs.alloc_row _ hp
  obtain ⟨nrow, hn1, hn2⟩ := hs.need_row _ hp
  have e1 : s.Allocation.getD pid.toNat [] = arow := by simp [ha1]
  have e2 : s.Need.getD pid.toNat [] = nrow := by simp [hn1]
  have hav := hs.avail_length
  have hm : 0 ≤ s.m := by
    have := hs.1
    omega
  obtain ⟨q1, q2, q3, q4⟩ := hs
  refine ⟨?_, q2, ?_, ?_⟩
  · show ((List.zipWith (· - ·) s.Available req).length : Int) = s.m
    rw [List.length_zipWith]
    omega
  · apply set_rows_shape s.Allocation s.n s.m q3.1 q3.2
    rw [e1, List.length_zipWith]
    omega
  · apply set_rows_shape s.Need s.n s.m q4.1 q4.2
    rw [e2, List.length_zipWith]
    omega

/-- On a well-shaped state and an in-range call, `Request` returns what the request
protocol describes. -/
theorem Request_eq (s : BankersAlgorithm) (hs : Shaped s) (hint : IntState s) (pid : Int)
    (req : Vector) (hc : ValidCall s pid req) :
    Request s pid req = requestOutcome s pid req := by
  have hr := hc.inRange hs
  obtain ⟨hp, hreq, hav, ⟨arow, ha, hal⟩, ⟨nrow, hn, hnl⟩⟩ := hr
  have e2 : s.Need.getD pid.toNat [] = nrow := by simp [hn]
  have g1 : needGate s pid req 0 s.m.toNat = some (withinNeed s pid req) := by
    rw [needGate_eq s pid req nrow hp hn _ 0 (by omega) (by omega)]
    congr 1
    unfold withinNeed entry
    rw [e2]
    apply decide_eq_decide.mpr
    constructor
    · intro h j hj
      exact h j (Nat.zero_le j) (by omega)
    · intro h t _ ht
      exact h t (by omega)
  have g2 : availGate s req 0 s.m.toNat = some (withinAvailable s req) := by
    rw [availGate_eq s req _ 0 (by omega) (by omega)]
    congr 1
    unfold withinAvailable
    apply decide_eq_decide.mpr
    constructor
    · intro h j hj
      exact h j (Nat.zero_le j) (by omega)
    · intro h t _ ht
      exact h t (by omega)
  unfold Request requestOutcome
  simp only [g1, g2, Option.bind_eq_bind, Option.some_bind]
  cases withinNeed s pid req with
  | false => rfl
  | true =>
    cases withinAvailable s req with
    | false => rfl
    | true =>
      simp only [Bool.not_true, Bool.false_eq_true, if_false, applyLoop_eq s hs pid req hc,
        Option.some_bind]
      cases hS : Safety (mutated s pid req) with
      | none => rfl
      | some res =>
        obtain ⟨b, seq⟩ := res
        cases b with
        | true => rfl
        | false =>
          simp only [Option.some_bind, Bool.false_eq_true, if_false,
            rollback_apply pid req _ s _ hint (applyLoop_eq s hs pid req hc)]
          rfl

theorem validCall_of (s : BankersAlgorithm) (pid : Int) (req : Vector) (h0 : 0 ≤ pid)
    (hn : pid < s.n) (hreq : (req.length : Int) = s.m) : ValidCall s pid req :=
  ⟨h0, hn, by omega⟩

/-- On a well-shaped state with `int` entries and an in-range call `Request`
returns: the safety check of the mutated state returns a flag `b` and a sequence,
and the outcome is decided by the two gates and `b`. -/
theorem Request_returns (s : BankersAlgorithm) (hs : Shaped s) (hint : IntState s)
    (pid : Int) (req : Vector) (hc : ValidCall s pid req) :
    ∃ b seq, Safety (mutated s pid req) = some (b, seq) ∧
      Request s pid req = some
        (if withinNeed s pid req = false then ⟨RequestResult.ExceedsNeed, s, none⟩
         else if withinAvailable s req = false then ⟨RequestResult.NotAvailable, s, none⟩
         else if b = true then ⟨RequestResult.Granted, mutated s pid req, some seq⟩
         else ⟨RequestResult.Unsafe, s, none⟩) := by
  obtain ⟨st, hst, _, _⟩ := Safety_final _ (mutated_shaped s hs pid req hc)
  refine ⟨_, _, hst, ?_⟩
  rw [Request_eq s hs hint pid req hc]
  unfold requestOutcome
  rw [hst]
  cases withinNeed s pid req with
  | false => rfl
  | true =>
    cases withinAvailable s req with
    | false => rfl
    | true =>
      cases hb : decide (st.safeSequence.length = (mutated s pid req).n.toNat) with
      | true => rfl
      | false => rfl

/-! ## Requests within the `int` range -/

theorem zipWith_getD (f : Int → Int → Int) (v w : Vector) (j : Nat) (h1 : j < v.length)
    (h2 : j < w.length) : (List.zipWith f v w).getD j 0 = f (v.getD j 0) (w.getD j 0) := by
  simp [List.getElem?_zipWith, List.getElem?_eq_getElem h1, List.getElem?_eq_getElem h2]

theorem entry_set_self (A : Matrix) (p : Nat) (X : Vector) (j : Nat) (hp : p < A.length) :
    entry (A.set p X) p j = X.getD j 0 := by
  unfold entry
  have : (A.set p X).getD p [] = X := by simp [List.getElem?_set_self hp]
  rw [this]

theorem entry_set_ne (A : Matrix) (p : Nat) (X : Vector) (i j : Nat) (hne : i ≠ p) :
    entry (A.set p X) i j = entry A i j := by
  unfold entry
  have : (A.set p X).getD i [] = A.getD i [] := by
    simp [List.getElem?_set_ne (fun h => hne h.symm)]
  rw [this]

/-- Column `j < m` of the speculative state, for an in-range call on a well-shaped
state. -/
theorem speculative_entries (s : BankersAlgorithm) (hs : Shaped s) (pid : Int) (req : Vector)
    (hc : ValidCall s pid req) (j : Nat) (hj : j < s.m.toNat) :
    (speculative s pid req).Available.getD j 0 = s.Available.getD j 0 - req.getD j 0 ∧
    entry (speculative s pid req).Allocation pid.toNat j =
      entry s.Allocation pid.toNat j + req.getD j 0 ∧
    entry (speculative s pid req).Need pid.toNat j =
      entry s.Need pid.toNat j - req.getD j 0 := by
  obtain ⟨hp, hreq, hav, ⟨arow, ha, hal⟩, ⟨nrow, hn, hnl⟩⟩ := hc.inRange hs
  have hA : pid.toNat < s.Allocation.length := (List.getElem?_eq_some.mp ha).1
  have hN : pid.toNat < s.Need.length := (List.getElem?_eq_some.mp hn).1
  have e1 : s.Allocation.getD pid.toNat [] = arow := by simp [ha]
  have e2 : s.Need.getD pid.toNat [] = nrow := by simp [hn]
  refine ⟨?_, ?_, ?_⟩
  · show (List.zipWith (· - ·) s.Available req).getD j 0 = _
    rw [zipWith_getD _ _ _ j (by omega) (by omega)]
  · show entry (s.Allocation.set pid.toNat _) pid.toNat j = _
    rw [entry_set_self _ _ _ _ hA, e1, zipWith_getD _ _ _ j (by omega) (by omega)]
    unfold entry
    rw [e1]
  · show entry (s.Need.set pid.toNat _) pid.toNat j = _
    rw [entry_set_self _ _ _ _ hN, e2, zipWith_getD _ _ _ j (by omega) (by omega)]
    unfold entry
    rw [e2]

/-- On a well-formed state the entries of `Need` are `Max - Allocation`. -/
theorem WellFormed.need_entry {s : BankersAlgorithm} (hwf : WellFormed s) (i j : Nat)
    (hi : i < s.n.toNat) (hj : j < s.m.toNat) :
    entry s.Need i j = entry s.Max i j - entry s.Allocation i j := by
  obtain ⟨hs, _, hneed⟩ := hwf
  obtain ⟨mrow, hm1, hm2⟩ := rows_get s.Max s.n s.m hs.2.1.1 hs.2.1.2 i hi
  obtain ⟨arow, ha1, ha2⟩ := hs.alloc_row i hi
  have e1 : s.Max.getD i [] = mrow := by simp [hm1]
  have e2 : s.Allocation.getD i [] = arow := by simp [ha1]
  have e3 : s.Need.getD i [] = List.zipWith (· - ·) mrow arow := by
    rw [hneed]
    simp [List.getElem?_zipWith, hm1, ha1]
  unfold entry
  rw [e1, e2, e3, zipWith_getD _ _ _ j (by omega) (by omega)]

theorem entry_isInt (A : Matrix) (hA : MatInt A) (i j : Nat) : IsInt (entry A i j) := by
  unfold entry
  have hrow := matInt_getD A hA i
  rw [List.getD_eq_getElem?_getD (A.getD i [])]
  cases h : (A.getD i [])[j]? with
  | none =>
    unfold IsInt
    simp
  | some a =>
    obtain ⟨hlt, ha⟩ := List.getElem?_eq_some.mp h
    rw [Option.getD_some, ← ha]
    exact hrow _ (List.getElem_mem hlt)

theorem zipWith_congr_getD (f g : Int → Int → Int) (v w : Vector) (k : Nat)
    (hv : v.length = k)
    (h : ∀ j, j < k → f (v.getD j 0) (w.getD j 0) = g (v.getD j 0) (w.getD j 0)) :
    List.zipWith f v w = List.zipWith g v w := by
  apply List.ext_getElem?
  intro t
  rw [List.getElem?_zipWith, List.getElem?_zipWith]
  by_cases h1 : t < v.length
  · by_cases h2 : t < w.length
    · have := h t (by omega)
      simp only [List.getD_eq_getElem?_getD, List.getElem?_eq_getElem h1,
        List.getElem?_eq_getElem h2, Option.getD_some] at this
      simp [List.getElem?_eq_getElem h1, List.getElem?_eq_getElem h2, this]
    · simp [List.getElem?_eq_getElem h1, List.getElem?_eq_none (Nat.le_of_not_lt h2)]
  · simp [List.getElem?_eq_none (Nat.le_of_not_lt h1)]

/-- When no update leaves the `int` range, the mutation loop leaves exactly the
speculative state. -/
theorem mutated_eq_speculative (s : BankersAlgorithm) (hs : Shaped s) (pid : Int)
    (req : Vector) (hc : ValidCall s pid req) (hno : NoOverflow s pid req) :
    mutated s pid req = speculative s pid req := by
  obtain ⟨h0, h1, h2⟩ := hc
  have hp : pid.toNat < s.n.toNat := by omega
  obtain ⟨arow, ha1, ha2⟩ := hs.alloc_row _ hp
  obtain ⟨nrow, hn1, hn2⟩ := hs.need_row _ hp
  have e1 : s.Allocation.getD pid.toNat [] = arow := by simp [ha1]
  have e2 : s.Need.getD pid.toNat [] = nrow := by simp [hn1]
  have c1 : List.zipWith (fun a r => wrap (a - r)) s.Available req =
      List.zipWith (· - ·) s.Available req :=
    zipWith_congr_getD _ _ _ _ _ hs.avail_length
      (fun j hj => wrap_eq _ (hno j hj).1)
  have c2 : List.zipWith (fun a r => wrap (a + r)) arow req =
      List.zipWith (· + ·) arow req :=
    zipWith_congr_getD _ _ _ _ _ ha2 (fun j hj => by
      have := (hno j hj).2.1
      unfold entry at this
      rw [e1] at this
      exact wrap_eq _ this)
  have c3 : List.zipWith (fun a r => wrap (a - r)) nrow req =
      List.zipWith (· - ·) nrow req :=
    zipWith_congr_getD _ _ _ _ _ hn2 (fun j hj => by
      have := (hno j hj).2.2
      unfold entry at this
      rw [e2] at this
      exact wrap_eq _ this)
  unfold mutated speculative
  rw [e1, e2, c1, c2, c3]

/-- A non-negative request that passes both gates overflows nowhere, on a
well-shaped state with `int` entries and `Need = Max - Allocation`. -/
theorem noOverflow_of_nonneg (s : BankersAlgorithm) (hs : Shaped s) (hint : IntState s)
    (hd : ∀ i, i < s.n.toNat → ∀ j, j < s.m.toNat →
      entry s.Need i j = entry s.Max i j - entry s.Allocation i j)
    (pid : Int) (req : Vector) (hc : ValidCall s pid req) (hreq : VecNonneg req)
    (g1 : withinNeed s pid req = true) (g2 : withinAvailable s req = true) :
    NoOverflow s pid req := by
  obtain ⟨h0, h1, h2⟩ := hc
  have hp : pid.toNat < s.n.toNat := by omega
  unfold withinNeed at g1
  unfold withinAvailable at g2
  rw [decide_eq_true_eq] at g1 g2
  intro j hj
  have b1 := g1 j hj
  have b2 := g2 j hj
  have b3 := vecNonneg_getD req hreq j
  have b4 := vecInt_getD s.Available hint.1 j (by have := hs.avail_length; omega)
  have b5 := entry_isInt s.Max hint.2.1 pid.toNat j
  have b6 := entry_isInt s.Allocation hint.2.2.1 pid.toNat j
  have b7 := entry_isInt s.Need hint.2.2.2 pid.toNat j
  have b8 := hd _ hp j hj
  unfold IsInt at b4 b5 b6 b7 ⊢
  omega

theorem zipWith_vecInt (f : Int → Int → Int) (hf : ∀ a r, IsInt (f a r)) :
    ∀ (v w : Vector), VecInt (List.zipWith f v w) := by
  intro v
  induction v with
  | nil => intro w a ha; simp at ha
  | cons x v ih =>
    intro w
    cases w with
    | nil => intro a ha; simp at ha
    | cons y w =>
      intro a ha
      simp only [List.zipWith_cons_cons, List.mem_cons] at ha
      rcases ha with ha | ha
      · rw [ha]; exact hf x y
      · exact ih w a ha

theorem set_matInt (A : Matrix) (hA : MatInt A) (p : Nat) (X : Vector) (hX : VecInt X) :
    MatInt (A.set p X) := by
  intro row hrow
  rcases List.mem_or_eq_of_mem_set hrow with h | h
  · exact hA row h
  · rw [h]; exact hX

theorem mutated_intState (s : BankersAlgorithm) (hint : IntState s) (pid : Int)
    (req : Vector) : IntState (mutated s pid req) :=
  ⟨zipWith_vecInt _ (fun _ _ => isInt_wrap _) _ _, hint.2.1,
    set_matInt _ hint.2.2.1 _ _ (zipWith_vecInt _ (fun _ _ => isInt_wrap _) _ _),
    set_matInt _ hint.2.2.2 _ _ (zipWith_vecInt _ (fun _ _ => isInt_wrap _) _ _)⟩

theorem updateCols_intState (fa fl fn : Int → Int → Int) (ha : ∀ a r, IsInt (fa a r))
    (hl : ∀ a r, IsInt (fl a r)) (hn : ∀ a r, IsInt (fn a r)) (pid : Int) (req : Vector)
    (j k : Nat) (s : BankersAlgorithm) (hint : IntState s) :
    IntState (updateCols fa fl fn pid req j k s) :=
  ⟨updCols_vecInt fa ha req j k _ hint.1, hint.2.1,
    set_matInt _ hint.2.2.1 _ _ (updCols_vecInt fl hl req j k _ (matInt_getD _ hint.2.2.1 _)),
    set_matInt _ hint.2.2.2 _ _ (updCols_vecInt fn hn req j k _ (matInt_getD _ hint.2.2.2 _))⟩

/-- A returning call of `Request` leaves a state with `int` entries when it started
from one. -/
theorem Request_intState (s : BankersAlgorithm) (hint : IntState s) (pid : Int)
    (req : Vector) (r : RequestReturn) (h : Request s pid req = some r) :
    IntState r.state := by
  by_cases hg : r.result = RequestResult.Granted
  · obtain ⟨happ, _⟩ := Request_granted_state s pid req r h hg
    rw [applyLoop_eq_updateLoop] at happ
    rcases updateLoop_some _ _ _ pid req _ 0 s r.state happ with ⟨_, hs1⟩ | ⟨_, hs1⟩
    · rw [hs1]; exact hint
    · rw [hs1]
      exact updateCols_intState _ _ _ (fun _ _ => isInt_wrap _) (fun _ _ => isInt_wrap _)
        (fun _ _ => isInt_wrap _) pid req 0 _ s hint
  · rw [(Request_rejected_state s hint pid req r h hg).1]
    exact hint

/-- On a well-shaped state and an in-range call `Request` returns. -/
theorem Request_exists (s : BankersAlgorithm) (hs : Shaped s) (pid : Int) (req : Vector)
    (hc : ValidCall s pid req) : ∃ r, Request s pid req = some r := by
  obtain ⟨hp, hreq, hav, ⟨arow, ha, hal⟩, ⟨nrow, hn, hnl⟩⟩ := hc.inRange hs
  have g1 := needGate_eq s pid req nrow hp hn s.m.toNat 0 (by omega) (by omega)
  have g2 := availGate_eq s req s.m.toNat 0 (by omega) (by omega)
  have happ := applyLoop_eq s hs pid req hc
  obtain ⟨st, hst, _, _⟩ := Safety_final _ (mutated_shaped s hs pid req hc)
  obtain ⟨s2, hs2⟩ := rollback_exists pid req _ s _ happ
  unfold Request
  rw [g1, g2]
  simp only [Option.bind_eq_bind, Option.some_bind, happ, hst, hs2]
  split
  · exact ⟨_, rfl⟩
  · split
    · exact ⟨_, rfl⟩
    · split
      · exact ⟨_, rfl⟩
      · exact ⟨_, rfl⟩

/-- A `Granted` return of an in-range call on a well-shaped state with `int`
entries passed both gates and left the mutated state. -/
theorem Request_granted_cases (s : BankersAlgorithm) (hs : Shaped s) (hint : IntState s)
    (pid : Int) (req : Vector) (hc : ValidCall s pid req) (r : RequestReturn)
    (h : Request s pid req = some r) (hg : r.result = RequestResult.Granted) :
    withinNeed s pid req = true ∧ withinAvailable s req = true ∧
      r.state = mutated s pid req := by
  obtain ⟨b, seq, _, h2⟩ := Request_returns s hs hint pid req hc
  rw [h] at h2
  simp only [Option.some.injEq] at h2
  cases hw1 : withinNeed s pid req with
  | false =>
    rw [hw1] at h2
    simp only [if_true] at h2
    rw [h2] at hg
    cases hg
  | true =>
    cases hw : withinAvailable s req with
    | false =>
      rw [hw1, hw] at h2
      simp only [Bool.true_eq_false, if_false, if_true] at h2
      rw [h2] at hg
      cases hg
    | true =>
      rw [hw1, hw] at h2
      simp only [Bool.true_eq_false, if_false] at h2
      cases b with
      | true =>
        simp only [if_true] at h2
        rw [h2]
        exact ⟨rfl, rfl, rfl⟩
      | false =>
        simp only [Bool.false_eq_true, if_false] at h2
        rw [h2] at hg
        cases hg

/-! ## Claims about `Request` -/

/-- Claim C3 (exactness on rejection): on a well-formed state, for a process index in
`[0, n)` and a request vector of length `m`, `Request` returns, and when its outcome
is not `Granted` the whole state after the call equals the state before it. -/
theorem Request_rejected_unchanged (s : BankersAlgorithm) (hwf : WellFormed s) (pid : Int)
    (req : Vector) (h0 : 0 ≤ pid) (hn : pid < s.n) (hreq : (req.length : Int) = s.m) :
    ∃ r, Request s pid req = some r ∧
      (r.result ≠ RequestResult.Granted → r.state = s) := by
  obtain ⟨b, seq, _, h⟩ := Request_returns s hwf.1 hwf.2.1 pid req
    (validCall_of s pid req h0 hn hreq)
  exact ⟨_, h, fun hne => (Request_rejected_state s hwf.2.1 pid req _ h hne).1⟩

/-- Witness for C3: an `ExceedsNeed` call on the engine built in `main`. -/
theorem Request_rejected_unchanged_witness :
    (WellFormed canonical ∧ (0 : Int) ≤ 1 ∧ (1 : Int) < canonical.n ∧
      (([4, 0, 0] : Vector).length : Int) = canonical.m) ∧
    ∃ r, Request canonical 1 [4, 0, 0] = some r ∧
      (r.result ≠ RequestResult.Granted → r.state = canonical) :=
  ⟨⟨by decide, by decide, by decide, by decide⟩,
    Request_rejected_unchanged canonical (by decide) 1 [4, 0, 0] (by decide) (by decide)
      (by decide)⟩

/-- Claim C4 (`ExceedsNeed` gate): on a well-formed state and an in-range call,
`Request` returns `ExceedsNeed` exactly when some resource class `j < m` has
`request[j] > Need[pid][j]`, whatever `Available` holds. -/
theorem Request_exceedsNeed_iff (s : BankersAlgorithm) (hwf : WellFormed s) (pid : Int)
    (req : Vector) (h0 : 0 ≤ pid) (hn : pid < s.n) (hreq : (req.length : Int) = s.m) :
    ∃ r, Request s pid req = some r ∧
      (r.result = RequestResult.ExceedsNeed ↔
        ∃ j, j < s.m.toNat ∧ req.getD j 0 > entry s.Need pid.toNat j) := by
  obtain ⟨b, seq, _, h⟩ := Request_returns s hwf.1 hwf.2.1 pid req
    (validCall_of s pid req h0 hn hreq)
  refine ⟨_, h, ?_⟩
  have hiff : withinNeed s pid req = false ↔
      ∃ j, j < s.m.toNat ∧ req.getD j 0 > entry s.Need pid.toNat j := by
    unfold withinNeed
    rw [decide_eq_false_iff_not]
    constructor
    · intro hnot
      by_contra hcon
      apply hnot
      intro j hj
      by_contra hle
      exact hcon ⟨j, hj, by omega⟩
    · rintro ⟨j, hj, hgt⟩ hall
      have := hall j hj
      omega
  rw [← hiff]
  cases withinNeed s pid req with
  | false => simp
  | true =>
    cases withinAvailable s req with
    | false => simp
    | true => cases b <;> simp

/-- Witness for C4: on the engine built in `main`, process 1 requesting `[4,0,0]`
exceeds both `Need[1][0] = 1` and `Available[0] = 3`, and the outcome is
`ExceedsNeed`. -/
theorem Request_exceedsNeed_witness :
    (entry canonical.Need 1 0 = 1 ∧ canonical.Available.getD 0 0 = 3) ∧
    ∃ r, Request canonical 1 [4, 0, 0] = some r ∧
      r.result = RequestResult.ExceedsNeed := by
  obtain ⟨r, hr, hiff⟩ := Request_exceedsNeed_iff canonical (by decide) 1 [4, 0, 0]
    (by decide) (by decide) (by decide)
  exact ⟨⟨by decide, by decide⟩, r, hr, hiff.mpr ⟨0, by decide, by decide⟩⟩

/-- Claim C5 (`NotAvailable` gate): on a well-formed state and an in-range call,
`Request` returns `NotAvailable` exactly when `request[j] ≤ Need[pid][j]` for every
`j < m` and some `j < m` has `request[j] > Available[j]`. -/
theorem Request_notAvailable_iff (s : BankersAlgorithm) (hwf : WellFormed s) (pid : Int)
    (req : Vector) (h0 : 0 ≤ pid) (hn : pid < s.n) (hreq : (req.length : Int) = s.m) :
    ∃ r, Request s pid req = some r ∧
      (r.result = RequestResult.NotAvailable ↔
        (∀ j, j < s.m.toNat → req.getD j 0 ≤ entry s.Need pid.toNat j) ∧
        ∃ j, j < s.m.toNat ∧ req.getD j 0 > s.Available.getD j 0) := by
  obtain ⟨b, seq, _, h⟩ := Request_returns s hwf.1 hwf.2.1 pid req
    (validCall_of s pid req h0 hn hreq)
  refine ⟨_, h, ?_⟩
  have hiff1 : withinNeed s pid req = true ↔
      ∀ j, j < s.m.toNat → req.getD j 0 ≤ entry s.Need pid.toNat j := by
    unfold withinNeed
    rw [decide_eq_true_eq]
  have hiff2 : withinAvailable s req = false ↔
      ∃ j, j < s.m.toNat ∧ req.getD j 0 > s.Available.getD j 0 := by
    unfold withinAvailable
    rw [decide_eq_false_iff_not]
    constructor
    · intro hnot
      by_contra hcon
      apply hnot
      intro j hj
      by_contra hle
      exact hcon ⟨j, hj, by omega⟩
    · rintro ⟨j, hj, hgt⟩ hall
      have := hall j hj
      omega
  rw [← hiff1, ← hiff2]
  cases withinNeed s pid req with
  | false => simp
  | true =>
    cases withinAvailable s req with
    | false => simp
    | true => cases b <;> simp

/-- Witness for C5: on the engine built in `main`, process 4 requesting `[4,0,0]`
stays within `Need[4] = [4,3,1]`, exceeds `Available = [3,3,2]`, and the outcome is
`NotAvailable`. -/
theorem Request_notAvailable_witness :
    (canonical.Need.getD 4 [] = [4, 3, 1] ∧ canonical.Available = [3, 3, 2]) ∧
    ∃ r, Request canonical 4 [4, 0, 0] = some r ∧
      r.result = RequestResult.NotAvailable := by
  obtain ⟨r, hr, hiff⟩ := Request_notAvailable_iff canonical (by decide) 4 [4, 0, 0]
    (by decide) (by decide) (by decide)
  exact ⟨⟨by decide, by decide⟩, r, hr, hiff.mpr ⟨by decide, 0, by decide, by decide⟩⟩

/-- What a returning call of `Request` does to a well-shaped state with `int`
entries: nothing, or (past both gates of an in-range call) the step to the mutated
state. -/
theorem Request_state_cases (s : BankersAlgorithm) (hs : Shaped s) (hint : IntState s)
    (pid : Int) (req : Vector) (r : RequestReturn) (h : Request s pid req = some r) :
    r.state = s ∨
      (ValidCall s pid req ∧ withinNeed s pid req = true ∧ withinAvailable s req = true ∧
        r.state = mutated s pid req) := by
  by_cases hg : r.result = RequestResult.Granted
  · obtain ⟨happ, _⟩ := Request_granted_state s pid req r h hg
    have happ2 := happ
    rw [applyLoop_eq_updateLoop] at happ2
    rcases updateLoop_some _ _ _ pid req _ 0 s r.state happ2 with ⟨_, hs1⟩ | ⟨hr, _⟩
    · exact Or.inl hs1
    · right
      obtain ⟨hp, hreq, _, ⟨arow, ha, _⟩, _⟩ := hr
      have hA : pid.toNat < s.Allocation.length := (List.getElem?_eq_some.mp ha).1
      have hlen := hs.2.2.1.1
      have hc : ValidCall s pid req := ⟨hp, by omega, by omega⟩
      obtain ⟨b, seq, _, h2⟩ := Request_returns s hs hint pid req hc
      rw [h] at h2
      simp only [Option.some.injEq] at h2
      rw [applyLoop_eq s hs pid req hc] at happ
      simp only [Option.some.injEq] at happ
      refine ⟨hc, ?_, ?_, happ.symm⟩
      · cases hw : withinNeed s pid req with
        | true => rfl
        | false =>
          rw [hw] at h2
          simp only [if_true] at h2
          rw [h2] at hg
          cases hg
      · cases hw1 : withinNeed s pid req with
        | false =>
          rw [hw1] at h2
          simp only [if_true] at h2
          rw [h2] at hg
          cases hg
        | true =>
          cases hw : withinAvailable s req with
          | true => rfl
          | false =>
            rw [hw1, hw] at h2
            simp only [Bool.true_eq_false, if_false, if_true] at h2
            rw [h2] at hg
            cases hg
  · exact Or.inl (Request_rejected_state s hint pid req r h hg).1

/-- Counterexample for C7: `overflowGrant` satisfies the data-model invariants, the
request `[-1]` of process 0 is `Granted`, and the program leaves
`Available[0] = INT_MIN` where `Available[0] - request[0]` is `INT_MAX + 1` (and
likewise `Need[0][0] = INT_MIN`). -/
theorem Request_granted_effect_overflow :
    (WellFormed overflowGrant ∧ AllocationWithinMax overflowGrant ∧
      AvailableNonneg overflowGrant) ∧
    Request overflowGrant 0 [-1] =
      some ⟨RequestResult.Granted, overflowGrantAfter, some [0]⟩ ∧
    overflowGrantAfter.Available.getD 0 0 = -2147483648 ∧
    overflowGrant.Available.getD 0 0 - ([-1] : Vector).getD 0 0 = 2147483648 ∧
    entry overflowGrantAfter.Need 0 0 ≠
      entry overflowGrant.Need 0 0 - ([-1] : Vector).getD 0 0 := by
  decide

/-- Claim C7, amended (commit effect and frame of `Granted`): on a well-formed state
and an in-range call none of whose three updates leaves the `int` range
(`NoOverflow`, which holds for every componentwise non-negative request that passes
both checks), when `Request` returns `Granted` the resulting state has
`Available[j] - request[j]`,
`Allocation[pid][j] + request[j]` and `Need[pid][j] - request[j]` in every column
`j < m`; `Max`, `n`, `m` and the rows `i ≠ pid` of `Allocation` and `Need` are
unchanged; and the sequence handed to the caller is the one `Safety` produces on
the resulting state. -/
theorem Request_granted_effect (s : BankersAlgorithm) (hwf : WellFormed s) (pid : Int)
    (req : Vector) (h0 : 0 ≤ pid) (hn : pid < s.n) (hreq : (req.length : Int) = s.m)
    (hno : NoOverflow s pid req)
    (r : RequestReturn) (h : Request s pid req = some r)
    (hg : r.result = RequestResult.Granted) :
    (∀ j, j < s.m.toNat →
      r.state.Available.getD j 0 = s.Available.getD j 0 - req.getD j 0 ∧
      entry r.state.Allocation pid.toNat j = entry s.Allocation pid.toNat j + req.getD j 0 ∧
      entry r.state.Need pid.toNat j = entry s.Need pid.toNat j - req.getD j 0) ∧
    (r.state.Max = s.Max ∧ r.state.n = s.n ∧ r.state.m = s.m) ∧
    (∀ i, i ≠ pid.toNat →
      r.state.Allocation[i]? = s.Allocation[i]? ∧ r.state.Need[i]? = s.Need[i]?) ∧
    ∃ seq, r.safeAfter = some seq ∧ Safety r.state = some (true, seq) := by
  have hc := validCall_of s pid req h0 hn hreq
  obtain ⟨_, hseq⟩ := Request_granted_state s pid req r h hg
  obtain ⟨g1, g2, hst⟩ := Request_granted_cases s hwf.1 hwf.2.1 pid req hc r h hg
  rw [mutated_eq_speculative s hwf.1 pid req hc hno] at hst
  rw [hst]
  rw [hst] at hseq
  refine ⟨fun j hj => speculative_entries s hwf.1 pid req hc j hj, ⟨rfl, rfl, rfl⟩, ?_, hseq⟩
  intro i hi
  constructor
  · show (s.Allocation.set pid.toNat _)[i]? = _
    rw [List.getElem?_set_ne (fun h => hi h.symm)]
  · show (s.Need.set pid.toNat _)[i]? = _
    rw [List.getElem?_set_ne (fun h => hi h.symm)]

/-- Witness for the amended C7: process 1 requesting `[1,0,2]` from the engine built in `main` is
granted. -/
theorem Request_granted_effect_witness :
    Request canonical 1 [1, 0, 2] =
      some ⟨RequestResult.Granted, canonicalAfter, some [1, 3, 4, 0, 2]⟩ ∧
    (∀ j, j < canonical.m.toNat →
      canonicalAfter.Available.getD j 0 =
        canonical.Available.getD j 0 - ([1, 0, 2] : Vector).getD j 0 ∧
      entry canonicalAfter.Allocation (1 : Int).toNat j =
        entry canonical.Allocation (1 : Int).toNat j + ([1, 0, 2] : Vector).getD j 0 ∧
      entry canonicalAfter.Need (1 : Int).toNat j =
        entry canonical.Need (1 : Int).toNat j - ([1, 0, 2] : Vector).getD j 0) ∧
    (canonicalAfter.Max = canonical.Max ∧ canonicalAfter.n = canonical.n ∧
      canonicalAfter.m = canonical.m) ∧
    (∀ i, i ≠ (1 : Int).toNat →
      canonicalAfter.Allocation[i]? = canonical.Allocation[i]? ∧
      canonicalAfter.Need[i]? = canonical.Need[i]?) ∧
    ∃ seq, some [1, 3, 4, 0, 2] = some seq ∧ Safety canonicalAfter = some (true, seq) :=
  ⟨by decide, Request_granted_effect canonical (by decide) 1 [1, 0, 2] (by decide) (by decide)
    (by decide) (by decide) ⟨RequestResult.Granted, canonicalAfter, some [1, 3, 4, 0, 2]⟩
    (by decide) rfl⟩

/-! ## Sequences of operations -/

theorem runRequests_safe : ∀ (calls : List (Int × Vector)) (s s1 : BankersAlgorithm),
    IntState s → (∃ seq, Safety s = some (true, seq)) → runRequests s calls = some s1 →
    ∃ seq, Safety s1 = some (true, seq) := by
  intro calls
  induction calls with
  | nil =>
    intro s s1 _ hsafe hrun
    simp only [runRequests, Option.some.injEq] at hrun
    rw [← hrun]
    exact hsafe
  | cons call rest ih =>
    intro s s1 hint hsafe hrun
    simp only [runRequests, Option.bind_eq_some] at hrun
    obtain ⟨r, hr, hrest⟩ := hrun
    apply ih r.state s1 (Request_intState s hint call.1 call.2 r hr) _ hrest
    by_cases hg : r.result = RequestResult.Granted
    · obtain ⟨_, seq, _, hS⟩ := Request_granted_state s call.1 call.2 r hr hg
      exact ⟨seq, hS⟩
    · rw [(Request_rejected_state s hint call.1 call.2 r hr hg).1]
      exact hsafe

/-- Claim C8 (safe-state preservation): on every state, a `Granted` outcome of
`Request` leaves a state on which `Safety` returns true; hence from a state on which
`Safety` returns true, `Safety` returns true on every state reached through a finite
sequence of `Request` calls, whatever their arguments and outcomes. A state is a
record the program can hold: the second half takes its entries to be 32-bit `int`s
(`IntState`), the one thing the type `List Int` of the embedding does not enforce. -/
theorem Request_preserves_safe (s : BankersAlgorithm) :
    (∀ pid req r, Request s pid req = some r → r.result = RequestResult.Granted →
      ∃ seq, Safety r.state = some (true, seq)) ∧
    (IntState s → ∀ calls s1, (∃ seq, Safety s = some (true, seq)) →
      runRequests s calls = some s1 → ∃ seq, Safety s1 = some (true, seq)) := by
  constructor
  · intro pid req r hr hg
    obtain ⟨_, seq, _, hS⟩ := Request_granted_state s pid req r hr hg
    exact ⟨seq, hS⟩
  · intro hint calls s1 hsafe hrun
    exact runRequests_safe calls s s1 hint hsafe hrun

/-- Witness for C8: from the engine built in `main`, process 1 is granted `[1,0,2]`,
then process 4 is refused `[3,3,0]` (`NotAvailable`) and process 0 is refused
`[0,2,0]` (`Unsafe`); the state reached is safe. -/
theorem Request_preserves_safe_witness :
    (Request canonical 1 [1, 0, 2] =
        some ⟨RequestResult.Granted, canonicalAfter, some [1, 3, 4, 0, 2]⟩ ∧
      (Request canonicalAfter 0 [0, 2, 0]).map (fun r => r.result) =
        some RequestResult.Unsafe ∧
      runRequests canonical [(1, [1, 0, 2]), (4, [3, 3, 0]), (0, [0, 2, 0])] =
        some canonicalAfter ∧ IntState canonical) ∧
    (∃ seq, Safety canonicalAfter = some (true, seq)) ∧
    (∃ seq, Safety canonicalAfter = some (true, seq)) :=
  ⟨⟨by decide, by decide, by decide, by decide⟩,
    (Request_preserves_safe canonical).1 1 [1, 0, 2]
      ⟨RequestResult.Granted, canonicalAfter, some [1, 3, 4, 0, 2]⟩ (by decide) rfl,
    (Request_preserves_safe canonical).2 (by decide)
      [(1, [1, 0, 2]), (4, [3, 3, 0]), (0, [0, 2, 0])]
      canonicalAfter ⟨[1, 3, 4, 0, 2], by decide⟩ (by decide)⟩

/-! ## Conservation -/

theorem sum_range_update (f g : Nat → Int) (p : Nat) (d : Int) (hp : g p = f p + d)
    (hne : ∀ i, i ≠ p → g i = f i) : ∀ n,
    ((List.range n).map g).sum = ((List.range n).map f).sum + (if p < n then d else 0) := by
  intro n
  induction n with
  | zero => simp
  | succ n ih =>
    rw [List.range_succ, List.map_append, List.map_append, List.sum_append, List.sum_append, ih]
    simp only [List.map_cons, List.map_nil, List.sum_cons, List.sum_nil, add_zero]
    by_cases h1 : p < n
    · have h2 : p < n + 1 := by omega
      have h3 : n ≠ p := by omega
      simp only [h1, h2, if_true, hne n h3]
      omega
    · by_cases h4 : p = n
      · subst h4
        simp only [hp, lt_irrefl, if_false, Nat.lt_succ_self, if_true]
        omega
      · have h2 : ¬ p < n + 1 := by omega
        have h3 : n ≠ p := fun h => h4 h.symm
        simp only [h1, h2, if_false, hne n h3]
        omega

theorem speculative_totalUnits (s : BankersAlgorithm) (hs : Shaped s) (pid : Int)
    (req : Vector) (hc : ValidCall s pid req) (j : Nat) (hj : j < s.m.toNat) :
    totalUnits (speculative s pid req) j = totalUnits s j := by
  obtain ⟨e1, e2, _⟩ := speculative_entries s hs pid req hc j hj
  have hp : pid.toNat < s.n.toNat := by
    obtain ⟨h0, h1, _⟩ := hc
    omega
  have hsum := sum_range_update (fun i => entry s.Allocation i j)
    (fun i => entry (speculative s pid req).Allocation i j) pid.toNat (req.getD j 0) e2
    (fun i hi => entry_set_ne s.Allocation pid.toNat _ i j hi) s.n.toNat
  simp only [hp, if_true] at hsum
  unfold totalUnits
  rw [e1]
  show _ + ((List.range s.n.toNat).map
    (fun i => entry (speculative s pid req).Allocation i j)).sum = _
  rw [hsum]
  omega

theorem speculative_needDerived (s : BankersAlgorithm) (hs : Shaped s) (hd : NeedDerived s)
    (pid : Int) (req : Vector) (hc : ValidCall s pid req) :
    NeedDerived (speculative s pid req) := by
  intro i hi j hj
  have hi1 : i < s.n.toNat := hi
  have hj1 : j < s.m.toNat := hj
  show entry (speculative s pid req).Need i j =
    entry s.Max i j - entry (speculative s pid req).Allocation i j
  by_cases hip : i = pid.toNat
  · subst hip
    obtain ⟨_, e2, e3⟩ := speculative_entries s hs pid req hc j hj1
    rw [e2, e3, hd _ hi1 j hj1]
    omega
  · rw [show entry (speculative s pid req).Need i j = entry s.Need i j from
        entry_set_ne s.Need pid.toNat _ i j hip,
      show entry (speculative s pid req).Allocation i j = entry s.Allocation i j from
        entry_set_ne s.Allocation pid.toNat _ i j hip]
    exact hd i hi1 j hj1

/-- What a returning call of `Request` with a non-negative request does to a
well-shaped state with `int` entries and `Need = Max - Allocation`: nothing, or
(past both gates of an in-range call) the step to the speculative state, which is
again such a state. -/
theorem Request_state_exact (s : BankersAlgorithm) (hs : Shaped s) (hint : IntState s)
    (hd : NeedDerived s) (pid : Int) (req : Vector) (hreq : VecNonneg req)
    (r : RequestReturn) (h : Request s pid req = some r) :
    (Shaped r.state ∧ IntState r.state ∧ NeedDerived r.state) ∧
    (r.state = s ∨
      (ValidCall s pid req ∧ withinNeed s pid req = true ∧ withinAvailable s req = true ∧
        r.state = speculative s pid req)) := by
  rcases Request_state_cases s hs hint pid req r h with h1 | ⟨hc, g1, g2, h1⟩
  · rw [h1]
    exact ⟨⟨hs, hint, hd⟩, Or.inl rfl⟩
  · have hno := noOverflow_of_nonneg s hs hint hd pid req hc hreq g1 g2
    have heq := mutated_eq_speculative s hs pid req hc hno
    have hint1 := mutated_intState s hint pid req
    rw [heq] at h1 hint1
    rw [h1]
    exact ⟨⟨speculative_shaped s hs pid req hc, hint1,
      speculative_needDerived s hs hd pid req hc⟩, Or.inr ⟨hc, g1, g2, rfl⟩⟩

theorem step_conserves (s : BankersAlgorithm) (hs : Shaped s) (hint : IntState s)
    (hd : NeedDerived s) (op : Op) (hop : opNonneg op)
    (s1 : BankersAlgorithm) (h : step s op = some s1) :
    (Shaped s1 ∧ IntState s1 ∧ NeedDerived s1) ∧ s1.m = s.m ∧
      ∀ j, j < s.m.toNat → totalUnits s1 j = totalUnits s j := by
  cases op with
  | safety =>
    simp only [step, Option.map_eq_some'] at h
    obtain ⟨_, _, h⟩ := h
    subst h
    exact ⟨⟨hs, hint, hd⟩, rfl, fun _ _ => rfl⟩
  | request pid req =>
    simp only [step, Option.map_eq_some'] at h
    obtain ⟨r, hr, h⟩ := h
    subst h
    obtain ⟨hinv, hcases⟩ := Request_state_exact s hs hint hd pid req hop r hr
    refine ⟨hinv, ?_, ?_⟩
    · rcases hcases with h1 | ⟨_, _, _, h1⟩
      · rw [h1]
      · rw [h1]
        rfl
    · rcases hcases with h1 | ⟨hc, _, _, h1⟩
      · rw [h1]
        exact fun _ _ => rfl
      · rw [h1]
        exact fun j hj => speculative_totalUnits s hs pid req hc j hj

theorem run_conserves : ∀ (ops : List Op) (s s1 : BankersAlgorithm), Shaped s →
    IntState s → NeedDerived s → OpsNonneg ops → run s ops = some s1 →
    s1.m = s.m ∧ ∀ j, j < s.m.toNat → totalUnits s1 j = totalUnits s j := by
  intro ops
  induction ops with
  | nil =>
    intro s s1 _ _ _ _ h
    simp only [run, Option.some.injEq] at h
    subst h
    exact ⟨rfl, fun _ _ => rfl⟩
  | cons op rest ih =>
    intro s s1 hs hint hd hops h
    simp only [run, Option.bind_eq_some] at h
    obtain ⟨s2, h2, hrest⟩ := h
    obtain ⟨⟨hs2, hint2, hd2⟩, hm2, ht2⟩ := step_conserves s hs hint hd op
      (hops op (List.mem_cons_self op rest)) s2 h2
    obtain ⟨hm1, ht1⟩ := ih s2 s1 hs2 hint2 hd2
      (fun o ho => hops o (List.mem_cons_of_mem op ho)) hrest
    refine ⟨by rw [hm1, hm2], ?_⟩
    intro j hj
    rw [ht1 j (by rw [hm2]; exact hj), ht2 j hj]

theorem WellFormed.needDerived {s : BankersAlgorithm} (hwf : WellFormed s) : NeedDerived s :=
  fun i hi j hj => hwf.need_entry i j hi hj

/-- A returning call of `Request` none of whose three updates leaves the `int` range
keeps every total supply, whatever its outcome. -/
theorem Request_conserves (s : BankersAlgorithm) (hs : Shaped s) (hint : IntState s)
    (pid : Int) (req : Vector) (hno : NoOverflow s pid req) (r : RequestReturn)
    (h : Request s pid req = some r) (j : Nat) (hj : j < s.m.toNat) :
    totalUnits r.state j = totalUnits s j := by
  rcases Request_state_cases s hs hint pid req r h with h1 | ⟨hc, _, _, h1⟩
  · rw [h1]
  · rw [h1, mutated_eq_speculative s hs pid req hc hno]
    exact speculative_totalUnits s hs pid req hc j hj

/-- Counterexample for C9: `overflowGrant` satisfies the data-model invariants and
holds `INT_MAX` units of class 0; the granted request `[-1]` of process 0 leaves
`Available[0] = INT_MIN` and `Allocation[0][0] = -1`, a total of `INT_MIN - 1`. -/
theorem conservation_overflow :
    (WellFormed overflowGrant ∧ AllocationWithinMax overflowGrant ∧
      AvailableNonneg overflowGrant) ∧
    run overflowGrant [Op.request 0 [-1]] = some overflowGrantAfter ∧
    totalUnits overflowGrant 0 = 2147483647 ∧
    totalUnits overflowGrantAfter 0 = -2147483649 := by
  decide

/-- Claim C9, amended (conservation): on a well-formed state, for every resource
class `j < m` the total `Available[j] + Σ_i Allocation[i][j]` is the same after as
before every `Request` call, whatever its outcome, none of whose three updates
leaves the `int` range (`NoOverflow`); and it is the same after as before any finite
sequence of `Safety` calls and of `Request` calls with componentwise non-negative
requests, no update of which can overflow. -/
theorem conservation (s : BankersAlgorithm) (hwf : WellFormed s) :
    (∀ pid req r, NoOverflow s pid req → Request s pid req = some r →
      ∀ j, j < s.m.toNat → totalUnits r.state j = totalUnits s j) ∧
    (∀ ops s1, OpsNonneg ops → run s ops = some s1 →
      ∀ j, j < s.m.toNat → totalUnits s1 j = totalUnits s j) := by
  constructor
  · intro pid req r hno h j hj
    exact Request_conserves s hwf.1 hwf.2.1 pid req hno r h j hj
  · intro ops s1 hops h j hj
    exact (run_conserves ops s s1 hwf.1 hwf.2.1 hwf.needDerived hops h).2 j hj

/-- Witness for the amended C9: on the engine built in `main`, the granted request
`[0,-2,0]` of process 0, which does not overflow; and a granted request, a safety
check, a `NotAvailable` and an `Unsafe` request, after which class 0 keeps its 10
units. -/
theorem conservation_witness :
    (WellFormed canonical ∧
      Request canonical 0 [0, -2, 0] =
        some ⟨RequestResult.Granted, canonicalNegative, some [1, 3, 4, 0, 2]⟩ ∧
      run canonical [Op.request 1 [1, 0, 2], Op.safety, Op.request 4 [3, 3, 0],
        Op.request 0 [0, 2, 0]] = some canonicalAfter ∧
      totalUnits canonical 0 = 10) ∧
    totalUnits canonicalNegative 1 = totalUnits canonical 1 ∧
    totalUnits canonicalAfter 0 = totalUnits canonical 0 :=
  ⟨⟨by decide, by decide, by decide, by decide⟩,
    (conservation canonical (by decide)).1 0 [0, -2, 0]
      ⟨RequestResult.Granted, canonicalNegative, some [1, 3, 4, 0, 2]⟩ (by decide)
      (by decide) 1 (by decide),
    (conservation canonical (by decide)).2
      [Op.request 1 [1, 0, 2], Op.safety, Op.request 4 [3, 3, 0], Op.request 0 [0, 2, 0]]
      canonicalAfter (by decide) (by decide) 0 (by decide)⟩

/-! ## Bounds invariants -/

/-- Claim C10 (bounds invariants preserved by `Request`): on a well-formed state with
`0 ≤ Allocation[i][j] ≤ Max[i][j]` and `Available[j] ≥ 0`, for a componentwise
non-negative request, every return of `Request` (any outcome) leaves a state with
`0 ≤ Allocation[i][j] ≤ Max[i][j]`, `Need[i][j] ≥ 0` and `Available[j] ≥ 0`; and
`Request` does return when the process index is in `[0, n)` and the request has
length `m`. -/
theorem Request_preserves_bounds (s : BankersAlgorithm) (hwf : WellFormed s)
    (hal : AllocationWithinMax s) (hav : AvailableNonneg s) (pid : Int) (req : Vector)
    (hreq : VecNonneg req) :
    (∀ r, Request s pid req = some r →
      AllocationWithinMax r.state ∧ NeedNonneg r.state ∧ AvailableNonneg r.state) ∧
    (0 ≤ pid → pid < s.n → (req.length : Int) = s.m → ∃ r, Request s pid req = some r) := by
  have hneed : NeedNonneg s := by
    intro i hi j hj
    rw [hwf.need_entry i j hi hj]
    have := (hal i hi j hj).2
    omega
  constructor
  · intro r hr
    rcases (Request_state_exact s hwf.1 hwf.2.1 hwf.needDerived pid req hreq r hr).2 with
      h1 | ⟨hc, g1, g2, h1⟩
    · rw [h1]
      exact ⟨hal, hneed, hav⟩
    · rw [h1]
      unfold withinNeed at g1
      unfold withinAvailable at g2
      rw [decide_eq_true_eq] at g1 g2
      refine ⟨?_, ?_, ?_⟩
      · intro i hi j hj
        have hi1 : i < s.n.toNat := hi
        have hj1 : j < s.m.toNat := hj
        show 0 ≤ entry (speculative s pid req).Allocation i j ∧
          entry (speculative s pid req).Allocation i j ≤ entry s.Max i j
        by_cases hip : i = pid.toNat
        · subst hip
          obtain ⟨_, e2, _⟩ := speculative_entries s hwf.1 pid req hc j hj1
          rw [e2]
          have b1 := hal _ hi1 j hj1
          have b2 := g1 j hj1
          have b3 := hwf.need_entry _ j hi1 hj1
          have b4 := vecNonneg_getD req hreq j
          omega
        · rw [show entry (speculative s pid req).Allocation i j = entry s.Allocation i j from
            entry_set_ne s.Allocation pid.toNat _ i j hip]
          exact hal i hi1 j hj1
      · intro i hi j hj
        have hi1 : i < s.n.toNat := hi
        have hj1 : j < s.m.toNat := hj
        by_cases hip : i = pid.toNat
        · subst hip
          obtain ⟨_, _, e3⟩ := speculative_entries s hwf.1 pid req hc j hj1
          rw [e3]
          have b2 := g1 j hj1
          omega
        · rw [show entry (speculative s pid req).Need i j = entry s.Need i j from
            entry_set_ne s.Need pid.toNat _ i j hip]
          exact hneed i hi1 j hj1
      · intro j hj
        have hj1 : j < s.m.toNat := hj
        obtain ⟨e1, _, _⟩ := speculative_entries s hwf.1 pid req hc j hj1
        rw [e1]
        have b2 := g2 j hj1
        omega
  · intro h0 hn hlen
    exact Request_exists s hwf.1 pid req (validCall_of s pid req h0 hn hlen)

/-- Witness for C10: the granted request of process 1 for `[1,0,2]` on the engine
built in `main`. -/
theorem Request_preserves_bounds_witness :
    (WellFormed canonical ∧ AllocationWithinMax canonical ∧ AvailableNonneg canonical ∧
      VecNonneg [1, 0, 2] ∧
      Request canonical 1 [1, 0, 2] =
        some ⟨RequestResult.Granted, canonicalAfter, some [1, 3, 4, 0, 2]⟩) ∧
    (AllocationWithinMax canonicalAfter ∧ NeedNonneg canonicalAfter ∧
      AvailableNonneg canonicalAfter) :=
  ⟨⟨by decide, by decide, by decide, by decide, by decide⟩,
    (Request_preserves_bounds canonical (by decide) (by decide) (by decide) 1 [1, 0, 2]
      (by decide)).1 ⟨RequestResult.Granted, canonicalAfter, some [1, 3, 4, 0, 2]⟩ (by decide)⟩

/-! ## The canonical scenario -/

/-- Claim C13 (canonical scenario): the constructor call of `main` (`n = 5`, `m = 3`,
`Available = [3,3,2]` and the `Maximum` and `Allocation` matrices of the example)
builds `canonical`, on which `Safety` returns true with exactly the order
`[1,3,4,0,2]`; that order contains each of `0..4` once and replays validly from
`Available`. -/
theorem canonical_scenario :
    construct 5 3 [3, 3, 2] [[7, 5, 3], [3, 2, 2], [9, 0, 2], [2, 2, 2], [4, 3, 3]]
      [[0, 1, 0], [2, 0, 0], [3, 0, 2], [2, 1, 1], [0, 0, 2]] = some canonical ∧
    Safety canonical = some (true, [1, 3, 4, 0, 2]) ∧
    (∀ i, i < 5 → List.count i [1, 3, 4, 0, 2] = 1) ∧
    List.length [1, 3, 4, 0, 2] = 5 ∧
    validReplay canonical canonical.Available [1, 3, 4, 0, 2] = true := by
  refine ⟨by decide, by decide, by decide, by decide, by decide⟩

/-! ## The sequence left by `Safety` -/

/-- Counterexample for C16: on `overflowTwo` the sequence returned is `[0]`;
process 1 is not in it although its need `5` is at most
`Available[0] + Allocation[0][0] = INT_MAX + 1` - the work the code holds after
releasing process 0 has wrapped to `INT_MIN`. -/
theorem Safety_fixed_point_overflow :
    WellFormed overflowTwo ∧ Safety overflowTwo = some (false, [0]) ∧
    1 < overflowTwo.n.toNat ∧ 1 ∉ [0] ∧
    ¬ ∃ j, j < overflowTwo.m.toNat ∧
      entry overflowTwo.Need 1 j >
        overflowTwo.Available.getD j 0 +
          (([0] : List Nat).map (fun p => entry overflowTwo.Allocation p j)).sum := by
  decide

/-- Claim C16, amended (fixed point at termination): on a well-formed state `Safety`
returns, and every process `i < n` that is not in the returned sequence has a
resource class `j < m` with `Need[i][j] > W[j]`, where `W` is the work vector the code
holds at termination: `Available` with the `Allocation` rows of the processes of the
returned sequence added in order, in `int` arithmetic. When no allocation is negative
and every total supply is at most `INT_MAX`, `W[j]` is `Available[j]` plus the
`Allocation[p][j]` of all processes `p` in the returned sequence. -/
theorem Safety_fixed_point (s : BankersAlgorithm) (hwf : WellFormed s) :
    ∃ b seq, Safety s = some (b, seq) ∧
      (∀ i, i < s.n.toNat → i ∉ seq →
        ∃ j, j < s.m.toNat ∧ entry s.Need i j > (replayWork s s.Available seq).getD j 0) ∧
      (MatNonneg s.Allocation → SupplyFits s → ∀ j, j < s.m.toNat →
        (replayWork s s.Available seq).getD j 0 =
          s.Available.getD j 0 + (seq.map (fun p => entry s.Allocation p j)).sum) := by
  obtain ⟨st, hst, inv, hstuck⟩ := Safety_final s hwf.1
  refine ⟨_, _, hst, ?_, ?_⟩
  · intro i hi hnot
    have hel : eligible s i st.Work = false := by
      rcases hstuck i hi with h | h
      · exact absurd ((inv.fin_iff i).mp h) hnot
      · exact h
    unfold eligible at hel
    rw [decide_eq_false_iff_not] at hel
    by_contra hcon
    apply hel
    intro j hj
    by_contra hlt
    apply hcon
    refine ⟨j, hj, ?_⟩
    rw [← inv.work_eq]
    omega
  · intro hal hfit j hj
    exact replayWork_exact s hwf.1 hwf.2.1.1 hal hfit j hj st.safeSequence inv.nodup inv.lt_n

/-- Witness for the amended C16: a two-process state in which process 1 can never
finish. -/
theorem Safety_fixed_point_witness :
    WellFormed ⟨2, 1, [1], [[1], [9]], [[1], [0]], [[0], [9]]⟩ ∧
    Safety ⟨2, 1, [1], [[1], [9]], [[1], [0]], [[0], [9]]⟩ = some (false, [0]) ∧
    ∃ b seq, Safety ⟨2, 1, [1], [[1], [9]], [[1], [0]], [[0], [9]]⟩ = some (b, seq) ∧
      (∀ i, i < (2 : Int).toNat → i ∉ seq →
        ∃ j, j < (1 : Int).toNat ∧
          entry [[0], [9]] i j >
            (replayWork ⟨2, 1, [1], [[1], [9]], [[1], [0]], [[0], [9]]⟩ [1] seq).getD j 0) ∧
      (MatNonneg [[1], [0]] → SupplyFits ⟨2, 1, [1], [[1], [9]], [[1], [0]], [[0], [9]]⟩ →
        ∀ j, j < (1 : Int).toNat →
          (replayWork ⟨2, 1, [1], [[1], [9]], [[1], [0]], [[0], [9]]⟩ [1] seq).getD j 0 =
            ([1] : Vector).getD j 0 + (seq.map (fun p => entry [[1], [0]] p j)).sum) :=
  ⟨by decide, by decide,
    Safety_fixed_point ⟨2, 1, [1], [[1], [9]], [[1], [0]], [[0], [9]]⟩ (by decide)⟩

/-- Claim C18 (the sequence is always a valid partial finishing order): on a
well-formed state, safe or not, `Safety` returns a sequence whose members are in
`[0, n)`, with no member twice, each eligible (`Need ≤ Work`) for the work vector of
the moment it was appended; and the returned flag is true exactly when the sequence
has length `n`. -/
theorem Safety_sequence_valid (s : BankersAlgorithm) (hwf : WellFormed s) :
    ∃ b seq, Safety s = some (b, seq) ∧
      (∀ i ∈ seq, i < s.n.toNat) ∧ seq.Nodup ∧
      validReplay s s.Available seq = true ∧
      (b = true ↔ (seq.length : Int) = s.n) := by
  obtain ⟨st, hst, inv, _⟩ := Safety_final s hwf.1
  refine ⟨_, _, hst, inv.lt_n, inv.nodup, inv.valid, ?_⟩
  rw [decide_eq_true_eq]
  have hn : 0 ≤ s.n := by
    have := hwf.1.2.1.1
    omega
  omega

/-- Witness for C18: the unsafe two-process state, whose sequence `[0]` is a valid
partial order of length `1 < n`. -/
theorem Safety_sequence_valid_witness :
    WellFormed ⟨2, 1, [1], [[1], [9]], [[1], [0]], [[0], [9]]⟩ ∧
    ∃ b seq, Safety ⟨2, 1, [1], [[1], [9]], [[1], [0]], [[0], [9]]⟩ = some (b, seq) ∧
      (∀ i ∈ seq, i < (2 : Int).toNat) ∧ seq.Nodup ∧
      validReplay ⟨2, 1, [1], [[1], [9]], [[1], [0]], [[0], [9]]⟩ [1] seq = true ∧
      (b = true ↔ (seq.length : Int) = 2) :=
  ⟨by decide, Safety_sequence_valid ⟨2, 1, [1], [[1], [9]], [[1], [0]], [[0], [9]]⟩ (by decide)⟩

/-! ## Requests with negative components -/

/-- Claim C19 (`Request` does not check the sign of the request): the engine built in
`main` satisfies the data-model invariants, yet process 0 requesting `[0,-2,0]` is
`Granted` and leaves `Allocation[0][1] = -1` and `Need[0][1] = 6 > Max[0][1] = 5`,
so invariant 1 no longer holds. -/
theorem Request_accepts_negative :
    (WellFormed canonical ∧ AllocationWithinMax canonical ∧ NeedNonneg canonical ∧
      AvailableNonneg canonical) ∧
    ∃ r, Request canonical 0 [0, -2, 0] = some r ∧
      r.result = RequestResult.Granted ∧
      entry r.state.Allocation 0 1 = -1 ∧
      entry r.state.Need 0 1 > entry r.state.Max 0 1 ∧
      ¬ AllocationWithinMax r.state := by
  refine ⟨⟨by decide, by decide, by decide, by decide⟩,
    ⟨RequestResult.Granted,
      { n := 5, m := 3, Available := [3, 5, 2],
        Max := [[7, 5, 3], [3, 2, 2], [9, 0, 2], [2, 2, 2], [4, 3, 3]],
        Allocation := [[0, -1, 0], [2, 0, 0], [3, 0, 2], [2, 1, 1], [0, 0, 2]],
        Need := [[7, 6, 3], [1, 2, 2], [6, 0, 0], [0, 1, 1], [4, 3, 1]] },
      some [1, 3, 4, 0, 2]⟩, by decide, rfl, by decide, by decide, by decide⟩

/-! ## `Safety` as seen by its caller -/

theorem SafetyCall_eq (s : BankersAlgorithm) (out : List Nat) :
    SafetyCall s out = (Safety s).map (fun r => (s, r.1, r.2)) := by
  unfold SafetyCall Safety SafetyFuel initState
  rw [List.drop_length]
  by_cases hn : s.n < 0
  · simp only [hn, if_true, Option.map_none']
  · simp only [hn, if_false, Option.bind_eq_bind]
    cases whileLoop s (s.n.toNat + 1)
      { Work := s.Available, Finish := List.replicate s.n.toNat false,
        safeSequence := [], progressed := true } with
    | none => rfl
    | some st => rfl

/-- Claim C14 (`Safety` has no side effects and is repeatable): on every state a
returning call of `Safety` hands back the engine unchanged, and its flag and
sequence do not depend on the prior contents of the caller's vector; on a
well-formed state the call returns, a second call right after the first (the
vector now holding the first sequence) returns the same flag and sequence, and
when the flag is true that sequence is a valid order of all `n` processes. -/
theorem Safety_repeatable (s : BankersAlgorithm) :
    (∀ out r, SafetyCall s out = some r → r.1 = s ∧ Safety s = some r.2) ∧
    (∀ out1 out2, SafetyCall s out1 = SafetyCall s out2) ∧
    (WellFormed s → ∃ b seq, (∀ out, SafetyCall s out = some (s, b, seq)) ∧
      SafetyCall s seq = some (s, b, seq) ∧
      (b = true → seq.Perm (List.range s.n.toNat) ∧
        validReplay s s.Available seq = true)) := by
  refine ⟨?_, ?_, ?_⟩
  · intro out r h
    rw [SafetyCall_eq, Option.map_eq_some'] at h
    obtain ⟨a, ha, h⟩ := h
    subst h
    exact ⟨rfl, ha⟩
  · intro out1 out2
    rw [SafetyCall_eq, SafetyCall_eq]
  · intro hwf
    obtain ⟨st, hst, inv, _⟩ := Safety_final s hwf.1
    have hall : ∀ out, SafetyCall s out =
        some (s, decide (st.safeSequence.length = s.n.toNat), st.safeSequence) := by
      intro out
      rw [SafetyCall_eq, hst]
      rfl
    refine ⟨_, _, hall, hall _, ?_⟩
    intro hb
    rw [decide_eq_true_eq] at hb
    exact ⟨inv.perm hb, inv.valid⟩

/-- Witness for C14 on the engine built in `main`, called with a vector that holds
`[7, 7]` and then with the vector left by the first call. -/
theorem Safety_repeatable_witness :
    (WellFormed canonical ∧
      SafetyCall canonical [7, 7] = some (canonical, true, [1, 3, 4, 0, 2]) ∧
      SafetyCall canonical [1, 3, 4, 0, 2] = some (canonical, true, [1, 3, 4, 0, 2])) ∧
    (canonical = canonical ∧ Safety canonical = some (true, [1, 3, 4, 0, 2])) ∧
    SafetyCall canonical [7, 7] = SafetyCall canonical [] ∧
    ∃ b seq, (∀ out, SafetyCall canonical out = some (canonical, b, seq)) ∧
      SafetyCall canonical seq = some (canonical, b, seq) ∧
      (b = true → seq.Perm (List.range canonical.n.toNat) ∧
        validReplay canonical canonical.Available seq = true) :=
  ⟨⟨by decide, by decide, by decide⟩,
    (Safety_repeatable canonical).1 [7, 7] (canonical, true, [1, 3, 4, 0, 2]) (by decide),
    (Safety_repeatable canonical).2.1 [7, 7] [],
    (Safety_repeatable canonical).2.2 (by decide)⟩

/-! ## Index safety -/

theorem needGate_bad_pid (s : BankersAlgorithm) (pid : Int) (req : Vector)
    (h : at? s.Need pid = none) (j k : Nat) : needGate s pid req j (k + 1) = none := by
  simp only [needGate, h, Option.bind_eq_bind, Option.none_bind]
  cases req[j]? with
  | none => rfl
  | some r => rfl

/-- Claim C20 (index safety under the shape precondition): on a state whose
`Available` has length `m` and whose `Max`, `Allocation` and `Need` have `n` rows of
length `m`, the checked-indexing embeddings of `Safety`, of `canMeetNeed` (for a
process index below `n` and a work vector of length `m`) and of `Request` (for
`0 ≤ pid < n` and a request of length `m`) all return, so no index leaves its
range; `Request` itself does not check `pid`: with `m > 0` a `pid` outside `[0, n)`
reaches the out-of-range index `Need[pid]`. -/
theorem index_safety (s : BankersAlgorithm) (hs : Shaped s) :
    (∃ r, Safety s = some r) ∧
    (∀ i W, i < s.n.toNat → W.length = s.m.toNat → ∃ b, canMeetNeed s i W = some b) ∧
    (∀ pid req, 0 ≤ pid → pid < s.n → (req.length : Int) = s.m →
      ∃ r, Request s pid req = some r) ∧
    (∀ pid req, 0 < s.m → pid < 0 ∨ s.n ≤ pid → Request s pid req = none) := by
  refine ⟨?_, ?_, ?_, ?_⟩
  · obtain ⟨st, hst, _, _⟩ := Safety_final s hs
    exact ⟨_, hst⟩
  · intro i W hi hW
    obtain ⟨row, hrow, hlen⟩ := hs.need_row i hi
    exact ⟨_, canMeetNeed_eq s i row W hrow hlen hW⟩
  · intro pid req h0 hn hreq
    exact Request_exists s hs pid req (validCall_of s pid req h0 hn hreq)
  · intro pid req hm hpid
    have hat : at? s.Need pid = none := by
      unfold at?
      by_cases hneg : pid < 0
      · simp only [hneg, if_true]
      · simp only [hneg, if_false]
        apply List.getElem?_eq_none
        have := hs.2.2.2.1
        omega
    obtain ⟨k, hk⟩ : ∃ k, s.m.toNat = k + 1 := ⟨s.m.toNat - 1, by omega⟩
    unfold Request
    rw [hk, needGate_bad_pid s pid req hat 0 k]
    rfl

/-- Witness for C20 on the engine built in `main`: process 1 requesting `[1,0,2]` is
in range, process 5 is not. -/
theorem index_safety_witness :
    Shaped canonical ∧
    ((∃ r, Safety canonical = some r) ∧
      (∃ b, canMeetNeed canonical 1 [3, 3, 2] = some b) ∧
      (∃ r, Request canonical 1 [1, 0, 2] = some r) ∧
      Request canonical 5 [1, 0, 2] = none) :=
  ⟨by decide, (index_safety canonical (by decide)).1,
    (index_safety canonical (by decide)).2.1 1 [3, 3, 2] (by decide) (by decide),
    (index_safety canonical (by decide)).2.2.1 1 [1, 0, 2] (by decide) (by decide) (by decide),
    (index_safety canonical (by decide)).2.2.2 5 [1, 0, 2] (by decide) (by decide)⟩

/-! ## The constructor and `recomputeNeed` -/

/-- What a returning run of the inner loop of `recomputeNeed` leaves in row `i`. -/
theorem recomputeRow_some (Mx Al : Matrix) (i : Nat) : ∀ k j (row row1 : Vector),
    recomputeRow Mx Al i j k row = some row1 →
    row1.length = row.length ∧
    (∀ t, j ≤ t → t < j + k → row1[t]? = some (wrap (entry Mx i t - entry Al i t))) ∧
    (∀ t, ¬ (j ≤ t ∧ t < j + k) → row1[t]? = row[t]?) := by
  intro k
  induction k with
  | zero =>
    intro j row row1 h
    simp only [recomputeRow, Option.some.injEq] at h
    subst h
    exact ⟨rfl, fun t h1 h2 => by omega, fun _ _ => rfl⟩
  | succ k ih =>
    intro j row row1 h
    simp only [recomputeRow, Option.bind_eq_bind, Option.bind_eq_some] at h
    obtain ⟨mrow, hmrow, mx, hmx, arow, harow, al, hal, h⟩ := h
    by_cases hj : j < row.length
    · simp only [hj, if_true] at h
      obtain ⟨h1, h2, h3⟩ := ih (j + 1) _ row1 h
      have e1 : entry Mx i j = mx := by
        unfold entry
        simp [hmrow, hmx]
      have e2 : entry Al i j = al := by
        unfold entry
        simp [harow, hal]
      refine ⟨by simpa using h1, ?_, ?_⟩
      · intro t ht1 ht2
        rcases Nat.eq_or_lt_of_le ht1 with heq | hlt
        · subst heq
          rw [h3 j (by omega), List.getElem?_set_self hj, e1, e2]
        · exact h2 t hlt (by omega)
      · intro t ht
        have hne : j ≠ t := by omega
        rw [h3 t (by omega), List.getElem?_set_ne hne]
    · simp only [hj, if_false] at h
      cases h

theorem recomputeRow_exists (Mx Al : Matrix) (i : Nat) (mrow arow : Vector)
    (hm : Mx[i]? = some mrow) (ha : Al[i]? = some arow) : ∀ k j (row : Vector),
    j + k ≤ mrow.length → j + k ≤ arow.length → j + k ≤ row.length →
    ∃ row1, recomputeRow Mx Al i j k row = some row1 := by
  intro k
  induction k with
  | zero => intro j row _ _ _; exact ⟨row, rfl⟩
  | succ k ih =>
    intro j row h1 h2 h3
    have hj1 : j < mrow.length := by omega
    have hj2 : j < arow.length := by omega
    have hj3 : j < row.length := by omega
    obtain ⟨row1, hrow1⟩ := ih (j + 1) (row.set j (wrap (mrow[j] - arow[j]))) (by omega)
      (by omega)
      (by simp only [List.length_set]; omega)
    refine ⟨row1, ?_⟩
    simp only [recomputeRow, hm, ha, Option.bind_eq_bind, Option.some_bind,
      List.getElem?_eq_getElem hj1, List.getElem?_eq_getElem hj2, hj3, if_true]
    exact hrow1

/-- What a returning run of the outer loop of `recomputeNeed` leaves in `Need`. -/
theorem recomputeRows_some (Mx Al : Matrix) (m : Nat) : ∀ k i (Need Need1 : Matrix),
    recomputeRows Mx Al m i k Need = some Need1 →
    (∀ t : Nat, Option.map (fun r : Vector => r.length) Need1[t]? =
      Option.map (fun r : Vector => r.length) Need[t]?) ∧
    (∀ t, i ≤ t → t < i + k → ∀ j, j < m →
      entry Need1 t j = wrap (entry Mx t j - entry Al t j)) ∧
    (∀ t, ¬ (i ≤ t ∧ t < i + k) → Need1[t]? = Need[t]?) := by
  intro k
  induction k with
  | zero =>
    intro i Need Need1 h
    simp only [recomputeRows, Option.some.injEq] at h
    subst h
    exact ⟨fun _ => rfl, fun t h1 h2 => by omega, fun _ _ => rfl⟩
  | succ k ih =>
    intro i Need Need1 h
    simp only [recomputeRows, Option.bind_eq_bind, Option.bind_eq_some] at h
    obtain ⟨row, hrow, row1, hrow1, h⟩ := h
    obtain ⟨r1, r2, _⟩ := recomputeRow_some Mx Al i m 0 row row1 hrow1
    obtain ⟨h1, h2, h3⟩ := ih (i + 1) _ Need1 h
    have hi : i < Need.length := (List.getElem?_eq_some.mp hrow).1
    refine ⟨?_, ?_, ?_⟩
    · intro t
      rw [h1 t]
      by_cases hti : i = t
      · subst hti
        rw [List.getElem?_set_self hi, hrow]
        simp [r1]
      · rw [List.getElem?_set_ne hti]
    · intro t ht1 ht2 j hj
      rcases Nat.eq_or_lt_of_le ht1 with heq | hlt
      · subst heq
        have e : Need1[i]? = some row1 := by
          rw [h3 i (by omega), List.getElem?_set_self hi]
        have e2 : Need1.getD i [] = row1 := by simp [e]
        have e3 := r2 j (Nat.zero_le j) (by omega)
        unfold entry at e3 ⊢
        rw [e2]
        simp [e3]
      · exact h2 t hlt (by omega) j hj
    · intro t ht
      have hne : i ≠ t := by omega
      rw [h3 t (by omega), List.getElem?_set_ne hne]

theorem recomputeRows_exists (Mx Al : Matrix) (n m : Int) (hMx : MatShape Mx n m)
    (hAl : MatShape Al n m) : ∀ k i (Need : Matrix), i + k ≤ n.toNat →
    i + k ≤ Need.length → (∀ row ∈ Need, m.toNat ≤ row.length) →
    ∃ Need1, recomputeRows Mx Al m.toNat i k Need = some Need1 := by
  intro k
  induction k with
  | zero => intro i Need _ _ _; exact ⟨Need, rfl⟩
  | succ k ih =>
    intro i Need h1 h2 h3
    have hi : i < Need.length := by omega
    obtain ⟨mrow, hm1, hm2⟩ := rows_get Mx n m hMx.1 hMx.2 i (by omega)
    obtain ⟨arow, ha1, ha2⟩ := rows_get Al n m hAl.1 hAl.2 i (by omega)
    have hrow := h3 Need[i] (List.getElem_mem hi)
    obtain ⟨row1, hrow1⟩ := recomputeRow_exists Mx Al i mrow arow hm1 ha1 m.toNat 0 Need[i]
      (by omega) (by omega) (by omega)
    obtain ⟨r1, _, _⟩ := recomputeRow_some Mx Al i m.toNat 0 _ row1 hrow1
    obtain ⟨Need1, hNeed1⟩ := ih (i + 1) (Need.set i row1) (by omega)
      (by simp only [List.length_set]; omega)
      (by
        intro row hmem
        rcases List.mem_or_eq_of_mem_set hmem with h | h
        · exact h3 row h
        · rw [h, r1]; exact hrow)
    refine ⟨Need1, ?_⟩
    simp only [recomputeRows, Option.bind_eq_bind, List.getElem?_eq_getElem hi,
      Option.some_bind, hrow1]
    exact hNeed1

/-- Every engine the constructor returns has the `int` difference
`Max - Allocation` in every entry of `Need` and holds the arguments it was given. -/
theorem construct_some (n m : Int) (av : Vector) (mx al : Matrix) (s : BankersAlgorithm)
    (h : construct n m av mx al = some s) :
    (s.n = n ∧ s.m = m ∧ s.Available = av ∧ s.Max = mx ∧ s.Allocation = al) ∧
    NeedDerivedInt s ∧ MatShape s.Need n m := by
  unfold construct at h
  by_cases hneg : n < 0 ∨ m < 0
  · simp only [hneg, if_true] at h
    cases h
  · simp only [hneg, if_false, Option.bind_eq_bind, Option.bind_eq_some,
      Option.some.injEq] at h
    obtain ⟨need, hneed, h⟩ := h
    subst h
    obtain ⟨h1, h2, h3⟩ := recomputeRows_some mx al m.toNat n.toNat 0 _ need hneed
    refine ⟨⟨rfl, rfl, rfl, rfl, rfl⟩, ?_, ?_, ?_⟩
    · intro i hi j hj
      exact h2 i (Nat.zero_le i) (by simpa using hi) j hj
    · have hlen : ∀ t, t < need.length ↔ t < n.toNat := by
        intro t
        have := h1 t
        by_cases c : t < n.toNat
        · have hc : t < (List.replicate n.toNat (List.replicate m.toNat (0 : Int))).length := by
            simpa using c
          rw [List.getElem?_eq_getElem hc] at this
          cases hq : need[t]? with
          | none => rw [hq] at this; cases this
          | some row => exact ⟨fun _ => c, fun _ => (List.getElem?_eq_some.mp hq).1⟩
        · have hc : (List.replicate n.toNat (List.replicate m.toNat (0 : Int))).length ≤ t := by
            simpa using c
          rw [List.getElem?_eq_none hc] at this
          cases hq : need[t]? with
          | none =>
            have := List.getElem?_eq_none_iff.mp hq
            exact ⟨fun h => by omega, fun h => absurd h c⟩
          | some row => rw [hq] at this; cases this
      have : need.length = n.toNat := by
        rcases Nat.lt_trichotomy need.length n.toNat with h | h | h
        · exact absurd ((hlen need.length).mpr h) (lt_irrefl _)
        · exact h
        · exact absurd ((hlen n.toNat).mp h) (lt_irrefl _)
      show (need.length : Int) = n
      omega
    · intro row hmem
      obtain ⟨t, ht, hrow⟩ := List.getElem_of_mem hmem
      have := h1 t
      rw [List.getElem?_eq_getElem ht, hrow] at this
      cases hq : (List.replicate n.toNat (List.replicate m.toNat (0 : Int)))[t]? with
      | none => rw [hq] at this; cases this
      | some r0 =>
        rw [hq] at this
        obtain ⟨hc, hr0⟩ := List.getElem?_eq_some.mp hq
        simp only [List.getElem_replicate] at hr0
        simp only [Option.map_some', Option.some.injEq] at this
        rw [← hr0] at this
        simp only [List.length_replicate] at this
        show (row.length : Int) = m
        omega

/-- The constructor returns on every `n × m` pair of matrices, whatever their
entries and whatever `Available` is. -/
theorem construct_exists (n m : Int) (av : Vector) (mx al : Matrix) (hn : 0 ≤ n) (hm : 0 ≤ m)
    (hmx : MatShape mx n m) (hal : MatShape al n m) :
    ∃ s, construct n m av mx al = some s := by
  obtain ⟨need, hneed⟩ := recomputeRows_exists mx al n m hmx hal n.toNat 0
    (List.replicate n.toNat (List.replicate m.toNat 0)) (by omega) (by simp)
    (by
      intro row hmem
      rw [List.eq_of_mem_replicate hmem]
      simp)
  have hneg : ¬ (n < 0 ∨ m < 0) := by omega
  refine ⟨{ n := n, m := m, Available := av, Max := mx, Allocation := al, Need := need }, ?_⟩
  unfold construct
  simp only [hneg, if_false, hneed, Option.bind_eq_bind, Option.some_bind]

/-- Column `j < m` of the state the mutation loop leaves, for an in-range call on a
well-shaped state: the three `int` updates. -/
theorem mutated_entries (s : BankersAlgorithm) (hs : Shaped s) (pid : Int) (req : Vector)
    (hc : ValidCall s pid req) (j : Nat) (hj : j < s.m.toNat) :
    (mutated s pid req).Available.getD j 0 = wrap (s.Available.getD j 0 - req.getD j 0) ∧
    entry (mutated s pid req).Allocation pid.toNat j =
      wrap (entry s.Allocation pid.toNat j + req.getD j 0) ∧
    entry (mutated s pid req).Need pid.toNat j =
      wrap (entry s.Need pid.toNat j - req.getD j 0) := by
  obtain ⟨hp, hreq, hav, ⟨arow, ha, hal⟩, ⟨nrow, hn, hnl⟩⟩ := hc.inRange hs
  have hA : pid.toNat < s.Allocation.length := (List.getElem?_eq_some.mp ha).1
  have hN : pid.toNat < s.Need.length := (List.getElem?_eq_some.mp hn).1
  have e1 : s.Allocation.getD pid.toNat [] = arow := by simp [ha]
  have e2 : s.Need.getD pid.toNat [] = nrow := by simp [hn]
  refine ⟨?_, ?_, ?_⟩
  · show (List.zipWith (fun a r => wrap (a - r)) s.Available req).getD j 0 = _
    rw [zipWith_getD _ _ _ j (by omega) (by omega)]
  · show entry (s.Allocation.set pid.toNat _) pid.toNat j = _
    rw [entry_set_self _ _ _ _ hA, e1, zipWith_getD _ _ _ j (by omega) (by omega)]
    unfold entry
    rw [e1]
  · show entry (s.Need.set pid.toNat _) pid.toNat j = _
    rw [entry_set_self _ _ _ _ hN, e2, zipWith_getD _ _ _ j (by omega) (by omega)]
    unfold entry
    rw [e2]

/-- The mutation loop keeps `Need` the `int` difference `Max - Allocation`, whatever
the signs and sizes of the request components. -/
theorem mutated_needDerivedInt (s : BankersAlgorithm) (hs : Shaped s)
    (hd : NeedDerivedInt s) (pid : Int) (req : Vector) (hc : ValidCall s pid req) :
    NeedDerivedInt (mutated s pid req) := by
  intro i hi j hj
  have hi1 : i < s.n.toNat := hi
  have hj1 : j < s.m.toNat := hj
  show entry (mutated s pid req).Need i j =
    wrap (entry s.Max i j - entry (mutated s pid req).Allocation i j)
  by_cases hip : i = pid.toNat
  · subst hip
    obtain ⟨_, e2, e3⟩ := mutated_entries s hs pid req hc j hj1
    rw [e2, e3, hd _ hi1 j hj1]
    unfold wrap
    omega
  · rw [show entry (mutated s pid req).Need i j = entry s.Need i j from
        entry_set_ne s.Need pid.toNat _ i j hip,
      show entry (mutated s pid req).Allocation i j = entry s.Allocation i j from
        entry_set_ne s.Allocation pid.toNat _ i j hip]
    exact hd i hi1 j hj1

theorem runRequests_needDerivedInt : ∀ (calls : List (Int × Vector))
    (s s1 : BankersAlgorithm), Shaped s → IntState s → NeedDerivedInt s →
    runRequests s calls = some s1 → Shaped s1 ∧ IntState s1 ∧ NeedDerivedInt s1 := by
  intro calls
  induction calls with
  | nil =>
    intro s s1 hs hint hd h
    simp only [runRequests, Option.some.injEq] at h
    subst h
    exact ⟨hs, hint, hd⟩
  | cons call rest ih =>
    intro s s1 hs hint hd h
    simp only [runRequests, Option.bind_eq_some] at h
    obtain ⟨r, hr, hrest⟩ := h
    rcases Request_state_cases s hs hint call.1 call.2 r hr with h1 | ⟨hc, _, _, h1⟩
    · rw [h1] at hrest
      exact ih s s1 hs hint hd hrest
    · rw [h1] at hrest
      exact ih _ s1 (mutated_shaped s hs call.1 call.2 hc)
        (mutated_intState s hint call.1 call.2)
        (mutated_needDerivedInt s hs hd call.1 call.2 hc) hrest

/-- Where the exact difference `Max - Allocation` is an `int`, the `int` difference
held in `Need` is that difference. -/
theorem NeedDerivedInt.exact {s : BankersAlgorithm} (hd : NeedDerivedInt s) (i j : Nat)
    (hi : i < s.n.toNat) (hj : j < s.m.toNat)
    (hfit : IsInt (entry s.Max i j - entry s.Allocation i j)) :
    entry s.Need i j = entry s.Max i j - entry s.Allocation i j := by
  rw [hd i hi j hj]
  exact wrap_eq _ hfit

theorem matInt_of_entries (A : Matrix) (n m : Int) (hA : MatShape A n m)
    (h : ∀ i, i < n.toNat → ∀ j, j < m.toNat → IsInt (entry A i j)) : MatInt A := by
  intro row hrow a ha
  obtain ⟨i, hi, e1⟩ := List.getElem_of_mem hrow
  obtain ⟨j, hj, e2⟩ := List.getElem_of_mem ha
  have hlen := hA.2 row hrow
  have hn := hA.1
  have := h i (by omega) j (by omega)
  unfold entry at this
  have e3 : A.getD i [] = row := by simp [List.getElem?_eq_getElem hi, e1]
  have e4 : row.getD j 0 = a := by simp [List.getElem?_eq_getElem hj, e2]
  rw [e3, e4] at this
  exact this

/-- On `int` arguments the constructor leaves `int` entries everywhere. -/
theorem construct_intState (n m : Int) (av : Vector) (mx al : Matrix) (s : BankersAlgorithm)
    (h : construct n m av mx al = some s) (hav : VecInt av) (hmx : MatInt mx)
    (hal : MatInt al) : IntState s := by
  obtain ⟨⟨e1, e2, e3, e4, e5⟩, hd, hneed⟩ := construct_some n m av mx al s h
  refine ⟨by rw [e3]; exact hav, by rw [e4]; exact hmx, by rw [e5]; exact hal, ?_⟩
  apply matInt_of_entries s.Need n m hneed
  intro i hi j hj
  rw [hd i (by rw [e1]; exact hi) j (by rw [e2]; exact hj)]
  exact isInt_wrap _

theorem construct_shaped (n m : Int) (av : Vector) (mx al : Matrix)
    (hav : (av.length : Int) = m) (hmx : MatShape mx n m) (hal : MatShape al n m) :
    ∃ s, construct n m av mx al = some s ∧ Shaped s := by
  have hn : 0 ≤ n := by
    have := hmx.1
    omega
  obtain ⟨s, hs⟩ := construct_exists n m av mx al hn (by omega) hmx hal
  obtain ⟨⟨e1, e2, e3, e4, e5⟩, _, hneed⟩ := construct_some n m av mx al s hs
  refine ⟨s, hs, ?_⟩
  unfold Shaped
  rw [e1, e2, e3, e4, e5]
  exact ⟨hav, hmx, hal, hneed⟩

/-- Counterexample for C11: the constructor on `Maximum = [[INT_MAX]]`,
`Allocation = [[-1]]` stores `Need = [[INT_MIN]]`, not `INT_MAX + 1`; and on
`overflowGrant`, where `Need = Max - Allocation`, the granted request `[-1]` leaves
`Need[0][0] = INT_MIN` beside `Max[0][0] - Allocation[0][0] = INT_MAX + 1`. -/
theorem Need_derived_overflow :
    (construct 1 1 [0] [[2147483647]] [[-1]] =
        some ⟨1, 1, [0], [[2147483647]], [[-1]], [[-2147483648]]⟩ ∧
      ¬ NeedDerived ⟨1, 1, [0], [[2147483647]], [[-1]], [[-2147483648]]⟩) ∧
    (Shaped overflowGrant ∧ NeedDerived overflowGrant ∧
      runRequests overflowGrant [(0, [-1])] = some overflowGrantAfter ∧
      ¬ NeedDerived overflowGrantAfter) := by
  decide

/-- Claim C11, amended (`Need` is always the derived matrix, in `int` arithmetic):
every engine the constructor returns has `Need[i][j]` equal to the `int` difference
`Max[i][j] - Allocation[i][j]` for `i < n`, `j < m`; on an `n × m` engine with `int`
entries that still holds after every sequence of `Request` calls, whatever their
outcomes and the signs of the request components; the constructor does return such
an engine on `n × m` inputs; and wherever the exact difference
`Max[i][j] - Allocation[i][j]` lies in the `int` range, `Need[i][j]` is that
difference. -/
theorem Need_always_derived :
    (∀ n m av mx al s, construct n m av mx al = some s → NeedDerivedInt s) ∧
    (∀ s, Shaped s → IntState s → NeedDerivedInt s → ∀ calls s1,
      runRequests s calls = some s1 → NeedDerivedInt s1) ∧
    (∀ n m av mx al, (List.length av : Int) = m → MatShape mx n m → MatShape al n m →
      ∃ s, construct n m av mx al = some s ∧ Shaped s ∧
        (VecInt av → MatInt mx → MatInt al → IntState s)) ∧
    (∀ s, NeedDerivedInt s → ∀ i j, i < s.n.toNat → j < s.m.toNat →
      IsInt (entry s.Max i j - entry s.Allocation i j) →
      entry s.Need i j = entry s.Max i j - entry s.Allocation i j) := by
  refine ⟨?_, ?_, ?_, ?_⟩
  · intro n m av mx al s h
    exact (construct_some n m av mx al s h).2.1
  · intro s hs hint hd calls s1 h
    exact (runRequests_needDerivedInt calls s s1 hs hint hd h).2.2
  · intro n m av mx al hav hmx hal
    obtain ⟨s, h, hs⟩ := construct_shaped n m av mx al hav hmx hal
    exact ⟨s, h, hs, construct_intState n m av mx al s h⟩
  · intro s hd i j hi hj hfit
    exact hd.exact i j hi hj hfit

/-- Witness for the amended C11: the engine built in `main`, then a granted request
with a negative component and a refused one. -/
theorem Need_always_derived_witness :
    (construct 5 3 [3, 3, 2] [[7, 5, 3], [3, 2, 2], [9, 0, 2], [2, 2, 2], [4, 3, 3]]
        [[0, 1, 0], [2, 0, 0], [3, 0, 2], [2, 1, 1], [0, 0, 2]] = some canonical ∧
      runRequests canonical [(0, [0, -2, 0]), (1, [4, 0, 0])] = some canonicalNegative) ∧
    NeedDerivedInt canonical ∧ NeedDerivedInt canonicalNegative ∧
    entry canonicalNegative.Need 0 1 = 6 :=
  ⟨⟨by decide, by decide⟩,
    Need_always_derived.1 5 3 [3, 3, 2] [[7, 5, 3], [3, 2, 2], [9, 0, 2], [2, 2, 2], [4, 3, 3]]
      [[0, 1, 0], [2, 0, 0], [3, 0, 2], [2, 1, 1], [0, 0, 2]] canonical (by decide),
    Need_always_derived.2.1 canonical (by decide) (by decide) (by decide)
      [(0, [0, -2, 0]), (1, [4, 0, 0])] canonicalNegative (by decide),
    by decide⟩

/-- A returning run of the loop body either leaves the state as it was or finishes
the unfinished process `i`. -/
theorem forBody_some (s : BankersAlgorithm) (i : Nat) (st st1 : SafetyState)
    (h : forBody s i st = some st1) :
    st1 = st ∨
      (st.Finish[i]? = some false ∧ canMeetNeed s i st.Work = some true ∧
        st1.safeSequence = st.safeSequence ++ [i] ∧ st1.Finish = st.Finish.set i true ∧
        st1.progressed = true) := by
  unfold forBody at h
  cases hf : st.Finish[i]? with
  | none => simp [hf] at h
  | some f =>
    cases f with
    | true =>
      simp [hf] at h
      exact Or.inl h.symm
    | false =>
      cases hc : canMeetNeed s i st.Work with
      | none => simp [hf, hc] at h
      | some ok =>
        cases ok with
        | false =>
          simp [hf, hc] at h
          exact Or.inl h.symm
        | true =>
          cases hr : releaseLoop s.Allocation i 0 s.m.toNat st.Work with
          | none => simp [hf, hc, hr] at h
          | some W =>
            simp [hf, hc, hr] at h
            right
            subst h
            exact ⟨rfl, rfl, rfl, rfl, rfl⟩

/-- The processes a pass finishes are appended in strictly increasing index order;
each was unfinished when the pass began and is finished when it ends; a pass that
appends nothing changes nothing. -/
theorem forLoop_some (s : BankersAlgorithm) : ∀ k i (st st1 : SafetyState),
    forLoop s i k st = some st1 →
    ∃ extra, st1.safeSequence = st.safeSequence ++ extra ∧
      extra.Pairwise (fun a b => a < b) ∧
      (∀ x ∈ extra, i ≤ x ∧ x < i + k ∧ st.Finish[x]? = some false ∧
        st1.Finish[x]? = some true) ∧
      (∀ t : Nat, st.Finish[t]? = some true → st1.Finish[t]? = some true) ∧
      (extra = [] → st1 = st) ∧ (extra ≠ [] → st1.progressed = true) := by
  intro k
  induction k with
  | zero =>
    intro i st st1 h
    simp only [forLoop, Option.some.injEq] at h
    subst h
    exact ⟨[], by simp, List.Pairwise.nil, by simp, fun _ h => h, fun _ => rfl,
      fun h => absurd rfl h⟩
  | succ k ih =>
    intro i st st1 h
    simp only [forLoop, Option.bind_eq_bind, Option.bind_eq_some] at h
    obtain ⟨st2, hb, hrest⟩ := h
    obtain ⟨extra, e1, e2, e3, e4, e5, e6⟩ := ih (i + 1) st2 st1 hrest
    rcases forBody_some s i st st2 hb with h2 | ⟨hf, _, hseq, hfin, hprog⟩
    · subst h2
      refine ⟨extra, e1, e2, ?_, e4, e5, e6⟩
      intro x hx
      obtain ⟨a, b, c, d⟩ := e3 x hx
      exact ⟨by omega, by omega, c, d⟩
    · have hlt : i < st.Finish.length := (List.getElem?_eq_some.mp hf).1
      have hset : st2.Finish[i]? = some true := by
        rw [hfin, List.getElem?_set_self hlt]
      refine ⟨i :: extra, ?_, ?_, ?_, ?_, ?_, ?_⟩
      · rw [e1, hseq]
        simp
      · rw [List.pairwise_cons]
        refine ⟨?_, e2⟩
        intro x hx
        have := (e3 x hx).1
        omega
      · intro x hx
        rcases List.mem_cons.mp hx with hxi | hxe
        · subst hxi
          exact ⟨le_refl _, by omega, hf, e4 _ hset⟩
        · obtain ⟨a, b, c, d⟩ := e3 x hxe
          have hne : i ≠ x := by omega
          rw [hfin, List.getElem?_set_ne hne] at c
          exact ⟨by omega, by omega, c, d⟩
      · intro t ht
        apply e4
        by_cases hti : i = t
        · subst hti
          exact hset
        · rw [hfin, List.getElem?_set_ne hti]
          exact ht
      · intro hnil
        cases hnil
      · intro _
        rcases List.eq_nil_or_concat extra with hnil | ⟨l, b, hl⟩
        · rw [e5 hnil]
          exact hprog
        · apply e6
          rw [hl]
          simp

/-- A pass finishes first the lowest-indexed process that is unfinished and whose
need `canMeetNeed` finds met by the work vector the pass starts with. -/
theorem forLoop_first (s : BankersAlgorithm) (p : Nat) : ∀ k i (st st1 : SafetyState),
    forLoop s i k st = some st1 → i ≤ p → p < i + k →
    st.Finish[p]? = some false → canMeetNeed s p st.Work = some true →
    (∀ t, i ≤ t → t < p →
      st.Finish[t]? = some true ∨ canMeetNeed s t st.Work = some false) →
    ∃ rest, st1.safeSequence = st.safeSequence ++ p :: rest := by
  intro k
  induction k with
  | zero => intro i st st1 _ h1 h2; omega
  | succ k ih =>
    intro i st st1 h h1 h2 hf hc hbefore
    simp only [forLoop, Option.bind_eq_bind, Option.bind_eq_some] at h
    obtain ⟨st2, hb, hrest⟩ := h
    rcases Nat.eq_or_lt_of_le h1 with heq | hlt
    · subst heq
      rcases forBody_some s i st st2 hb with h2 | ⟨_, _, hseq, _, _⟩
      · exfalso
        subst h2
        unfold forBody at hb
        simp only [hf, hc, Option.bind_eq_bind, Option.some_bind, Bool.false_eq_true,
          if_false, if_true, Option.bind_eq_some, Option.some.injEq] at hb
        obtain ⟨W, _, hst⟩ := hb
        have := congrArg SafetyState.progressed hst
        have h3 := congrArg SafetyState.safeSequence hst
        simp only at h3
        have h4 := congrArg List.length h3
        simp at h4
      · obtain ⟨extra, e1, _⟩ := forLoop_some s k (i + 1) st2 st1 hrest
        refine ⟨extra, ?_⟩
        rw [e1, hseq]
        simp
    · have hst2 : st2 = st := by
        rcases forBody_some s i st st2 hb with h2 | ⟨hf2, hc2, _⟩
        · exact h2
        · exfalso
          rcases hbefore i (le_refl i) hlt with h3 | h3
          · rw [hf2] at h3; cases h3
          · rw [hc2] at h3; cases h3
      subst hst2
      exact ih (i + 1) st2 st1 hrest (by omega) (by omega) hf hc
        (fun t ht1 ht2 => hbefore t (by omega) ht2)

theorem whileLoop_append (s : BankersAlgorithm) : ∀ fuel (st st1 : SafetyState),
    whileLoop s fuel st = some st1 →
    ∃ extra, st1.safeSequence = st.safeSequence ++ extra := by
  intro fuel
  induction fuel with
  | zero =>
    intro st st1 h
    cases hp : st.progressed with
    | true => simp [whileLoop, hp] at h
    | false =>
      rw [whileLoop_done s 0 st hp] at h
      simp only [Option.some.injEq] at h
      subst h
      exact ⟨[], by simp⟩
  | succ fuel ih =>
    intro st st1 h
    cases hp : st.progressed with
    | false =>
      rw [whileLoop_done s _ st hp] at h
      simp only [Option.some.injEq] at h
      subst h
      exact ⟨[], by simp⟩
    | true =>
      simp only [whileLoop, hp, if_true, Option.bind_eq_bind, Option.bind_eq_some] at h
      obtain ⟨st2, h2, hrest⟩ := h
      obtain ⟨e1, he1, _⟩ := forLoop_some s _ 0 _ st2 h2
      obtain ⟨e2, he2⟩ := ih st2 st1 hrest
      refine ⟨e1 ++ e2, ?_⟩
      rw [he2, he1]
      simp

/-- Claim C17 (lowest-index tie-break): a pass of `Safety` goes through the process
indices in increasing order, so (1) the first process it finishes is the
lowest-indexed one that is unfinished and whose need is met by the work vector at
the start of the pass, (2) the processes finished within one pass are appended in
strictly increasing index order, and (3) on a well-formed state in which some
process has `Need[i][j] ≤ Available[j]` for all `j`, the returned sequence starts
with the smallest such index. -/
theorem Safety_lowest_index_first (s : BankersAlgorithm) :
    (∀ st st1 p, forLoop s 0 s.n.toNat st = some st1 → p < s.n.toNat →
      st.Finish[p]? = some false → canMeetNeed s p st.Work = some true →
      (∀ t, t < p → st.Finish[t]? = some true ∨ canMeetNeed s t st.Work = some false) →
      ∃ rest, st1.safeSequence = st.safeSequence ++ p :: rest) ∧
    (∀ st st1, forLoop s 0 s.n.toNat st = some st1 →
      ∃ extra, st1.safeSequence = st.safeSequence ++ extra ∧
        extra.Pairwise (fun a b => a < b)) ∧
    (WellFormed s → ∀ p, p < s.n.toNat → eligible s p s.Available = true →
      (∀ t, t < p → eligible s t s.Available = false) →
      ∃ b rest, Safety s = some (b, p :: rest)) := by
  refine ⟨?_, ?_, ?_⟩
  · intro st st1 p h hp hf hc hbefore
    exact forLoop_first s p _ 0 st st1 h (Nat.zero_le p) (by omega) hf hc
      (fun t _ ht => hbefore t ht)
  · intro st st1 h
    obtain ⟨extra, e1, e2, _⟩ := forLoop_some s _ 0 st st1 h
    exact ⟨extra, e1, e2⟩
  · intro hwf p hp hel hbefore
    obtain ⟨st, hst, _, _⟩ := Safety_final s hwf.1
    have hS := hst
    unfold Safety SafetyFuel at hS
    have hn : ¬ s.n < 0 := by
      have := hwf.1.2.1.1
      omega
    simp only [hn, if_false, Option.bind_eq_bind, Option.bind_eq_some, Option.some.injEq,
      Prod.mk.injEq] at hS
    obtain ⟨st1, hw, _, hseq⟩ := hS
    have hp0 : (initState s).progressed = true := rfl
    simp only [whileLoop, hp0, if_true, Option.bind_eq_bind, Option.bind_eq_some] at hw
    obtain ⟨st2, h2, hrest⟩ := hw
    have helig : ∀ t, t < s.n.toNat →
        canMeetNeed s t s.Available = some (eligible s t s.Available) := by
      intro t ht
      obtain ⟨row, hrow, hlen⟩ := hwf.1.need_row t ht
      exact canMeetNeed_eq s t row s.Available hrow hlen hwf.1.avail_length
    have hfin : ∀ t, t < s.n.toNat →
        (List.replicate s.n.toNat false)[t]? = some false := by
      intro t ht
      rw [List.getElem?_eq_getElem (by simpa using ht)]
      simp
    obtain ⟨rest1, hr1⟩ := forLoop_first s p _ 0 _ st2 h2 (Nat.zero_le p) (by omega)
      (hfin p hp) (by rw [← hel]; exact helig p hp)
      (fun t _ ht => Or.inr (by rw [← hbefore t ht]; exact helig t (by omega)))
    obtain ⟨extra, he⟩ := whileLoop_append s _ st2 st1 hrest
    refine ⟨decide (st.safeSequence.length = s.n.toNat), rest1 ++ extra, ?_⟩
    rw [hst, ← hseq, he, hr1]
    simp [initState]

/-- Witness for C17 on the engine built in `main`: process 0 is not eligible for
`Available`, process 1 is, and the sequence starts with 1. -/
theorem Safety_lowest_index_first_witness :
    (WellFormed canonical ∧ eligible canonical 1 canonical.Available = true ∧
      eligible canonical 0 canonical.Available = false ∧
      forLoop canonical 0 canonical.n.toNat (initState canonical) =
        some ⟨[7, 4, 5], [false, true, false, true, true], [1, 3, 4], true⟩) ∧
    (∃ rest, [1, 3, 4] = (initState canonical).safeSequence ++ 1 :: rest) ∧
    (∃ extra, [1, 3, 4] = (initState canonical).safeSequence ++ extra ∧
      extra.Pairwise (fun a b => a < b)) ∧
    ∃ b rest, Safety canonical = some (b, 1 :: rest) :=
  ⟨⟨by decide, by decide, by decide, by decide⟩,
    (Safety_lowest_index_first canonical).1 (initState canonical)
      ⟨[7, 4, 5], [false, true, false, true, true], [1, 3, 4], true⟩ 1 (by decide) (by decide)
      (by decide) (by decide) (by decide),
    (Safety_lowest_index_first canonical).2.1 (initState canonical)
      ⟨[7, 4, 5], [false, true, false, true, true], [1, 3, 4], true⟩ (by decide),
    (Safety_lowest_index_first canonical).2.2 (by decide) 1 (by decide) (by decide)
      (by decide)⟩

/-! ## Termination -/

/-- The logged loop computes the same final state as the `while` loop of `Safety`. -/
theorem whileLoopLog_fst (s : BankersAlgorithm) : ∀ fuel (st : SafetyState),
    (whileLoopLog s fuel st).map (fun r => r.1) = whileLoop s fuel st := by
  intro fuel
  induction fuel with
  | zero =>
    intro st
    cases hp : st.progressed <;> simp [whileLoopLog, whileLoop, hp]
  | succ fuel ih =>
    intro st
    cases hp : st.progressed with
    | false => simp [whileLoopLog, whileLoop, hp]
    | true =>
      simp only [whileLoopLog, whileLoop, hp, if_true, Option.bind_eq_bind]
      cases forLoop s 0 s.n.toNat { st with progressed := false } with
      | none => rfl
      | some st1 =>
        simp only [Option.some_bind]
        rw [← ih st1]
        cases whileLoopLog s fuel st1 with
        | none => rfl
        | some r => rfl

/-- The progressing passes of a returning run are at most as many as the processes
unfinished at its start, and only the last pass can fail to progress. -/
theorem whileLoopLog_bound (s : BankersAlgorithm) : ∀ fuel (st st1 : SafetyState)
    (log : List Bool), whileLoopLog s fuel st = some (st1, log) →
    log.count true ≤ st.Finish.count false ∧ log.length ≤ log.count true + 1 := by
  intro fuel
  induction fuel with
  | zero =>
    intro st st1 log h
    cases hp : st.progressed with
    | true => simp [whileLoopLog, hp] at h
    | false =>
      simp only [whileLoopLog, hp, Bool.false_eq_true, if_false, Option.some.injEq,
        Prod.mk.injEq] at h
      rw [← h.2]
      simp
  | succ fuel ih =>
    intro st st1 log h
    cases hp : st.progressed with
    | false =>
      simp only [whileLoopLog, hp, Bool.false_eq_true, if_false, Option.some.injEq,
        Prod.mk.injEq] at h
      rw [← h.2]
      simp
    | true =>
      simp only [whileLoopLog, hp, if_true, Option.bind_eq_bind, Option.bind_eq_some,
        Option.some.injEq, Prod.mk.injEq] at h
      obtain ⟨st2, h2, r, hr, _, hlog⟩ := h
      obtain ⟨b1, b2⟩ := ih st2 r.1 r.2 hr
      rw [← hlog]
      cases hp2 : st2.progressed with
      | false =>
        have hnil : r.2 = [] := by
          cases fuel with
          | zero =>
            simp only [whileLoopLog, hp2, Bool.false_eq_true, if_false, Option.some.injEq] at hr
            rw [← hr]
          | succ f =>
            simp only [whileLoopLog, hp2, Bool.false_eq_true, if_false, Option.some.injEq] at hr
            rw [← hr]
        rw [hnil]
        simp
      | true =>
        rcases forLoop_progress s _ _ _ _ h2 with h3 | ⟨_, h4⟩
        · rw [h3] at hp2
          simp at hp2
        · simp only at h4
          simp only [List.count_cons_self, List.length_cons]
          omega

/-- Claim C15 (termination): on a well-formed state the pass loop of `Safety` ends
within any bound of at least `n + 1` passes, having run at most `n + 1` passes of
which at most `n` set `progressed`; a pass that sets `progressed` finishes at least
one process that was unfinished before it; and `Request`, which runs `Safety` once,
returns for every process index in `[0, n)` and request of length `m`. -/
theorem Safety_terminates (s : BankersAlgorithm) (hwf : WellFormed s) :
    (∀ fuel, s.n.toNat + 1 ≤ fuel →
      ∃ st log, whileLoopLog s fuel (initState s) = some (st, log) ∧
        whileLoop s fuel (initState s) = some st ∧
        log.length ≤ s.n.toNat + 1 ∧ log.count true ≤ s.n.toNat) ∧
    (∀ st st1 : SafetyState,
      forLoop s 0 s.n.toNat { st with progressed := false } = some st1 →
      st1.progressed = true →
      ∃ i, i < s.n.toNat ∧ st.Finish[i]? = some false ∧ st1.Finish[i]? = some true) ∧
    (∃ r, Safety s = some r) ∧
    (∀ pid req, 0 ≤ pid → pid < s.n → (List.length req : Int) = s.m →
      ∃ r, Request s pid req = some r) := by
  refine ⟨?_, ?_, ?_, ?_⟩
  · intro fuel hfuel
    obtain ⟨st, hst, _, _⟩ := whileLoop_inv s hwf.1 fuel (initState s)
      (by simp only [initState, List.count_replicate_self]; omega) (SafetyInv.init s hwf.1)
      (by simp [initState])
    have hmap := whileLoopLog_fst s fuel (initState s)
    rw [hst] at hmap
    cases hlog : whileLoopLog s fuel (initState s) with
    | none => rw [hlog] at hmap; cases hmap
    | some r =>
      rw [hlog] at hmap
      simp only [Option.map_some', Option.some.injEq] at hmap
      obtain ⟨b1, b2⟩ := whileLoopLog_bound s fuel (initState s) r.1 r.2 hlog
      have hc : (initState s).Finish.count false = s.n.toNat := by
        simp [initState]
      rw [hc] at b1
      refine ⟨r.1, r.2, rfl, ?_, by omega, b1⟩
      rw [hmap]
      exact hst
  · intro st st1 h hp
    obtain ⟨extra, _, _, e3, _, e5, _⟩ := forLoop_some s _ 0 _ st1 h
    cases extra with
    | nil =>
      have := e5 rfl
      rw [this] at hp
      cases hp
    | cons x rest =>
      obtain ⟨_, a, b, c⟩ := e3 x (List.mem_cons_self x rest)
      exact ⟨x, by omega, b, c⟩
  · obtain ⟨st, hst, _, _⟩ := Safety_final s hwf.1
    exact ⟨_, hst⟩
  · intro pid req h0 hn hreq
    exact Request_exists s hwf.1 pid req (validCall_of s pid req h0 hn hreq)

/-- Witness for C15 on the engine built in `main`: two progressing passes and a
last one that finds nothing to do. -/
theorem Safety_terminates_witness :
    (WellFormed canonical ∧
      (whileLoopLog canonical 6 (initState canonical)).map (fun r => r.2) =
        some [true, true, false]) ∧
    (∃ st log, whileLoopLog canonical 9 (initState canonical) = some (st, log) ∧
      whileLoop canonical 9 (initState canonical) = some st ∧
      log.length ≤ canonical.n.toNat + 1 ∧ log.count true ≤ canonical.n.toNat) ∧
    (∃ i, i < canonical.n.toNat ∧ (initState canonical).Finish[i]? = some false ∧
      [false, true, false, true, true][i]? = some true) ∧
    (∃ r, Safety canonical = some r) ∧
    ∃ r, Request canonical 1 [1, 0, 2] = some r :=
  ⟨⟨by decide, by decide⟩,
    (Safety_terminates canonical (by decide)).1 9 (by decide),
    (Safety_terminates canonical (by decide)).2.1 (initState canonical)
      ⟨[7, 4, 5], [false, true, false, true, true], [1, 3, 4], true⟩ (by decide) rfl,
    (Safety_terminates canonical (by decide)).2.2.1,
    (Safety_terminates canonical (by decide)).2.2.2 1 [1, 0, 2] (by decide) (by decide)
      (by decide)⟩

end BankersAlgo
